import Mathlib

/-!
# Verification of the nbexplode explode/recombine codec

Shallow embedding of `src/nbexplode.py`: a tool converting a notebook
document (metadata + ordered cells, each cell: type + source + metadata +
optional outputs) into a directory tree and back.

Modelling choices (documented here once, referenced from the definitions):

* JSON documents (notebook/cell/output metadata, error payloads) are opaque
  key-value documents, modelled as association lists `List (String × JVal)`.
  Values are either atoms (`JVal.str`, an opaque serialized payload) or
  one-level sub-documents with atomic values (`JVal.doc`), which is the only
  nesting the source ever destructures (`metadata.language_info.file_extension`).
  `json.dump(..., sort_keys=True)` is modelled by `sortDoc` (a recursive
  key-sort); `json.load` of a stored document is the identity, since a stored
  document is exactly the canonical document it serializes.
* The filesystem is an append-only list of `(path, contents)` entries, where a
  path is the list of its components; `fsRead` returns the last write to a
  path, so overwriting is shadowing.  Directories are implicit.  `pathlib`'s
  `glob('source.*')` enumerates matching entries in list order, matching the
  unspecified `os.scandir` order of the real system.
* Python `NotebookNode` objects are dicts; outputs are modelled as a record
  with one field per key the source ever touches.  `output.pop('output_type')`
  is modelled by setting `output_type := none`.  An error output stores its
  non-`output_type` fields in `errdata` (the source dumps the popped dict
  whole); its other record fields are unused and are `none`/`[]` for
  well-formed inputs.
* Exceptions (KeyError, IndexError, FileNotFoundError, ...) are modelled with
  `Except String`; an error aborts the whole operation and its partial
  filesystem writes are discarded (the claims under verification never observe
  the partial tree of a failed run).
* `uuid4()` is modelled by a caller-supplied generator `gen : Nat → String`
  consumed left to right; freshness/uniqueness of generated identifiers is a
  hypothesis where a claim needs it.
* `base64.b64decode` / `b64encode` are implemented concretely on
  `List Nat` bytes; machine integers do not occur elsewhere.
-/

namespace Nbexplode

/-! ## Association-list primitives (Python dict operations) -/

/-- Dict lookup: first binding of `k` (dicts have unique keys). -/
def lookupKV {α : Type} : List (String × α) → String → Option α
  | [], _ => none
  | (k1, v1) :: rest, k => if k1 = k then some v1 else lookupKV rest k

/-- Dict `pop k`: remove the (first) binding of `k`. -/
def eraseKV {α : Type} : List (String × α) → String → List (String × α)
  | [], _ => []
  | (k1, v1) :: rest, k => if k1 = k then rest else (k1, v1) :: eraseKV rest k

/-- Dict `d[k] = v`: replace in place if present, else append at the end. -/
def setKV {α : Type} : List (String × α) → String → α → List (String × α)
  | [], k, v => [(k, v)]
  | (k1, v1) :: rest, k, v =>
      if k1 = k then (k1, v) :: rest else (k1, v1) :: setKV rest k v

/-- Ordered insertion by key (used to model sorting with `sort_keys=True`). -/
def insKV {α : Type} (k : String) (v : α) : List (String × α) → List (String × α)
  | [] => [(k, v)]
  | (k1, v1) :: rest =>
      if k < k1 then (k, v) :: (k1, v1) :: rest else (k1, v1) :: insKV k v rest

/-- Insertion sort by key. -/
def sortKV {α : Type} : List (String × α) → List (String × α)
  | [] => []
  | (k, v) :: rest => insKV k v (sortKV rest)

/-- `k` is strictly below every key of `d`. -/
def ltAll {α : Type} (k : String) (d : List (String × α)) : Prop :=
  ∀ p ∈ d, k < p.1

instance {α : Type} (k : String) (d : List (String × α)) : Decidable (ltAll k d) :=
  List.decidableBAll _ d

/-- Keys strictly sorted (hence unique): the canonical order `sort_keys=True`
produces, and the form in which the model represents observed documents. -/
def canonKV {α : Type} : List (String × α) → Prop
  | [] => True
  | (k, _) :: rest => ltAll k rest ∧ canonKV rest

def canonKVDec {α : Type} : (d : List (String × α)) → Decidable (canonKV d)
  | [] => isTrue trivial
  | (_, _) :: rest =>
      match canonKVDec rest with
      | isTrue h => match inferInstanceAs (Decidable (ltAll _ rest)) with
        | isTrue h2 => isTrue ⟨h2, h⟩
        | isFalse h2 => isFalse (fun hc => h2 hc.1)
      | isFalse h => isFalse (fun hc => h hc.2)

instance {α : Type} (d : List (String × α)) : Decidable (canonKV d) := canonKVDec d

/-- Ordered insertion of a plain string. -/
def insStr (x : String) : List String → List String
  | [] => [x]
  | y :: rest => if x < y then x :: y :: rest else y :: insStr x rest

/-- Python `sorted` on a list of strings (here: dict keys, which are unique,
so strict-`<` insertion matches the stable library sort). -/
def sortStr : List String → List String
  | [] => []
  | x :: rest => insStr x (sortStr rest)

/-! ## Opaque JSON documents -/

/-- An opaque JSON value: an atom, or a one-level sub-document.  (See the
module docstring: only one level of nesting is ever destructured.) -/
inductive JVal where
  | str : String → JVal
  | doc : List (String × String) → JVal
deriving DecidableEq

/-- An opaque JSON document: key → value association list. -/
abbrev JDoc := List (String × JVal)

/-- Recursive key-sort of a value, as done by `json.dump(sort_keys=True)`. -/
def sortVal : JVal → JVal
  | .str s => .str s
  | .doc d => .doc (sortKV d)

/-- Recursive key-sort of a document: `json.dump(..., sort_keys=True)`
serializes exactly this canonical form. -/
def sortDoc (d : JDoc) : JDoc := sortKV (d.map (fun p => (p.1, sortVal p.2)))

def canonVal : JVal → Prop
  | .str _ => True
  | .doc d => canonKV d

instance : (v : JVal) → Decidable (canonVal v)
  | .str _ => isTrue trivial
  | .doc d => canonKVDec d

/-- A document in canonical (recursively key-sorted) form. -/
def canonDoc (d : JDoc) : Prop := canonKV d ∧ ∀ p ∈ d, canonVal p.2

instance (d : JDoc) : Decidable (canonDoc d) := instDecidableAnd

/-! ## Character-list string utilities

All string processing is routed through total functions on `List Char`, with
`String` only at the interfaces, so that proofs are ordinary list inductions. -/

/-- `s.startswith(pre)` / fnmatch of the literal part of `source.*`. -/
def startsList (s pre : String) : Bool := List.isPrefixOf pre.toList s.toList

/-- Python `str.split(sep)` on character lists, via a structural fuel
argument (the list length bounds the recursion depth, so the fuel never runs
out; `sep ≠ []` only rules out the degenerate separator). -/
def splitCharsAux (sep : List Char) : Nat → List Char → List (List Char)
  | _, [] => [[]]
  | 0, c :: rest => [c :: rest]
  | fuel + 1, c :: rest =>
    if sep ≠ [] ∧ sep.isPrefixOf (c :: rest) = true then
      [] :: splitCharsAux sep fuel (List.drop (sep.length - 1) rest)
    else
      match splitCharsAux sep fuel rest with
      | [] => [[c]]
      | seg :: segs => (c :: seg) :: segs

def splitChars (sep : List Char) (l : List Char) : List (List Char) :=
  splitCharsAux sep l.length l

theorem splitCharsAux_irrel (sep : List Char) :
    ∀ (f1 : Nat) {f2 : Nat} {l : List Char}, l.length ≤ f1 → l.length ≤ f2 →
    splitCharsAux sep f1 l = splitCharsAux sep f2 l := by
  intro f1
  induction f1 with
  | zero =>
    intro f2 l h1 h2
    cases l with
    | nil =>
      cases f2 with
      | zero => rfl
      | succ g2 => rfl
    | cons c rest => simp at h1
  | succ g1 ih =>
    intro f2 l h1 h2
    cases l with
    | nil =>
      cases f2 with
      | zero => rfl
      | succ g2 => rfl
    | cons c rest =>
      cases f2 with
      | zero => simp at h2
      | succ g2 =>
        have hr1 : rest.length ≤ g1 := by simp at h1; omega
        have hr2 : rest.length ≤ g2 := by simp at h2; omega
        show (if sep ≠ [] ∧ sep.isPrefixOf (c :: rest) = true then
            [] :: splitCharsAux sep g1 (List.drop (sep.length - 1) rest)
          else
            match splitCharsAux sep g1 rest with
            | [] => [[c]]
            | seg :: segs => (c :: seg) :: segs)
          = (if sep ≠ [] ∧ sep.isPrefixOf (c :: rest) = true then
            [] :: splitCharsAux sep g2 (List.drop (sep.length - 1) rest)
          else
            match splitCharsAux sep g2 rest with
            | [] => [[c]]
            | seg :: segs => (c :: seg) :: segs)
        by_cases h : sep ≠ [] ∧ sep.isPrefixOf (c :: rest) = true
        · rw [if_pos h, if_pos h]
          have hd1 : (List.drop (sep.length - 1) rest).length ≤ g1 := by
            simp only [List.length_drop]
            omega
          have hd2 : (List.drop (sep.length - 1) rest).length ≤ g2 := by
            simp only [List.length_drop]
            omega
          rw [ih hd1 hd2]
        · rw [if_neg h, if_neg h]
          rw [ih hr1 hr2]

theorem splitChars_eq_cons (sep : List Char) (c : Char) (rest : List Char) :
    splitChars sep (c :: rest)
      = if sep ≠ [] ∧ sep.isPrefixOf (c :: rest) = true then
          [] :: splitChars sep (List.drop (sep.length - 1) rest)
        else
          match splitChars sep rest with
          | [] => [[c]]
          | seg :: segs => (c :: seg) :: segs := by
  show (if sep ≠ [] ∧ sep.isPrefixOf (c :: rest) = true then
      [] :: splitCharsAux sep rest.length (List.drop (sep.length - 1) rest)
    else
      match splitCharsAux sep rest.length rest with
      | [] => [[c]]
      | seg :: segs => (c :: seg) :: segs) = _
  by_cases h : sep ≠ [] ∧ sep.isPrefixOf (c :: rest) = true
  · rw [if_pos h, if_pos h]
    have hd : (List.drop (sep.length - 1) rest).length ≤ rest.length := by
      simp only [List.length_drop]
      omega
    rw [splitCharsAux_irrel sep rest.length hd (le_refl _)]
    rfl
  · rw [if_neg h, if_neg h]
    rfl

/-- Python `str.split(sep)`. -/
def pySplit (s sep : String) : List String :=
  (splitChars sep.toList s.toList).map String.mk

/-- Python `str.splitlines()` on character lists: one segment per line, a
trailing newline produces no final empty segment, `"" → []`. -/
def splitLinesChars : List Char → List (List Char)
  | [] => []
  | c :: rest =>
    if c = '\n' then [] :: splitLinesChars rest
    else
      match splitLinesChars rest with
      | [] => [[c]]
      | seg :: segs => (c :: seg) :: segs

/-- Python `str.splitlines()`. -/
def pySplitlines (s : String) : List String :=
  (splitLinesChars s.toList).map String.mk

/-- Python `", ".join(l)` (general separator). -/
def joinSep (sep : String) : List String → String
  | [] => ""
  | [x] => x
  | x :: rest => x ++ sep ++ joinSep sep rest

/-- The content written by the `f.write(l + '\n')` loops (one line per item). -/
def linesOut : List String → String
  | [] => ""
  | s :: rest => s ++ "\n" ++ linesOut rest

/-- Decimal digits of `n`, most significant first (Python `'%d' % n` for a
nonnegative count), via a structural fuel argument (`n` itself bounds the
number of divisions by ten). -/
def natDigitsAux : Nat → Nat → List Char
  | 0, _ => []
  | fuel + 1, n =>
    if n < 10 then [Char.ofNat (48 + n)]
    else natDigitsAux fuel (n / 10) ++ [Char.ofNat (48 + n % 10)]

def natDigits (n : Nat) : List Char := natDigitsAux (n + 1) n

theorem natDigitsAux_irrel :
    ∀ (f1 : Nat) {f2 n : Nat}, n < f1 → n < f2 →
    natDigitsAux f1 n = natDigitsAux f2 n := by
  intro f1
  induction f1 with
  | zero =>
    intro f2 n h1 h2
    omega
  | succ g1 ih =>
    intro f2 n h1 h2
    cases f2 with
    | zero => omega
    | succ g2 =>
      show (if n < 10 then [Char.ofNat (48 + n)]
          else natDigitsAux g1 (n / 10) ++ [Char.ofNat (48 + n % 10)])
        = (if n < 10 then [Char.ofNat (48 + n)]
          else natDigitsAux g2 (n / 10) ++ [Char.ofNat (48 + n % 10)])
      by_cases h : n < 10
      · rw [if_pos h, if_pos h]
      · rw [if_neg h, if_neg h]
        have hd : n / 10 < n := Nat.div_lt_self (by omega) (by omega)
        have hx1 : n / 10 < g1 := by omega
        have hx2 : n / 10 < g2 := by omega
        rw [ih hx1 hx2]

theorem natDigits_eq_def (n : Nat) :
    natDigits n = if n < 10 then [Char.ofNat (48 + n)]
                  else natDigits (n / 10) ++ [Char.ofNat (48 + n % 10)] := by
  show (if n < 10 then [Char.ofNat (48 + n)]
      else natDigitsAux n (n / 10) ++ [Char.ofNat (48 + n % 10)]) = _
  by_cases h : n < 10
  · rw [if_pos h, if_pos h]
  · rw [if_neg h, if_neg h]
    have hd : n / 10 < n := Nat.div_lt_self (by omega) (by omega)
    rw [show natDigits (n / 10) = natDigitsAux (n / 10 + 1) (n / 10) from rfl]
    rw [natDigitsAux_irrel n hd (Nat.lt_succ_self _)]

/-- Python `'%d' % n` for a nonnegative integer. -/
def natRepr (n : Nat) : String := String.mk (natDigits n)

/-- Python `int(s)` on a digit string, as a fold. -/
def digitsToNat (cs : List Char) : Nat :=
  cs.foldl (fun a c => a * 10 + (c.toNat - 48)) 0

/-- `PurePath.suffix`: the extension from the last dot of the final name, `""`
when there is no dot or the dot is trailing.  (The divergence from `pathlib`
on names with a single leading dot cannot arise: every name reaching this
function matches `source.*`, so the last dot has index ≥ 6.) -/
def pathSuffix (nm : String) : String :=
  let r := nm.toList.reverse
  let ext := r.takeWhile (fun c => c ≠ '.')
  if ext.length = r.length then ""
  else if ext.length = 0 then ""
  else String.mk ('.' :: ext.reverse)

/-- The regex `re.compile(r'\((\d+)\)$').search(info)`: matches when `info`
ends in `(` digits⁺ `)`; returns the counter value and `len(m.group(0))`. -/
def execSuffix (s : String) : Option (Nat × Nat) :=
  let r := s.toList.reverse
  if r.head? = some ')' then
    let ds := r.tail.takeWhile Char.isDigit
    if ds = [] then none
    else if (r.tail.drop ds.length).head? = some '(' then
      some (digitsToNat ds.reverse, ds.length + 2)
    else none
  else none

/-! ## Base64 (the `base64` library functions, on `List Nat` bytes) -/

def b64chars : List Char :=
  "ABCDEFGHIJKLMNOPQRSTUVWXYZabcdefghijklmnopqrstuvwxyz0123456789+/".toList

def b64charOf (n : Nat) : Char := b64chars.getD n '='

def charIdx (c : Char) : List Char → Nat → Option Nat
  | [], _ => none
  | d :: rest, i => if d = c then some i else charIdx c rest (i + 1)

def b64indexOf (c : Char) : Option Nat := charIdx c b64chars 0

/-- RFC 4648 encoding of a byte list, 3 bytes → 4 chars, `=`-padded. -/
def b64encodeChunks : List Nat → List Char
  | [] => []
  | [a] => [b64charOf (a / 4), b64charOf (a % 4 * 16), '=', '=']
  | [a, b] => [b64charOf (a / 4), b64charOf (a % 4 * 16 + b / 16),
               b64charOf (b % 16 * 4), '=']
  | a :: b :: c :: rest =>
      b64charOf (a / 4) :: b64charOf (a % 4 * 16 + b / 16) ::
      b64charOf (b % 16 * 4 + c / 64) :: b64charOf (c % 64) ::
      b64encodeChunks rest

/-- `base64.b64encode(bytes).decode('ascii')`. -/
def b64encode (bs : List Nat) : String := String.mk (b64encodeChunks bs)

/-- 6-bit groups → bytes (4 → 3, final 2 → 1, final 3 → 2). -/
def b64decodeVals : List Nat → List Nat
  | a :: b :: c :: d :: rest =>
      (a * 4 + b / 16) :: (b % 16 * 16 + c / 4) :: (c % 4 * 64 + d) ::
      b64decodeVals rest
  | [a, b] => [a * 4 + b / 16]
  | [a, b, c] => [a * 4 + b / 16, b % 16 * 16 + c / 4]
  | _ => []

/-- `base64.b64decode(s.encode('ascii'))`: non-alphabet characters (including
the `=` padding) are discarded, then 6-bit groups are packed into bytes. -/
def b64decode (s : String) : List Nat :=
  b64decodeVals (s.toList.filterMap b64indexOf)

/-! ## Filesystem model -/

/-- A path: the list of its components. -/
abbrev Path := List String

/-- File contents.  A `.json` dump of an opaque document is stored as the
(canonically sorted) document itself: the sorted-key serialization is
injective, so this is a faithful representation of the byte content. -/
inductive FileData where
  | textF : String → FileData
  | bytesF : List Nat → FileData
  | jsonF : JDoc → FileData
deriving DecidableEq

/-- Append-only filesystem journal; `fsRead` resolves shadowing. -/
abbrev FS := List (Path × FileData)

/-- Read a file: the last write to the path, if any. -/
def fsRead (fs : FS) (p : Path) : Option FileData :=
  fs.foldl (fun acc e => if e.1 = p then some e.2 else acc) none

/-! ## Notebook data model (§3 of the spec, shapes the source destructures) -/

/-- An output `NotebookNode` dict, one record field per key the source ever
touches.  `output_type := none` models the key having been popped.  For an
`error` output the remaining dict (exception name, message, traceback) is the
opaque document `errdata`, which is what `json.dump(output)` serializes after
the pop. -/
structure Output where
  output_type : Option String
  name : Option String
  text : Option String
  errdata : JDoc
  data : List (String × String)
  metadata : JDoc
  execution_count : Option Nat
deriving DecidableEq

/-- `nbformat.v4.new_output('stream', name=..., text=...)`. -/
def new_stream (nm tx : String) : Output :=
  ⟨some "stream", some nm, some tx, [], [], [], none⟩

/-- `nbformat.v4.new_output('error', **err_data)`. -/
def new_error (d : JDoc) : Output :=
  ⟨some "error", none, none, d, [], [], none⟩

/-- `nbformat.v4.new_output('execute_result', execution_count=n)`. -/
def new_execute_result (n : Nat) : Output :=
  ⟨some "execute_result", none, none, [], [], [], some n⟩

/-- `nbformat.v4.new_output('display_data')`. -/
def new_display_data : Output :=
  ⟨some "display_data", none, none, [], [], [], none⟩

/-- A cell: type, source text, opaque metadata, and — distinguished from an
absent attribute — an optional ordered output list (`cell.get('outputs')`
is `None` when the attribute is missing). -/
structure Cell where
  cell_type : String
  source : String
  metadata : JDoc
  outputs : Option (List Output)
deriving DecidableEq

/-- `nbformat.v4.new_markdown_cell(src)`: no outputs attribute. -/
def newMarkdownCell (src : String) : Cell := ⟨"markdown", src, [], none⟩

/-- The explicit raw `NotebookNode` built in `recombine`: no outputs attribute. -/
def rawCell (src : String) : Cell := ⟨"raw", src, [], none⟩

/-- `nbformat.v4.new_code_cell(src)`: an empty outputs list. -/
def newCodeCell (src : String) : Cell := ⟨"code", src, [], some []⟩

/-- A notebook: opaque metadata plus ordered cells. -/
structure Notebook where
  metadata : JDoc
  cells : List Cell
deriving DecidableEq

/-! ## Shared lookup tables -/

/-- `_mime_to_ext`: the fixed, closed mime-type → extension table;
a type outside it is a `KeyError`. -/
def mime_to_ext (m : String) : Option String :=
  if m = "text/plain" then some ".txt"
  else if m = "text/html" then some ".html"
  else if m = "text/latex" then some ".tex"
  else if m = "image/png" then some ".png"
  else if m = "image/jpeg" then some ".jpg"
  else none

/-- `_is_binary`: classify by mime-type prefix. -/
def is_binary (mime : String) : Bool :=
  startsList mime "image/" || startsList mime "application/" || startsList mime "audio"

/-! ## Except plumbing (Python exception propagation) -/

def ebind {α β : Type} : Except String α → (α → Except String β) → Except String β
  | .ok a, f => f a
  | .error e, _ => .error e

def emap {α β : Type} (f : α → β) : Except String α → Except String β
  | .ok a => .ok (f a)
  | .error e => .error e

instance {ε α : Type} [DecidableEq ε] [DecidableEq α] :
    DecidableEq (Except ε α) := fun a b =>
  match a, b with
  | .ok x, .ok y =>
      match decEq x y with
      | isTrue h => isTrue (h ▸ rfl)
      | isFalse h => isFalse (fun he => h (Except.ok.inj he))
  | .ok _, .error _ => isFalse (fun he => Except.noConfusion he)
  | .error _, .ok _ => isFalse (fun he => Except.noConfusion he)
  | .error x, .error y =>
      match decEq x y with
      | isTrue h => isTrue (h ▸ rfl)
      | isFalse h => isFalse (fun he => h (Except.error.inj he))

def isError {α : Type} : Except String α → Prop
  | .ok _ => False
  | .error _ => True

instance {α : Type} : (e : Except String α) → Decidable (isError e)
  | .ok _ => isFalse id
  | .error _ => isTrue trivial

/-! ## The exploder (`explode_output`, `explode`)

Each writer returns the list of filesystem entries it creates (the caller
appends them to the journal), together with the mutated in-memory objects and
the computed descriptor strings. -/

/-- `explode_output(output, cell_dir, i)` (source lines 21–53): pops
`output_type`, writes the output's files under `cell_dir`, and returns the
descriptor line.  An `output_type` outside the four handled kinds makes the
Python function return `None`, which crashes the caller's
`f.write(l + '\n')` with a `TypeError`; the model raises at once (the failed
run's partial tree is never observed). -/
def explode_output (output : Output) (cell_dir : Path) (i : Nat) :
    Except String (FS × Output × String) :=
  match output.output_type with
  | none => .error "KeyError: output_type"
  | some optype =>
    let popped : Output := { output with output_type := none }
    if optype = "stream" then
      match output.text, output.name with
      | some tx, some nm =>
          .ok ([(cell_dir ++ ["output" ++ natRepr i ++ ".txt"], FileData.textF tx)],
               popped, nm)
      | _, _ => .error "AttributeError: stream output fields"
    else if optype = "error" then
      .ok ([(cell_dir ++ ["error" ++ natRepr i ++ ".json"],
             FileData.jsonF (sortDoc output.errdata))],
           popped, "error")
    else if optype = "execute_result" ∨ optype = "display_data" then
      let mdEntry := (cell_dir ++ ["output" ++ natRepr i ++ "-metadata.json"],
                      FileData.jsonF (sortDoc output.metadata))
      let mimetypes := joinSep ", " (sortStr (output.data.map Prod.fst))
      ebind (writeDataFiles output.data cell_dir i) (fun files =>
        if optype = "execute_result" then
          match output.execution_count with
          | some n => .ok (mdEntry :: files, popped,
                           mimetypes ++ " (" ++ natRepr n ++ ")")
          | none => .error "TypeError: %d % None"
        else .ok (mdEntry :: files, popped, mimetypes))
    else .error "TypeError: unsupported output_type"
where
  /-- The `for mimetype, data in output.data.items()` loop: one file per
  mime-type, base64-decoded for binary types, `KeyError` outside the table. -/
  writeDataFiles : List (String × String) → Path → Nat → Except String FS
    | [], _, _ => .ok []
    | (mt, payload) :: rest, cell_dir, i =>
      match mime_to_ext mt with
      | none => .error ("KeyError: " ++ mt)
      | some ext =>
          emap (fun fsr =>
            (cell_dir ++ ["output" ++ natRepr i ++ ext],
             if is_binary mt then FileData.bytesF (b64decode payload)
             else FileData.textF payload) :: fsr)
            (writeDataFiles rest cell_dir i)

/-- The per-cell body of `explode`'s loop after the identifier is resolved
(source lines 69–98): write the source file, the metadata file when the
(popped) metadata is non-empty, then the outputs and their descriptor
sequence.  `langExt` is `metadata.language_info.file_extension` when that
attribute chain resolves (demanded only for code cells, as in the source). -/
def explodeCell (langExt : Option String) (dir : Path) (cellId : String)
    (cell : Cell) : Except String (FS × Cell) :=
  ebind
    (if cell.cell_type = "markdown" then .ok "source.md"
     else if cell.cell_type = "raw" then .ok "source.txt"
     else match langExt with
       | some e => .ok ("source" ++ e)
       | none => .error "AttributeError: language_info.file_extension")
    (fun srcName =>
      let cellDir := dir ++ [cellId]
      let fs1 : FS := [(cellDir ++ [srcName], FileData.textF cell.source)]
      let fs2 : FS :=
        if cell.metadata = [] then fs1
        else fs1 ++ [(cellDir ++ ["metadata.json"], FileData.jsonF (sortDoc cell.metadata))]
      match cell.outputs with
      | none => .ok (fs2, cell)
      | some [] => .ok (fs2, cell)
      | some (o :: os) =>
          emap (fun r =>
            (fs2 ++ r.1 ++ [(cellDir ++ ["outputs_sequence"],
                             FileData.textF (linesOut r.2.2))],
             { cell with outputs := some r.2.1 }))
            (explodeOutputs (o :: os) cellDir 1))
where
  /-- The `for output in cell.outputs` loop with its 1-based counter. -/
  explodeOutputs : List Output → Path → Nat → Except String (FS × List Output × List String)
    | [], _, _ => .ok ([], [], [])
    | o :: rest, cellDir, i =>
      ebind (explode_output o cellDir i) (fun r1 =>
        emap (fun r2 => (r1.1 ++ r2.1, r1.2.1 :: r2.2.1, r1.2.2 :: r2.2.2))
          (explodeOutputs rest cellDir (i + 1)))

/-- `nbexplode_cell_id` resolution and the cells loop of `explode` (source
lines 60–98): an identifier present in cell metadata (under the reserved key)
is popped and reused, otherwise the next fresh identifier is minted.  Returns
the created entries, the mutated cells, and the identifier sequence. -/
def explodeCells (langExt : Option String) (dir : Path) (gen : Nat → String) :
    List Cell → Nat → Except String (FS × List Cell × List String)
  | [], _ => .ok ([], [], [])
  | cell :: rest, k =>
    match lookupKV cell.metadata "nbexplode_cell_id" with
    | some (JVal.str cid) =>
        ebind (explodeCell langExt dir cid
                { cell with metadata := eraseKV cell.metadata "nbexplode_cell_id" })
          (fun r1 =>
            emap (fun r2 => (r1.1 ++ r2.1, r1.2 :: r2.2.1, cid :: r2.2.2))
              (explodeCells langExt dir gen rest k))
    | some (JVal.doc _) => .error "TypeError: cell identifier is not a string"
    | none =>
        let cid := gen k
        ebind (explodeCell langExt dir cid cell)
          (fun r1 =>
            emap (fun r2 => (r1.1 ++ r2.1, r1.2 :: r2.2.1, cid :: r2.2.2))
              (explodeCells langExt dir gen rest (k + 1)))

/-- `nbnode.metadata.language_info.file_extension`, as an attribute chain that
may fail (only forced for code cells). -/
def langExtOf (m : JDoc) : Option String :=
  match lookupKV m "language_info" with
  | some (JVal.doc li) => lookupKV li "file_extension"
  | _ => none

/-- `explode(nbnode, directory)` (source lines 55–103): dump the notebook
metadata, process every cell, then write `cells_sequence`.  Returns the
filesystem after the writes together with the (mutated) notebook object. -/
def explode (nbnode : Notebook) (directory : Path) (gen : Nat → String) (fs : FS) :
    Except String (FS × Notebook) :=
  let fs1 := fs ++ [(directory ++ ["metadata.json"], FileData.jsonF (sortDoc nbnode.metadata))]
  emap (fun r =>
      (fs1 ++ r.1 ++ [(directory ++ ["cells_sequence"], FileData.textF (linesOut r.2.2))],
       { nbnode with cells := r.2.1 }))
    (explodeCells (langExtOf nbnode.metadata) directory gen nbnode.cells 0)

/-! ## The recombiner (`recombine_output`, `recombine`) -/

/-- The `for mimetype in info.split(", ")` loop of `recombine_output`:
read each mime-type's file (base64-encoding binary ones), `KeyError` for a
mime-type outside the table, `FileNotFoundError` for a missing file. -/
def readMimebundle : List String → Path → Nat → FS → Except String (List (String × String))
  | [], _, _, _ => .ok []
  | mt :: rest, cellDir, i, fs =>
    match mime_to_ext mt with
    | none => .error ("KeyError: " ++ mt)
    | some ext =>
      match fsRead fs (cellDir ++ ["output" ++ natRepr i ++ ext]) with
      | some (FileData.bytesF bs) =>
          if is_binary mt then
            emap (fun r => (mt, b64encode bs) :: r) (readMimebundle rest cellDir i fs)
          else .error "UnicodeDecodeError: binary file read in text mode"
      | some (FileData.textF t) =>
          if is_binary mt then .error "binascii.Error: text file read in binary mode"
          else emap (fun r => (mt, t) :: r) (readMimebundle rest cellDir i fs)
      | _ => .error "FileNotFoundError: output data file"

/-- `recombine_output(cell_dir, i, info)` (source lines 107–143): decode one
descriptor line back into an output object. -/
def recombine_output (cell_dir : Path) (i : Nat) (info : String) (fs : FS) :
    Except String Output :=
  if info = "stdout" ∨ info = "stderr" then
    match fsRead fs (cell_dir ++ ["output" ++ natRepr i ++ ".txt"]) with
    | some (FileData.textF t) => .ok (new_stream info t)
    | _ => .error "FileNotFoundError: stream text file"
  else if info = "error" then
    match fsRead fs (cell_dir ++ ["error" ++ natRepr i ++ ".json"]) with
    | some (FileData.jsonF d) => .ok (new_error d)
    | _ => .error "FileNotFoundError: error json file"
  else
    let stripped : String × Output :=
      match execSuffix info with
      | some (n, mlen) =>
          (String.mk (info.toList.take (info.toList.length - (mlen + 1))),
           new_execute_result n)
      | none => (info, new_display_data)
    ebind (readMimebundle (pySplit stripped.1 ", ") cell_dir i fs) (fun bundle =>
      let op1 := { stripped.2 with data := bundle }
      match fsRead fs (cell_dir ++ ["output" ++ natRepr i ++ "-metadata.json"]) with
      | some (FileData.jsonF m) => .ok { op1 with metadata := m }
      | none => .ok op1
      | some _ => .error "json.JSONDecodeError: output metadata")

/-- Whether one journal entry is a direct child of `cellDir` matching
`source.*`; if so, its name. -/
def sourceEntry (cellDir : Path) (e : Path × FileData) : Option String :=
  if e.1.take cellDir.length = cellDir then
    match e.1.drop cellDir.length with
    | [n] => if startsList n "source." then some n else none
    | _ => none
  else none

/-- `cell_dir.glob('source.*')`: the names (in journal order) of the direct
entries of `cellDir` whose name starts with `source.`. -/
def globSource (fs : FS) (cellDir : Path) : List String :=
  fs.filterMap (sourceEntry cellDir)

/-- The `enumerate(outputs_seq, start=1)` comprehension of `recombine`. -/
def recombineOutputs (cellDir : Path) (fs : FS) :
    List String → Nat → Except String (List Output)
  | [], _ => .ok []
  | info :: rest, i =>
    ebind (recombine_output cellDir i info fs) (fun o =>
      emap (fun os => o :: os) (recombineOutputs cellDir fs rest (i + 1)))

/-- The per-identifier body of `recombine`'s loop (source lines 155–186):
locate the source file (`list(glob('source.*'))[0]` — `IndexError` only when
there is no match), rebuild the cell by extension, load its metadata if the
file exists, inject the identifier under the reserved key, and rebuild the
outputs when `outputs_sequence` exists. -/
def recombineCell (directory : Path) (cellId : String) (fs : FS) :
    Except String Cell :=
  let cellDir := directory ++ [cellId]
  match globSource fs cellDir with
  | [] => .error "IndexError: list index out of range"
  | srcName :: _ =>
    ebind
      (match fsRead fs (cellDir ++ [srcName]) with
       | some (FileData.textF src) =>
           if pathSuffix srcName = ".md" then .ok (newMarkdownCell src)
           else if pathSuffix srcName = ".txt" then .ok (rawCell src)
           else .ok (newCodeCell src)
       | _ => .error "OSError: unreadable source file")
      (fun cell0 =>
        ebind
          (match fsRead fs (cellDir ++ ["metadata.json"]) with
           | some (FileData.jsonF m) => .ok { cell0 with metadata := m }
           | none => .ok cell0
           | some _ => .error "json.JSONDecodeError: cell metadata")
          (fun cell1 =>
            let cell2 := { cell1 with
              metadata := setKV cell1.metadata "nbexplode_cell_id" (JVal.str cellId) }
            match fsRead fs (cellDir ++ ["outputs_sequence"]) with
            | none => .ok cell2
            | some (FileData.textF seqTxt) =>
                emap (fun outs => { cell2 with outputs := some outs })
                  (recombineOutputs cellDir fs (pySplitlines seqTxt) 1)
            | some _ => .error "UnicodeDecodeError: outputs_sequence"))

/-- The `for cell_id in cells_sequence` loop. -/
def recombineCells (directory : Path) (fs : FS) : List String → Except String (List Cell)
  | [] => .ok []
  | cid :: rest =>
    ebind (recombineCell directory cid fs) (fun c =>
      emap (fun cs => c :: cs) (recombineCells directory fs rest))

/-- `recombine(directory)` (source lines 145–188): read the notebook metadata
and `cells_sequence`, then rebuild every cell in sequence order. -/
def recombine (directory : Path) (fs : FS) : Except String Notebook :=
  ebind
    (match fsRead fs (directory ++ ["metadata.json"]) with
     | some (FileData.jsonF m) => .ok m
     | _ => .error "FileNotFoundError: metadata.json")
    (fun meta =>
      ebind
        (match fsRead fs (directory ++ ["cells_sequence"]) with
         | some (FileData.textF s) => .ok (pySplitlines s)
         | _ => .error "FileNotFoundError: cells_sequence")
        (fun seq =>
          emap (fun cells => Notebook.mk meta cells)
            (recombineCells directory fs seq)))

/-- The `cells_sequence` recorded in an exploded tree. -/
def cellIdsOf (fs : FS) (dir : Path) : List String :=
  match fsRead fs (dir ++ ["cells_sequence"]) with
  | some (FileData.textF s) => pySplitlines s
  | _ => []

/-! ## Basic lemmas: exception plumbing -/

@[simp] theorem ebind_ok {α β : Type} (a : α) (f : α → Except String β) :
    ebind (.ok a) f = f a := rfl

@[simp] theorem ebind_error {α β : Type} (e : String) (f : α → Except String β) :
    ebind (.error e) f = .error e := rfl

@[simp] theorem emap_ok {α β : Type} (f : α → β) (a : α) :
    emap f (Except.ok a) = .ok (f a) := rfl

@[simp] theorem emap_error {α β : Type} (f : α → β) (e : String) :
    emap f (Except.error e) = .error e := rfl

theorem isError_ebind {α β : Type} (e : Except String α) (f : α → Except String β)
    (h : isError e) : isError (ebind e f) := by
  cases e with
  | ok a => exact absurd h id
  | error s => exact trivial

theorem isError_emap {α β : Type} (f : α → β) (e : Except String α)
    (h : isError e) : isError (emap f e) := by
  cases e with
  | ok a => exact absurd h id
  | error s => exact trivial

/-! ## Basic lemmas: association lists -/

theorem ltAll_nil {α : Type} (k : String) : ltAll k ([] : List (String × α)) :=
  fun p hp => absurd hp (List.not_mem_nil p)

theorem ltAll_cons {α : Type} {k k1 : String} {v1 : α} {d : List (String × α)} :
    ltAll k ((k1, v1) :: d) ↔ k < k1 ∧ ltAll k d := by
  constructor
  · intro h
    exact ⟨h (k1, v1) (List.mem_cons_self _ _), fun p hp => h p (List.mem_cons_of_mem _ hp)⟩
  · rintro ⟨h1, h2⟩ p hp
    rcases List.mem_cons.1 hp with h | h
    · subst h; exact h1
    · exact h2 p h

theorem ltAll_trans {α : Type} {k k1 : String} {d : List (String × α)}
    (hk : k < k1) (h : ltAll k1 d) : ltAll k d :=
  fun p hp => lt_trans hk (h p hp)

theorem lookupKV_eq_none_of_ltAll {α : Type} {k : String} {d : List (String × α)}
    (h : ltAll k d) : lookupKV d k = none := by
  induction d with
  | nil => rfl
  | cons p rest ih =>
    obtain ⟨k1, v1⟩ := p
    have h1 : k < k1 := (ltAll_cons.1 h).1
    have : k1 ≠ k := fun he => absurd (he ▸ h1) (lt_irrefl _)
    simp only [lookupKV, if_neg this]
    exact ih (ltAll_cons.1 h).2

theorem mem_eraseKV {α : Type} {p : String × α} {d : List (String × α)} {k : String}
    (h : p ∈ eraseKV d k) : p ∈ d := by
  induction d with
  | nil => exact absurd h (List.not_mem_nil p)
  | cons q rest ih =>
    obtain ⟨k1, v1⟩ := q
    by_cases hk : k1 = k
    · simp only [eraseKV, if_pos hk] at h
      exact List.mem_cons_of_mem _ h
    · simp only [eraseKV, if_neg hk] at h
      rcases List.mem_cons.1 h with h | h
      · exact h ▸ List.mem_cons_self _ _
      · exact List.mem_cons_of_mem _ (ih h)

theorem ltAll_eraseKV {α : Type} {k k2 : String} {d : List (String × α)}
    (h : ltAll k d) : ltAll k (eraseKV d k2) :=
  fun p hp => h p (mem_eraseKV hp)

theorem canonKV_eraseKV {α : Type} {d : List (String × α)} {k : String}
    (h : canonKV d) : canonKV (eraseKV d k) := by
  induction d with
  | nil => exact trivial
  | cons q rest ih =>
    obtain ⟨k1, v1⟩ := q
    obtain ⟨h1, h2⟩ := h
    by_cases hk : k1 = k
    · simpa only [eraseKV, if_pos hk] using h2
    · simp only [eraseKV, if_neg hk]
      exact ⟨ltAll_eraseKV h1, ih h2⟩

theorem eraseKV_of_lookup_none {α : Type} {d : List (String × α)} {k : String}
    (h : lookupKV d k = none) : eraseKV d k = d := by
  induction d with
  | nil => rfl
  | cons q rest ih =>
    obtain ⟨k1, v1⟩ := q
    by_cases hk : k1 = k
    · simp only [lookupKV, if_pos hk] at h
      exact Option.noConfusion h
    · simp only [lookupKV, if_neg hk] at h
      simp only [eraseKV, if_neg hk, ih h]

theorem lookupKV_eraseKV_self {α : Type} {d : List (String × α)} {k : String}
    (h : canonKV d) : lookupKV (eraseKV d k) k = none := by
  induction d with
  | nil => rfl
  | cons q rest ih =>
    obtain ⟨k1, v1⟩ := q
    obtain ⟨h1, h2⟩ := h
    by_cases hk : k1 = k
    · simp only [eraseKV, if_pos hk]
      exact lookupKV_eq_none_of_ltAll (hk ▸ h1)
    · simp only [eraseKV, if_neg hk, lookupKV, if_neg hk]
      exact ih h2

theorem setKV_of_lookup_none {α : Type} {d : List (String × α)} {k : String} {v : α}
    (h : lookupKV d k = none) : setKV d k v = d ++ [(k, v)] := by
  induction d with
  | nil => rfl
  | cons q rest ih =>
    obtain ⟨k1, v1⟩ := q
    by_cases hk : k1 = k
    · simp only [lookupKV, if_pos hk] at h
      exact Option.noConfusion h
    · simp only [lookupKV, if_neg hk] at h
      simp only [setKV, if_neg hk, ih h, List.cons_append]

theorem lookupKV_setKV_self {α : Type} (d : List (String × α)) (k : String) (v : α) :
    lookupKV (setKV d k v) k = some v := by
  induction d with
  | nil => simp [setKV, lookupKV]
  | cons q rest ih =>
    obtain ⟨k1, v1⟩ := q
    by_cases hk : k1 = k
    · simp only [setKV, if_pos hk, lookupKV, if_pos hk]
    · simp only [setKV, if_neg hk, lookupKV, if_neg hk]
      exact ih

theorem insKV_of_ltAll {α : Type} {k : String} {v : α} {d : List (String × α)}
    (h : ltAll k d) : insKV k v d = (k, v) :: d := by
  cases d with
  | nil => rfl
  | cons q rest =>
    obtain ⟨k1, v1⟩ := q
    exact if_pos ((ltAll_cons.1 h).1)

theorem mem_insKV {α : Type} {p : String × α} {k : String} {v : α}
    {d : List (String × α)} (h : p ∈ insKV k v d) : p = (k, v) ∨ p ∈ d := by
  induction d with
  | nil => simpa only [insKV, List.mem_singleton] using Or.inl h
  | cons q rest ih =>
    obtain ⟨k1, v1⟩ := q
    by_cases hk : k < k1
    · simp only [insKV, if_pos hk] at h
      rcases List.mem_cons.1 h with h | h
      · exact Or.inl h
      · exact Or.inr h
    · simp only [insKV, if_neg hk] at h
      rcases List.mem_cons.1 h with h | h
      · exact Or.inr (h ▸ List.mem_cons_self _ _)
      · rcases ih h with h | h
        · exact Or.inl h
        · exact Or.inr (List.mem_cons_of_mem _ h)

theorem ltAll_insKV {α : Type} {k1 k : String} {v : α} {d : List (String × α)}
    (h : ltAll k1 d) (hk : k1 < k) : ltAll k1 (insKV k v d) := by
  intro p hp
  rcases mem_insKV hp with h2 | h2
  · exact h2 ▸ hk
  · exact h p h2

theorem sortKV_of_canon {α : Type} {d : List (String × α)} (h : canonKV d) :
    sortKV d = d := by
  induction d with
  | nil => rfl
  | cons q rest ih =>
    obtain ⟨k1, v1⟩ := q
    obtain ⟨h1, h2⟩ := h
    simp only [sortKV, ih h2]
    exact insKV_of_ltAll h1

theorem sortKV_append_single {α : Type} {d : List (String × α)} {k : String} {v : α}
    (hc : canonKV d) (hk : lookupKV d k = none) :
    sortKV (d ++ [(k, v)]) = insKV k v d := by
  induction d with
  | nil => rfl
  | cons q rest ih =>
    obtain ⟨k1, v1⟩ := q
    obtain ⟨h1, h2⟩ := hc
    have hk1 : k1 ≠ k := by
      intro he
      simp only [lookupKV, if_pos he] at hk
      exact Option.noConfusion hk
    simp only [lookupKV, if_neg hk1] at hk
    simp only [List.cons_append, sortKV]
    rw [show sortKV (rest.append [(k, v)]) = insKV k v rest from ih h2 hk]
    by_cases hlt : k < k1
    · rw [insKV_of_ltAll (ltAll_trans hlt h1)]
      rw [show insKV k v ((k1, v1) :: rest) = (k, v) :: (k1, v1) :: rest from if_pos hlt]
      rw [show insKV k1 v1 ((k, v) :: rest) = (k, v) :: insKV k1 v1 rest from
        if_neg (fun h => absurd (lt_trans hlt h) (lt_irrefl k))]
      rw [insKV_of_ltAll h1]
    · have hgt : k1 < k := lt_of_le_of_ne (not_lt.1 hlt) hk1
      rw [insKV_of_ltAll (ltAll_insKV h1 hgt)]
      rw [show insKV k v ((k1, v1) :: rest) = (k1, v1) :: insKV k v rest from if_neg hlt]

/-! ## Basic lemmas: documents and `sortDoc` -/

theorem sortVal_of_canon {v : JVal} (h : canonVal v) : sortVal v = v := by
  cases v with
  | str s => rfl
  | doc d => simp only [sortVal, sortKV_of_canon h]

theorem map_sortVal_of_canon {d : JDoc} (h : ∀ p ∈ d, canonVal p.2) :
    d.map (fun p => (p.1, sortVal p.2)) = d := by
  induction d with
  | nil => rfl
  | cons q rest ih =>
    simp only [List.map_cons, sortVal_of_canon (h q (List.mem_cons_self _ _)),
      ih (fun p hp => h p (List.mem_cons_of_mem _ hp))]

theorem sortDoc_of_canon {d : JDoc} (h : canonDoc d) : sortDoc d = d := by
  simp only [sortDoc, map_sortVal_of_canon h.2, sortKV_of_canon h.1]

theorem canonDoc_eraseKV {d : JDoc} {k : String} (h : canonDoc d) :
    canonDoc (eraseKV d k) :=
  ⟨canonKV_eraseKV h.1, fun p hp => h.2 p (mem_eraseKV hp)⟩

/-- The key identity for identifier injection: Python's `d[k] = v` on a
canonical document without `k` appends at the end; the sorted-keys dump of
that equals the sorted insertion. -/
theorem sortDoc_setKV_eraseKV {m : JDoc} {k s : String} (h : canonDoc m) :
    sortDoc (setKV (eraseKV m k) k (JVal.str s))
      = insKV k (JVal.str s) (eraseKV m k) := by
  have he : canonDoc (eraseKV m k) := canonDoc_eraseKV h
  have hl : lookupKV (eraseKV m k) k = none := lookupKV_eraseKV_self h.1
  rw [setKV_of_lookup_none hl]
  have hmap : (eraseKV m k ++ [(k, JVal.str s)]).map (fun p => (p.1, sortVal p.2))
      = eraseKV m k ++ [(k, JVal.str s)] := by
    apply map_sortVal_of_canon
    intro p hp
    rcases List.mem_append.1 hp with h2 | h2
    · exact he.2 p h2
    · rcases List.mem_singleton.1 h2 with rfl
      exact trivial
  simp only [sortDoc, hmap]
  exact sortKV_append_single he.1 hl

/-! ## Basic lemmas: sorted string lists -/

def ltAllS (x : String) (l : List String) : Prop := ∀ y ∈ l, x < y

def sortedStr : List String → Prop
  | [] => True
  | x :: rest => ltAllS x rest ∧ sortedStr rest

theorem insStr_of_ltAllS {x : String} {l : List String} (h : ltAllS x l) :
    insStr x l = x :: l := by
  cases l with
  | nil => rfl
  | cons y rest => exact if_pos (h y (List.mem_cons_self _ _))

theorem sortStr_of_sorted {l : List String} (h : sortedStr l) : sortStr l = l := by
  induction l with
  | nil => rfl
  | cons x rest ih =>
    simp only [sortStr, ih h.2]
    exact insStr_of_ltAllS h.1

theorem sortedStr_map_fst {α : Type} {d : List (String × α)} (h : canonKV d) :
    sortedStr (d.map Prod.fst) := by
  induction d with
  | nil => exact trivial
  | cons q rest ih =>
    obtain ⟨k1, v1⟩ := q
    refine ⟨?_, ih h.2⟩
    intro y hy
    rcases List.mem_map.1 hy with ⟨p, hp, rfl⟩
    exact h.1 p hp

/-- `sorted(d)` on the keys of an already canonically sorted dict. -/
theorem sortStr_keys_of_canon {α : Type} {d : List (String × α)} (h : canonKV d) :
    sortStr (d.map Prod.fst) = d.map Prod.fst :=
  sortStr_of_sorted (sortedStr_map_fst h)

/-! ## Basic lemmas: the filesystem journal -/

@[simp] theorem fsRead_nil (p : Path) : fsRead [] p = none := rfl

theorem fsRead_foldl_acc (fs : FS) (p : Path) (acc : Option FileData) :
    fs.foldl (fun a e => if e.1 = p then some e.2 else a) acc
      = match fsRead fs p with
        | some v => some v
        | none => acc := by
  induction fs generalizing acc with
  | nil => simp [fsRead]
  | cons e rest ih =>
    simp only [fsRead, List.foldl_cons] at *
    rw [ih, ih (if e.1 = p then some e.2 else none)]
    cases List.foldl (fun a e => if e.1 = p then some e.2 else a) none rest with
    | some v => rfl
    | none => by_cases he : e.1 = p <;> simp [he]

theorem fsRead_append (A B : FS) (p : Path) :
    fsRead (A ++ B) p
      = match fsRead B p with
        | some v => some v
        | none => fsRead A p := by
  simp only [fsRead, List.foldl_append]
  rw [show (List.foldl (fun a e => if e.1 = p then some e.2 else a)
      (List.foldl (fun a e => if e.1 = p then some e.2 else a) none A) B)
    = _ from fsRead_foldl_acc B p _]
  rfl

theorem fsRead_single (q : Path) (v : FileData) (p : Path) :
    fsRead [(q, v)] p = if q = p then some v else none := rfl

theorem fsRead_cons (e : Path × FileData) (fs : FS) (p : Path) :
    fsRead (e :: fs) p
      = match fsRead fs p with
        | some v => some v
        | none => if e.1 = p then some e.2 else none := by
  have h := fsRead_append [e] fs p
  simp only [List.singleton_append] at h
  rw [h]
  obtain ⟨q, v⟩ := e
  rw [fsRead_single]

theorem fsRead_eq_none {fs : FS} {p : Path} (h : ∀ e ∈ fs, e.1 ≠ p) :
    fsRead fs p = none := by
  induction fs with
  | nil => rfl
  | cons e rest ih =>
    rw [fsRead_cons, ih (fun x hx => h x (List.mem_cons_of_mem _ hx))]
    simp only [if_neg (h e (List.mem_cons_self _ _))]

/-! ## Basic lemmas: strings as character lists -/

theorem toList_mk (l : List Char) : (String.mk l).toList = l := rfl

theorem mk_toList (s : String) : String.mk s.toList = s := rfl

theorem mk_inj {a b : List Char} (h : String.mk a = String.mk b) : a = b := by
  injection h

theorem toList_append (a b : String) : (a ++ b).toList = a.toList ++ b.toList := by
  cases a; cases b; rfl

/-! ## Basic lemmas: the line writer and `splitlines` -/

theorem splitLinesChars_prepend {seg rest : List Char} (h : ∀ c ∈ seg, c ≠ '\n') :
    splitLinesChars (seg ++ '\n' :: rest) = seg :: splitLinesChars rest := by
  induction seg with
  | nil => simp [splitLinesChars]
  | cons c cs ih =>
    have hc : c ≠ '\n' := h c (List.mem_cons_self _ _)
    rw [List.cons_append, splitLinesChars.eq_def]
    simp only [if_neg hc]
    rw [ih (fun x hx => h x (List.mem_cons_of_mem _ hx))]

theorem pySplitlines_linesOut {l : List String}
    (h : ∀ s ∈ l, ∀ c ∈ s.toList, c ≠ '\n') :
    pySplitlines (linesOut l) = l := by
  induction l with
  | nil => rfl
  | cons s rest ih =>
    unfold pySplitlines linesOut
    rw [toList_append, toList_append,
      show ("\n" : String).toList = ['\n'] from rfl, List.append_assoc,
      List.singleton_append,
      splitLinesChars_prepend (h s (List.mem_cons_self _ _))]
    rw [List.map_cons, mk_toList]
    have := ih (fun x hx => h x (List.mem_cons_of_mem _ hx))
    unfold pySplitlines at this
    rw [this]

/-! ## Basic lemmas: `join` / `split` -/

theorem isPrefixOf_append_self : ∀ (l t : List Char), l.isPrefixOf (l ++ t) = true
  | [], t => by simp [List.isPrefixOf]
  | a :: as, t => by
      simp only [List.cons_append, List.isPrefixOf, beq_self_eq_true, Bool.true_and]
      exact isPrefixOf_append_self as t

theorem isPrefixOf_cons_ne {a b : Char} (h : b ≠ a) (l t : List Char) :
    (a :: l).isPrefixOf (b :: t) = false := by
  simp only [List.isPrefixOf, Bool.and_eq_false_iff]
  exact Or.inl (by simpa using fun he => h he.symm)

theorem splitChars_nil (sep : List Char) : splitChars sep [] = [[]] := rfl

theorem splitChars_no_head {c0 : Char} {sep' cs : List Char} (h : ∀ c ∈ cs, c ≠ c0) :
    splitChars (c0 :: sep') cs = [cs] := by
  induction cs with
  | nil => exact splitChars_nil _
  | cons c rest ih =>
    rw [splitChars_eq_cons]
    have hpre : (c0 :: sep').isPrefixOf (c :: rest) = false :=
      isPrefixOf_cons_ne (h c (List.mem_cons_self _ _)) _ _
    simp only [hpre, Bool.false_eq_true, and_false, if_false,
      ih (fun x hx => h x (List.mem_cons_of_mem _ hx))]

theorem splitChars_seg {c0 : Char} {sep' xs tail : List Char} (h : ∀ c ∈ xs, c ≠ c0) :
    splitChars (c0 :: sep') (xs ++ ((c0 :: sep') ++ tail))
      = xs :: splitChars (c0 :: sep') tail := by
  induction xs with
  | nil =>
    rw [List.nil_append, List.cons_append, splitChars_eq_cons]
    have hp : (c0 :: sep').isPrefixOf (c0 :: (sep' ++ tail)) = true :=
      isPrefixOf_append_self (c0 :: sep') tail
    simp only [List.cons_append, hp, ne_eq, List.cons_ne_nil, not_false_iff,
      true_and, if_true, List.length_cons, Nat.add_sub_cancel, List.drop_left]
  | cons c cs ih =>
    have hc : c ≠ c0 := h c (List.mem_cons_self _ _)
    rw [List.cons_append, splitChars_eq_cons]
    have hpre : (c0 :: sep').isPrefixOf (c :: (cs ++ ((c0 :: sep') ++ tail))) = false :=
      isPrefixOf_cons_ne hc _ _
    simp only [hpre, Bool.false_eq_true, and_false, if_false,
      ih (fun x hx => h x (List.mem_cons_of_mem _ hx))]

theorem pySplit_joinSep {l : List String} (hne : l ≠ [])
    (h : ∀ s ∈ l, ∀ c ∈ s.toList, c ≠ ',') :
    pySplit (joinSep ", " l) ", " = l := by
  induction l with
  | nil => exact absurd rfl hne
  | cons s rest ih =>
    cases rest with
    | nil =>
      unfold pySplit joinSep
      rw [show (", " : String).toList = [',', ' '] from rfl]
      rw [splitChars_no_head (h s (List.mem_cons_self _ _))]
      simp [mk_toList]
    | cons t rest' =>
      unfold pySplit
      rw [show joinSep ", " (s :: t :: rest') = s ++ ", " ++ joinSep ", " (t :: rest')
        from rfl]
      rw [toList_append, toList_append,
        show (", " : String).toList = [',', ' '] from rfl, List.append_assoc]
      rw [splitChars_seg (h s (List.mem_cons_self _ _))]
      rw [List.map_cons, mk_toList]
      have := ih (List.cons_ne_nil _ _) (fun x hx => h x (List.mem_cons_of_mem _ hx))
      unfold pySplit at this
      rw [show (", " : String).toList = [',', ' '] from rfl] at this
      rw [this]

/-! ## Basic lemmas: decimal rendering -/

theorem char_digit_toNat {k : Nat} (h : k < 10) :
    (Char.ofNat (48 + k)).toNat = 48 + k := by
  interval_cases k <;> decide

theorem char_digit_isDigit {k : Nat} (h : k < 10) :
    (Char.ofNat (48 + k)).isDigit = true := by
  interval_cases k <;> decide

theorem char_digit_ne_newline {k : Nat} (h : k < 10) :
    Char.ofNat (48 + k) ≠ '\n' := by
  interval_cases k <;> decide

theorem natDigits_ne_nil (n : Nat) : natDigits n ≠ [] := by
  rw [natDigits_eq_def]
  by_cases h : n < 10 <;> simp [h]

theorem natDigits_all_digits (n : Nat) : ∀ c ∈ natDigits n, c.isDigit = true := by
  induction n using Nat.strong_induction_on with
  | _ n ih =>
    rw [natDigits_eq_def]
    by_cases h : n < 10
    · simp only [if_pos h, List.mem_singleton]
      rintro c rfl
      exact char_digit_isDigit h
    · simp only [if_neg h]
      intro c hc
      rcases List.mem_append.1 hc with h2 | h2
      · exact ih (n / 10) (Nat.div_lt_self (by omega) (by omega)) c h2
      · rcases List.mem_singleton.1 h2 with rfl
        exact char_digit_isDigit (Nat.mod_lt _ (by omega))

theorem digitsToNat_append_digit (l : List Char) (c : Char) :
    digitsToNat (l ++ [c]) = digitsToNat l * 10 + (c.toNat - 48) := by
  unfold digitsToNat
  rw [List.foldl_append]
  rfl

theorem digitsToNat_natDigits (n : Nat) : digitsToNat (natDigits n) = n := by
  induction n using Nat.strong_induction_on with
  | _ n ih =>
    rw [natDigits_eq_def]
    by_cases h : n < 10
    · simp only [if_pos h]
      show 0 * 10 + ((Char.ofNat (48 + n)).toNat - 48) = n
      rw [char_digit_toNat h]
      omega
    · simp only [if_neg h]
      rw [digitsToNat_append_digit,
        ih (n / 10) (Nat.div_lt_self (by omega) (by omega)),
        char_digit_toNat (Nat.mod_lt _ (by omega))]
      omega

/-! ## Basic lemmas: `takeWhile`, the exec-count regex, suffixes, fnmatch -/

theorem takeWhile_append_of_all {p : Char → Bool} {l1 : List Char} {c : Char}
    {l2 : List Char} (h : ∀ x ∈ l1, p x = true) (hc : p c = false) :
    (l1 ++ c :: l2).takeWhile p = l1 := by
  induction l1 with
  | nil => simp [List.takeWhile_cons, hc]
  | cons a as ih =>
    simp only [List.cons_append, List.takeWhile_cons, h a (List.mem_cons_self _ _),
      if_true, ih (fun x hx => h x (List.mem_cons_of_mem _ hx))]

theorem execSuffix_encode (ml : String) (n : Nat) :
    execSuffix (ml ++ " (" ++ natRepr n ++ ")")
      = some (n, (natDigits n).length + 2) := by
  unfold execSuffix
  have h1 : (ml ++ " (" ++ natRepr n ++ ")").toList.reverse
      = ')' :: ((natDigits n).reverse ++ '(' :: ' ' :: ml.toList.reverse) := by
    rw [toList_append, toList_append, toList_append,
      show (" (" : String).toList = [' ', '('] from rfl,
      show (")" : String).toList = [')'] from rfl,
      show (natRepr n).toList = natDigits n from rfl]
    simp [List.reverse_append, List.append_assoc]
  rw [h1]
  have hds : ((natDigits n).reverse ++ '(' :: ' ' :: ml.toList.reverse).takeWhile
      Char.isDigit = (natDigits n).reverse :=
    takeWhile_append_of_all
      (fun x hx => natDigits_all_digits n x (List.mem_reverse.1 hx)) (by decide)
  have hnil : (natDigits n).reverse ≠ [] := by
    intro he
    exact natDigits_ne_nil n (by simpa using congrArg List.reverse he)
  have hdrop : (((natDigits n).reverse ++ '(' :: ' ' :: ml.toList.reverse).drop
      ((natDigits n).reverse.length)).head? = some '(' := by
    rw [List.drop_left]
    rfl
  simp only [h1, List.head?_cons, List.tail_cons, hds, hnil, hdrop,
    List.reverse_reverse, digitsToNat_natDigits, List.length_reverse,
    eq_self_iff_true, if_true, if_false]
  simp [hnil]

theorem execSuffix_strip (ml : String) (n : Nat) :
    (ml ++ " (" ++ natRepr n ++ ")").toList.take
        ((ml ++ " (" ++ natRepr n ++ ")").toList.length - ((natDigits n).length + 2 + 1))
      = ml.toList := by
  have h1 : (ml ++ " (" ++ natRepr n ++ ")").toList
      = ml.toList ++ (' ' :: '(' :: natDigits n ++ [')']) := by
    rw [toList_append, toList_append, toList_append,
      show (" (" : String).toList = [' ', '('] from rfl,
      show (")" : String).toList = [')'] from rfl,
      show (natRepr n).toList = natDigits n from rfl]
    simp [List.append_assoc]
  rw [h1]
  have h2 : (ml.toList ++ (' ' :: '(' :: natDigits n ++ [')'])).length
      - ((natDigits n).length + 2 + 1) = ml.toList.length := by
    simp
  rw [h2, List.take_left]

theorem execSuffix_none_of_no_rparen {s : String} (h : ∀ c ∈ s.toList, c ≠ ')') :
    execSuffix s = none := by
  unfold execSuffix
  cases hrev : s.toList.reverse with
  | nil => simp
  | cons c t =>
    have hc : c ≠ ')' := by
      apply h
      rw [← List.mem_reverse, hrev]
      exact List.mem_cons_self _ _
    simp [hc]

theorem pathSuffix_source_ext {t : List Char} (ht : t ≠ []) (h : ∀ c ∈ t, c ≠ '.') :
    pathSuffix (String.mk ('s' :: 'o' :: 'u' :: 'r' :: 'c' :: 'e' :: '.' :: t))
      = String.mk ('.' :: t) := by
  unfold pathSuffix
  rw [toList_mk]
  have hrev : ('s' :: 'o' :: 'u' :: 'r' :: 'c' :: 'e' :: '.' :: t).reverse
      = t.reverse ++ '.' :: ['e', 'c', 'r', 'u', 'o', 's'] := by
    simp
  rw [hrev]
  have hall : ∀ x ∈ t.reverse, (decide (x ≠ '.')) = true := by
    intro x hx
    simpa using h x (List.mem_reverse.1 hx)
  have hds : (t.reverse ++ '.' :: ['e', 'c', 'r', 'u', 'o', 's']).takeWhile
      (fun c => decide (c ≠ '.')) = t.reverse :=
    takeWhile_append_of_all hall (by decide)
  have hlen : ¬ (t.reverse.length
      = (t.reverse ++ '.' :: ['e', 'c', 'r', 'u', 'o', 's']).length) := by
    simp only [List.length_append, List.length_reverse, List.length_cons]
    omega
  have hlen0 : ¬ (t.reverse.length = 0) := by
    simp only [List.length_reverse]
    intro he
    exact ht (List.eq_nil_of_length_eq_zero he)
  simp only [hds, hlen, hlen0, if_false, List.reverse_reverse]

theorem startsList_mk_source (t : List Char) :
    startsList (String.mk ('s' :: 'o' :: 'u' :: 'r' :: 'c' :: 'e' :: '.' :: t))
      "source." = true :=
  isPrefixOf_append_self ['s', 'o', 'u', 'r', 'c', 'e', '.'] t

theorem startsList_head_ne {c : Char} {cs : List Char} (h : c ≠ 's') :
    startsList (String.mk (c :: cs)) "source." = false :=
  isPrefixOf_cons_ne h ['o', 'u', 'r', 'c', 'e', '.'] cs

/-! ## Well-formedness: the §3 shapes of the data model

`wfId` / `wfExt` formalize "one subdirectory per cell named by its identifier"
and the "fixed, unambiguous extension scheme": an identifier names a directory
and occupies one line of `cells_sequence` (nonempty, newline-free); a code
extension is a dot followed by a nonempty dotless suffix distinct from the
markdown/raw extensions.  `wfOutput` states the §3 output shapes: a stream is
named `stdout`/`stderr` and carries text; an error carries only its error
document; a mimebundle output carries a data dict and a metadata document,
and an execution counter exactly when it is an `execute_result`.  Binary
payloads are "binary-as-text-encoded" (§3): canonical base64 strings.
Documents are in the canonical key-sorted representation (see module
docstring). -/

def wfId (s : String) : Prop := s ≠ "" ∧ ∀ c ∈ s.toList, c ≠ '\n'

instance (s : String) : Decidable (wfId s) := instDecidableAnd

def wfExt (e : String) : Prop :=
  e.toList.head? = some '.' ∧ e.toList.tail ≠ [] ∧
  (∀ c ∈ e.toList.tail, c ≠ '.' ∧ c ≠ '\n') ∧ e ≠ ".md" ∧ e ≠ ".txt"

instance (e : String) : Decidable (wfExt e) := instDecidableAnd

def wfStreamFields (o : Output) : Prop :=
  (o.name = some "stdout" ∨ o.name = some "stderr") ∧ o.text ≠ none ∧
  o.errdata = [] ∧ o.data = [] ∧ o.metadata = [] ∧ o.execution_count = none

def wfErrorFields (o : Output) : Prop :=
  o.name = none ∧ o.text = none ∧ canonDoc o.errdata ∧ o.data = [] ∧
  o.metadata = [] ∧ o.execution_count = none

def wfRichFields (o : Output) : Prop :=
  o.name = none ∧ o.text = none ∧ o.errdata = [] ∧ canonDoc o.metadata ∧
  canonKV o.data ∧
  ∀ p ∈ o.data, mime_to_ext p.1 ≠ none ∧
    (is_binary p.1 = true → b64encode (b64decode p.2) = p.2)

instance (o : Output) : Decidable (wfStreamFields o) := instDecidableAnd
instance (o : Output) : Decidable (wfErrorFields o) := instDecidableAnd
instance (o : Output) : Decidable (wfRichFields o) := instDecidableAnd

def wfOutput (o : Output) : Prop :=
  (o.output_type = some "stream" ∨ o.output_type = some "error" ∨
   o.output_type = some "execute_result" ∨ o.output_type = some "display_data") ∧
  (o.output_type = some "stream" → wfStreamFields o) ∧
  (o.output_type = some "error" → wfErrorFields o) ∧
  (o.output_type = some "execute_result" → wfRichFields o ∧ o.execution_count ≠ none) ∧
  (o.output_type = some "display_data" → wfRichFields o ∧ o.execution_count = none)

instance (o : Output) : Decidable (wfOutput o) := instDecidableAnd

/-- A mimebundle output has a nonempty bundle.  (Not required for `explode`
to succeed; required for the round trip, see the C1 analysis.) -/
def richNonempty (o : Output) : Prop :=
  (o.output_type = some "execute_result" ∨ o.output_type = some "display_data") →
    o.data ≠ []

instance (o : Output) : Decidable (richNonempty o) := by
  unfold richNonempty
  infer_instance

def idValOk : Option JVal → Prop
  | some (JVal.str s) => wfId s
  | some (JVal.doc _) => False
  | none => True

instance : (v : Option JVal) → Decidable (idValOk v)
  | some (JVal.str s) => inferInstanceAs (Decidable (wfId s))
  | some (JVal.doc _) => isFalse id
  | none => isTrue trivial

def wfCell (c : Cell) : Prop :=
  canonDoc c.metadata ∧ idValOk (lookupKV c.metadata "nbexplode_cell_id") ∧
  (c.cell_type = "markdown" ∨ c.cell_type = "raw" ∨ c.cell_type = "code") ∧
  ((c.cell_type = "markdown" ∨ c.cell_type = "raw") → c.outputs = none) ∧
  (c.cell_type = "code" → c.outputs ≠ none) ∧
  (∀ o ∈ c.outputs.getD [], wfOutput o)

instance (c : Cell) : Decidable (wfCell c) := instDecidableAnd

def extOk : Option String → Prop
  | some e => wfExt e
  | none => False

instance : (v : Option String) → Decidable (extOk v)
  | some e => inferInstanceAs (Decidable (wfExt e))
  | none => isFalse id

def wfNotebook (nb : Notebook) : Prop :=
  canonDoc nb.metadata ∧ (∀ c ∈ nb.cells, wfCell c) ∧
  ((∃ c ∈ nb.cells, c.cell_type = "code") → extOk (langExtOf nb.metadata))

instance (nb : Notebook) : Decidable (wfNotebook nb) := instDecidableAnd

/-- The identifier-assignment policy of `explode` (spec §3 invariant): reuse a
string identifier stored under the reserved key, otherwise mint the next
fresh one.  (The non-string case cannot occur for well-formed cells.) -/
def assignIds (gen : Nat → String) : List Cell → Nat → List String
  | [], _ => []
  | c :: rest, k =>
    match lookupKV c.metadata "nbexplode_cell_id" with
    | some (JVal.str s) => s :: assignIds gen rest k
    | some (JVal.doc _) => "" :: assignIds gen rest k
    | none => gen k :: assignIds gen rest (k + 1)

/-- The identifiers assigned to a notebook are distinct and well-formed
(spec §3: "Cell identifiers are unique within a notebook"). -/
def wfIds (nb : Notebook) (gen : Nat → String) : Prop :=
  (assignIds gen nb.cells 0).Nodup ∧ ∀ s ∈ assignIds gen nb.cells 0, wfId s

instance (nb : Notebook) (gen : Nat → String) : Decidable (wfIds nb gen) :=
  instDecidableAnd

/-! ## The written tree, described explicitly

Mirror functions computing, cell by cell, the entries a successful `explode`
writes and the mutation it performs; the `*_spec` lemmas below prove `explode`
produces exactly these. -/

/-- The descriptor line `explode_output` returns for a (well-formed) output. -/
def outputDesc (o : Output) : String :=
  if o.output_type = some "stream" then o.name.getD ""
  else if o.output_type = some "error" then "error"
  else if o.output_type = some "execute_result" then
    joinSep ", " (sortStr (o.data.map Prod.fst)) ++ " (" ++
      natRepr (o.execution_count.getD 0) ++ ")"
  else joinSep ", " (sortStr (o.data.map Prod.fst))

/-- The per-mime-type files of a mimebundle output. -/
def dataEntries (cellDir : Path) (i : Nat) : List (String × String) → FS
  | [] => []
  | (mt, payload) :: rest =>
      (cellDir ++ ["output" ++ natRepr i ++ (mime_to_ext mt).getD ""],
       if is_binary mt then FileData.bytesF (b64decode payload)
       else FileData.textF payload) :: dataEntries cellDir i rest

/-- The files `explode_output` writes for output number `i`. -/
def outputEntries (cellDir : Path) (i : Nat) (o : Output) : FS :=
  if o.output_type = some "stream" then
    [(cellDir ++ ["output" ++ natRepr i ++ ".txt"], FileData.textF (o.text.getD ""))]
  else if o.output_type = some "error" then
    [(cellDir ++ ["error" ++ natRepr i ++ ".json"], FileData.jsonF (sortDoc o.errdata))]
  else
    (cellDir ++ ["output" ++ natRepr i ++ "-metadata.json"],
     FileData.jsonF (sortDoc o.metadata)) :: dataEntries cellDir i o.data

def outputsEntries (cellDir : Path) : List Output → Nat → FS
  | [], _ => []
  | o :: rest, i => outputEntries cellDir i o ++ outputsEntries cellDir rest (i + 1)

/-- `output.pop('output_type')`: the mutation `explode_output` performs. -/
def popOutput (o : Output) : Output := { o with output_type := none }

/-- `cell.metadata.pop('nbexplode_cell_id')` (a no-op when the key is absent). -/
def popCell (c : Cell) : Cell :=
  { c with metadata := eraseKV c.metadata "nbexplode_cell_id" }

/-- The outputs attribute after `explode` ran: each output of a nonempty list
lost its `output_type`; an absent attribute or an empty list is untouched. -/
def mutOutputs : Option (List Output) → Option (List Output)
  | some (o :: os) => some ((o :: os).map popOutput)
  | x => x

/-- The whole in-place mutation `explode` performs on a cell. -/
def mutCell (c : Cell) : Cell :=
  { popCell c with outputs := mutOutputs c.outputs }

/-- The whole in-place mutation `explode` performs on its notebook argument. -/
def mutNotebook (nb : Notebook) : Notebook := { nb with cells := nb.cells.map mutCell }

/-- The source-file name for a cell (extension scheme of §3). -/
def srcNameOf (langExt : Option String) (c : Cell) : String :=
  if c.cell_type = "markdown" then "source.md"
  else if c.cell_type = "raw" then "source.txt"
  else "source" ++ langExt.getD ""

/-- The files written for one cell, in terms of the cell object as passed to
the loop body, i.e. with the reserved key already popped. -/
def cellFiles (langExt : Option String) (dir : Path) (cid : String) (c : Cell) : FS :=
  [(dir ++ [cid, srcNameOf langExt c], FileData.textF c.source)] ++
  (if c.metadata = [] then []
   else [(dir ++ [cid, "metadata.json"], FileData.jsonF (sortDoc c.metadata))]) ++
  (match c.outputs with
   | none => []
   | some [] => []
   | some (o :: os) =>
       outputsEntries (dir ++ [cid]) (o :: os) 1 ++
       [(dir ++ [cid, "outputs_sequence"],
         FileData.textF (linesOut ((o :: os).map outputDesc)))])

/-- The files of all cells, zipped with their assigned identifiers. -/
def cellsFiles (langExt : Option String) (dir : Path) : List Cell → List String → FS
  | [], _ => []
  | c :: rest, cid :: ids =>
      cellFiles langExt dir cid (popCell c) ++ cellsFiles langExt dir rest ids
  | _ :: _, [] => []

/-- The whole tree a successful `explode` into an empty target writes. -/
def explodedFS (nb : Notebook) (dir : Path) (gen : Nat → String) : FS :=
  [(dir ++ ["metadata.json"], FileData.jsonF (sortDoc nb.metadata))] ++
  cellsFiles (langExtOf nb.metadata) dir nb.cells (assignIds gen nb.cells 0) ++
  [(dir ++ ["cells_sequence"], FileData.textF (linesOut (assignIds gen nb.cells 0)))]

/-! ## `explode` computes the mirror tree -/

theorem writeDataFiles_spec {l : List (String × String)}
    (h : ∀ p ∈ l, mime_to_ext p.1 ≠ none) (cellDir : Path) (i : Nat) :
    explode_output.writeDataFiles l cellDir i = .ok (dataEntries cellDir i l) := by
  induction l with
  | nil => rfl
  | cons p rest ih =>
    obtain ⟨mt, payload⟩ := p
    cases hmt : mime_to_ext mt with
    | none => exact absurd hmt (h (mt, payload) (List.mem_cons_self _ _))
    | some ext =>
      simp only [explode_output.writeDataFiles, hmt,
        ih (fun q hq => h q (List.mem_cons_of_mem _ hq)), emap_ok, dataEntries,
        Option.getD_some]

theorem explode_output_spec {o : Output} (h : wfOutput o) (cellDir : Path) (i : Nat) :
    explode_output o cellDir i
      = .ok (outputEntries cellDir i o, popOutput o, outputDesc o) := by
  obtain ⟨htypes, hstream, herror, hexec, hdisp⟩ := h
  rcases htypes with ht | ht | ht | ht
  · obtain ⟨hname, htext, -, -, -, -⟩ := hstream ht
    cases htx : o.text with
    | none => exact absurd htx htext
    | some tx =>
      have hnm : ∃ nm, o.name = some nm := by
        rcases hname with h | h
        · exact ⟨_, h⟩
        · exact ⟨_, h⟩
      obtain ⟨nm, hnm⟩ := hnm
      simp only [explode_output, ht, outputEntries, outputDesc, htx, hnm,
        Option.getD_some, if_true, popOutput]
  · simp only [explode_output, ht, outputEntries, outputDesc, popOutput]
    simp [ht]
  · obtain ⟨hrich, hcount⟩ := hexec ht
    cases hn : o.execution_count with
    | none => exact absurd hn hcount
    | some n =>
      simp only [explode_output, ht]
      rw [writeDataFiles_spec (fun p hp => (hrich.2.2.2.2.2 p hp).1)]
      simp only [ebind_ok, hn, outputEntries, outputDesc, ht, popOutput,
        Option.getD_some]
      simp [ht]
  · obtain ⟨hrich, hcount⟩ := hdisp ht
    simp only [explode_output, ht]
    rw [writeDataFiles_spec (fun p hp => (hrich.2.2.2.2.2 p hp).1)]
    simp only [ebind_ok, outputEntries, outputDesc, ht, popOutput]
    simp [ht]

theorem explodeOutputs_spec {l : List Output} (h : ∀ o ∈ l, wfOutput o)
    (cellDir : Path) (i : Nat) :
    explodeCell.explodeOutputs l cellDir i
      = .ok (outputsEntries cellDir l i, l.map popOutput, l.map outputDesc) := by
  induction l generalizing i with
  | nil => rfl
  | cons o rest ih =>
    simp only [explodeCell.explodeOutputs,
      explode_output_spec (h o (List.mem_cons_self _ _)) cellDir i, ebind_ok,
      ih (fun x hx => h x (List.mem_cons_of_mem _ hx)) (i + 1), emap_ok,
      outputsEntries, List.map_cons]

theorem explodeCell_spec {langExt : Option String} {c : Cell}
    (htype : c.cell_type = "markdown" ∨ c.cell_type = "raw" ∨ c.cell_type = "code")
    (hext : c.cell_type = "code" → langExt ≠ none)
    (houts : ∀ o ∈ c.outputs.getD [], wfOutput o)
    (dir : Path) (cid : String) :
    explodeCell langExt dir cid c
      = .ok (cellFiles langExt dir cid c,
             { c with outputs := mutOutputs c.outputs }) := by
  obtain ⟨ct, csrc, cmeta, couts⟩ := c
  dsimp only at htype hext houts ⊢
  have hsrc : (if ct = "markdown" then Except.ok "source.md"
      else if ct = "raw" then Except.ok "source.txt"
      else match langExt with
        | some e => Except.ok ("source" ++ e)
        | none => Except.error "AttributeError: language_info.file_extension")
      = Except.ok (srcNameOf langExt ⟨ct, csrc, cmeta, couts⟩) := by
    rcases htype with ht | ht | ht
    · simp [srcNameOf, ht]
    · simp [srcNameOf, ht]
    · cases hl : langExt with
      | none => exact absurd hl (hext ht)
      | some e => simp [srcNameOf, ht, hl]
  rw [explodeCell.eq_def]
  dsimp only
  rw [hsrc, ebind_ok]
  unfold cellFiles
  dsimp only
  cases couts with
  | none =>
    by_cases hm : cmeta = [] <;> simp [hm, mutOutputs, List.append_assoc]
  | some outs =>
    cases outs with
    | nil =>
      by_cases hm : cmeta = [] <;> simp [hm, mutOutputs, List.append_assoc]
    | cons o os =>
      simp only []
      rw [explodeOutputs_spec (by simpa using houts)]
      dsimp only [emap_ok]
      by_cases hm : cmeta = [] <;> simp [hm, mutOutputs, List.append_assoc]

/-- The per-cell conditions under which `explode` succeeds (a strict subset
of `wfCell`: no canonicity is needed merely to succeed). -/
def wfCellSucc (langExt : Option String) (c : Cell) : Prop :=
  idValOk (lookupKV c.metadata "nbexplode_cell_id") ∧
  (c.cell_type = "markdown" ∨ c.cell_type = "raw" ∨ c.cell_type = "code") ∧
  (c.cell_type = "code" → langExt ≠ none) ∧
  (∀ o ∈ c.outputs.getD [], wfOutput o)

instance (langExt : Option String) (c : Cell) : Decidable (wfCellSucc langExt c) :=
  instDecidableAnd

theorem wfCellSucc_of_wfNotebook {nb : Notebook} (h : wfNotebook nb) :
    ∀ c ∈ nb.cells, wfCellSucc (langExtOf nb.metadata) c := by
  intro c hc
  obtain ⟨-, hcells, hext⟩ := h
  obtain ⟨-, hid, htype, -, -, houts⟩ := hcells c hc
  refine ⟨hid, htype, ?_, houts⟩
  intro hcode
  have := hext ⟨c, hc, hcode⟩
  cases hl : langExtOf nb.metadata with
  | none => rw [hl] at this; exact absurd this id
  | some e => exact Option.some_ne_none e

theorem popCell_of_lookup_none {c : Cell}
    (h : lookupKV c.metadata "nbexplode_cell_id" = none) : popCell c = c := by
  unfold popCell
  rw [eraseKV_of_lookup_none h]

theorem explodeCells_spec {langExt : Option String} {cells : List Cell}
    {gen : Nat → String} (h : ∀ c ∈ cells, wfCellSucc langExt c)
    (dir : Path) (k : Nat) :
    explodeCells langExt dir gen cells k
      = .ok (cellsFiles langExt dir cells (assignIds gen cells k),
             cells.map mutCell, assignIds gen cells k) := by
  induction cells generalizing k with
  | nil => rfl
  | cons c rest ih =>
    obtain ⟨hid, htype, hext, houts⟩ := h c (List.mem_cons_self _ _)
    have ihr := ih (fun x hx => h x (List.mem_cons_of_mem _ hx))
    have hassign : ∀ ids, assignIds gen (c :: rest) k = ids →
        assignIds gen (c :: rest) k = ids := fun _ hx => hx
    cases hlk : lookupKV c.metadata "nbexplode_cell_id" with
    | none =>
      have ha : assignIds gen (c :: rest) k = gen k :: assignIds gen rest (k + 1) := by
        simp only [assignIds, hlk]
      rw [explodeCells, hlk]
      simp only []
      rw [explodeCell_spec htype hext houts dir (gen k), ebind_ok, ihr, emap_ok, ha]
      rw [show cellsFiles langExt dir (c :: rest) (gen k :: assignIds gen rest (k + 1))
          = cellFiles langExt dir (gen k) (popCell c)
            ++ cellsFiles langExt dir rest (assignIds gen rest (k + 1)) from rfl]
      rw [popCell_of_lookup_none hlk]
      have hmc : Cell.mk c.cell_type c.source c.metadata (mutOutputs c.outputs)
          = mutCell c := by
        unfold mutCell popCell
        rw [eraseKV_of_lookup_none hlk]
      rw [hmc]
      rfl
    | some v =>
      cases v with
      | doc d =>
        rw [hlk] at hid
        exact absurd hid id
      | str cid =>
        have ha : assignIds gen (c :: rest) k = cid :: assignIds gen rest k := by
          simp only [assignIds, hlk]
        rw [explodeCells, hlk]
        simp only []
        rw [show Cell.mk c.cell_type c.source
              (eraseKV c.metadata "nbexplode_cell_id") c.outputs = popCell c from rfl]
        have houts2 : ∀ o ∈ (popCell c).outputs.getD [], wfOutput o := houts
        rw [explodeCell_spec (c := popCell c) htype hext houts2 dir cid, ebind_ok,
          ihr, emap_ok, ha]
        rfl

/-- `explode` succeeds on a well-formed notebook, appends exactly the mirror
tree `explodedFS` to the journal, and mutates its notebook argument into
`mutNotebook nb` (reserved keys popped, `output_type` keys popped). -/
theorem explode_spec {nb : Notebook} {gen : Nat → String}
    (h : ∀ c ∈ nb.cells, wfCellSucc (langExtOf nb.metadata) c)
    (dir : Path) (fs : FS) :
    explode nb dir gen fs = .ok (fs ++ explodedFS nb dir gen, mutNotebook nb) := by
  unfold explode
  rw [explodeCells_spec h, emap_ok]
  unfold explodedFS mutNotebook
  simp [List.append_assoc]

/-! ## Name and path disequalities

The per-output file names embed the 1-based output index as a decimal digit
run followed by a non-digit; these lemmas make that naming scheme injective
and separate it from the fixed names (`metadata.json`, `outputs_sequence`,
`source.*`). -/

theorem str_ne_of_toList_ne {a b : String} (h : a.toList ≠ b.toList) : a ≠ b :=
  fun he => h (he ▸ rfl)

theorem string_append_eq_mk (a b : String) :
    a ++ b = String.mk (a.toList ++ b.toList) := by
  cases a; cases b; rfl

theorem toList_append2 (a b c : String) :
    (a ++ b ++ c).toList = a.toList ++ b.toList ++ c.toList := by
  rw [toList_append, toList_append]

theorem natDigits_head_digit (i : Nat) :
    ∃ c t, natDigits i = c :: t ∧ c.isDigit = true := by
  cases hnd : natDigits i with
  | nil => exact absurd hnd (natDigits_ne_nil i)
  | cons c t =>
    exact ⟨c, t, rfl, natDigits_all_digits i c (hnd ▸ List.mem_cons_self _ _)⟩

theorem natRepr_append_inj {i j : Nat} {c d : Char} {s t : List Char}
    (hc : c.isDigit = false) (hd : d.isDigit = false)
    (h : natDigits i ++ c :: s = natDigits j ++ d :: t) :
    i = j ∧ c = d ∧ s = t := by
  have h1 : (natDigits i ++ c :: s).takeWhile Char.isDigit = natDigits i :=
    takeWhile_append_of_all (natDigits_all_digits i) hc
  have h2 : (natDigits j ++ d :: t).takeWhile Char.isDigit = natDigits j :=
    takeWhile_append_of_all (natDigits_all_digits j) hd
  have hD : natDigits i = natDigits j := by rw [← h1, ← h2, h]
  have hij : i = j := by
    have h3 := congrArg digitsToNat hD
    rwa [digitsToNat_natDigits, digitsToNat_natDigits] at h3
  rw [hD] at h
  have hcs : c :: s = d :: t := List.append_cancel_left h
  exact ⟨hij, (List.cons.inj hcs).1, (List.cons.inj hcs).2⟩

theorem nondigit_ne_digits_append {c : Char} {s : List Char} {i : Nat}
    {t : List Char} (hc : c.isDigit = false) :
    c :: s ≠ natDigits i ++ t := by
  intro h
  obtain ⟨d, u, hnd, hdig⟩ := natDigits_head_digit i
  rw [hnd] at h
  have h1 : c = d := (List.cons.inj h).1
  rw [h1, hdig] at hc
  exact Bool.noConfusion hc

/-- The name of a per-output file: `output`/`error`, the decimal index, then
a non-digit-headed tail. -/
def outIdxName (i : Nat) (nm : String) : Prop :=
  ∃ (pre : String) (c : Char) (s : List Char),
    (pre = "output" ∨ pre = "error") ∧ c.isDigit = false ∧
    nm.toList = pre.toList ++ (natDigits i ++ c :: s)

theorem outName_inj {i j : Nat} {p1 p2 : String} {c1 c2 : Char} {s1 s2 : List Char}
    (hp1 : p1 = "output" ∨ p1 = "error") (hp2 : p2 = "output" ∨ p2 = "error")
    (hc1 : c1.isDigit = false) (hc2 : c2.isDigit = false)
    (h : p1.toList ++ (natDigits i ++ c1 :: s1) = p2.toList ++ (natDigits j ++ c2 :: s2)) :
    p1 = p2 ∧ i = j ∧ c1 = c2 ∧ s1 = s2 := by
  rcases hp1 with rfl | rfl <;> rcases hp2 with rfl | rfl
  · have h2 := List.append_cancel_left h
    obtain ⟨hij, hcd, hst⟩ := natRepr_append_inj hc1 hc2 h2
    exact ⟨rfl, hij, hcd, hst⟩
  · exact absurd ((List.cons.inj h).1) (by decide)
  · exact absurd ((List.cons.inj h).1) (by decide)
  · have h2 := List.append_cancel_left h
    obtain ⟨hij, hcd, hst⟩ := natRepr_append_inj hc1 hc2 h2
    exact ⟨rfl, hij, hcd, hst⟩

theorem outIdxName_ne {i j : Nat} {a b : String} (hi : outIdxName i a)
    (hj : outIdxName j b) (hij : i ≠ j) : a ≠ b := by
  obtain ⟨p1, c1, s1, hp1, hc1, ha⟩ := hi
  obtain ⟨p2, c2, s2, hp2, hc2, hb⟩ := hj
  apply str_ne_of_toList_ne
  rw [ha, hb]
  intro h
  exact hij (outName_inj hp1 hp2 hc1 hc2 h).2.1

theorem outIdxName_ne_meta {i : Nat} {nm : String} (h : outIdxName i nm) :
    nm ≠ "metadata.json" := by
  obtain ⟨p, c, s, hp, hc, ha⟩ := h
  apply str_ne_of_toList_ne
  rw [ha]
  rcases hp with rfl | rfl <;> exact fun he => by
    exact absurd ((List.cons.inj he).1) (by decide)

theorem outIdxName_ne_seq {i : Nat} {nm : String} (h : outIdxName i nm) :
    nm ≠ "outputs_sequence" := by
  obtain ⟨p, c, s, hp, hc, ha⟩ := h
  apply str_ne_of_toList_ne
  rw [ha]
  rcases hp with rfl | rfl
  · intro he
    have h2 : natDigits i ++ c :: s = 's' :: "_sequence".toList := by
      have := List.append_cancel_left
        (show ("output" : String).toList ++ (natDigits i ++ c :: s)
            = ("output" : String).toList ++ ('s' :: "_sequence".toList) from he)
      exact this
    exact nondigit_ne_digits_append (c := 's') (by decide) h2.symm
  · intro he
    exact absurd ((List.cons.inj he).1) (by decide)

theorem outIdxName_ne_src {i : Nat} {nm srcName : String} (h : outIdxName i nm)
    (hsrc : srcName.toList.head? = some 's') : nm ≠ srcName := by
  obtain ⟨p, c, s, hp, hc, ha⟩ := h
  apply str_ne_of_toList_ne
  rw [ha]
  intro he
  cases hl : srcName.toList with
  | nil => rw [hl] at hsrc; exact Option.noConfusion hsrc
  | cons c0 t =>
    rw [hl] at hsrc he
    have hc0 : c0 = 's' := by
      simpa using hsrc
    rcases hp with rfl | rfl
    · have h1 := (List.cons.inj he).1
      rw [hc0] at h1
      exact absurd h1 (by decide)
    · have h1 := (List.cons.inj he).1
      rw [hc0] at h1
      exact absurd h1 (by decide)

theorem mime_to_ext_cases {mt ext : String} (h : mime_to_ext mt = some ext) :
    (mt = "text/plain" ∧ ext = ".txt") ∨ (mt = "text/html" ∧ ext = ".html") ∨
    (mt = "text/latex" ∧ ext = ".tex") ∨ (mt = "image/png" ∧ ext = ".png") ∨
    (mt = "image/jpeg" ∧ ext = ".jpg") := by
  unfold mime_to_ext at h
  split_ifs at h with h1 h2 h3 h4 h5 <;> simp_all

theorem ext_head_dot {mt ext : String} (h : mime_to_ext mt = some ext) :
    ∃ t, ext.toList = '.' :: t ∧ ('.' : Char).isDigit = false := by
  rcases mime_to_ext_cases h with ⟨-, rfl⟩ | ⟨-, rfl⟩ | ⟨-, rfl⟩ | ⟨-, rfl⟩ | ⟨-, rfl⟩
  · exact ⟨['t', 'x', 't'], rfl, by decide⟩
  · exact ⟨['h', 't', 'm', 'l'], rfl, by decide⟩
  · exact ⟨['t', 'e', 'x'], rfl, by decide⟩
  · exact ⟨['p', 'n', 'g'], rfl, by decide⟩
  · exact ⟨['j', 'p', 'g'], rfl, by decide⟩

theorem path_snoc_inj {dir : Path} {a b : String} (h : dir ++ [a] = dir ++ [b]) :
    a = b := by
  have h2 := List.append_cancel_left h
  exact (List.cons.inj h2).1

theorem path_snoc_ne {dir : Path} {a b : String} (h : a ≠ b) :
    dir ++ [a] ≠ dir ++ [b] :=
  fun he => h (path_snoc_inj he)

theorem outputName_inj_str {i j : Nat} {X Y : String}
    (hX : ∃ c s, X.toList = c :: s ∧ c.isDigit = false)
    (hY : ∃ d t, Y.toList = d :: t ∧ d.isDigit = false)
    (h : ("output" ++ natRepr i ++ X) = ("output" ++ natRepr j ++ Y)) :
    i = j ∧ X = Y := by
  obtain ⟨c, s, hXl, hc⟩ := hX
  obtain ⟨d, t, hYl, hd⟩ := hY
  have h2 : ("output" ++ natRepr i ++ X).toList
      = ("output" ++ natRepr j ++ Y).toList := by rw [h]
  rw [toList_append2, toList_append2, hXl, hYl,
    show (natRepr i).toList = natDigits i from rfl,
    show (natRepr j).toList = natDigits j from rfl,
    List.append_assoc, List.append_assoc] at h2
  have h3 := List.append_cancel_left h2
  obtain ⟨hij, hcd, hst⟩ := natRepr_append_inj hc hd h3
  refine ⟨hij, ?_⟩
  rw [← mk_toList X, ← mk_toList Y, hXl, hYl, hcd, hst]

theorem outIdxName_output {i : Nat} {X : String}
    (hX : ∃ c s, X.toList = c :: s ∧ c.isDigit = false) :
    outIdxName i ("output" ++ natRepr i ++ X) := by
  obtain ⟨c, s, hXl, hc⟩ := hX
  refine ⟨"output", c, s, Or.inl rfl, hc, ?_⟩
  rw [toList_append2, hXl, show (natRepr i).toList = natDigits i from rfl,
    List.append_assoc]

theorem outIdxName_error {i : Nat} {X : String}
    (hX : ∃ c s, X.toList = c :: s ∧ c.isDigit = false) :
    outIdxName i ("error" ++ natRepr i ++ X) := by
  obtain ⟨c, s, hXl, hc⟩ := hX
  refine ⟨"error", c, s, Or.inr rfl, hc, ?_⟩
  rw [toList_append2, hXl, show (natRepr i).toList = natDigits i from rfl,
    List.append_assoc]

theorem dot_head (X : String) (hX : X = ".txt" ∨ X = ".html" ∨ X = ".tex" ∨
    X = ".png" ∨ X = ".jpg" ∨ X = ".json" ∨ X = "-metadata.json") :
    ∃ c s, X.toList = c :: s ∧ c.isDigit = false := by
  rcases hX with rfl | rfl | rfl | rfl | rfl | rfl | rfl
  · exact ⟨'.', ['t', 'x', 't'], rfl, by decide⟩
  · exact ⟨'.', ['h', 't', 'm', 'l'], rfl, by decide⟩
  · exact ⟨'.', ['t', 'e', 'x'], rfl, by decide⟩
  · exact ⟨'.', ['p', 'n', 'g'], rfl, by decide⟩
  · exact ⟨'.', ['j', 'p', 'g'], rfl, by decide⟩
  · exact ⟨'.', ['j', 's', 'o', 'n'], rfl, by decide⟩
  · exact ⟨'-', "metadata.json".toList, rfl, by decide⟩

theorem ext_dot_head {mt ext : String} (h : mime_to_ext mt = some ext) :
    ∃ c s, ext.toList = c :: s ∧ c.isDigit = false := by
  rcases mime_to_ext_cases h with ⟨-, rfl⟩ | ⟨-, rfl⟩ | ⟨-, rfl⟩ | ⟨-, rfl⟩ | ⟨-, rfl⟩
  · exact dot_head _ (by simp)
  · exact dot_head _ (by simp)
  · exact dot_head _ (by simp)
  · exact dot_head _ (by simp)
  · exact dot_head _ (by simp)

theorem mimeExt_inj {a b x y : String} (ha : mime_to_ext a = some x)
    (hb : mime_to_ext b = some y) (hab : a ≠ b) : x ≠ y := by
  rcases mime_to_ext_cases ha with ⟨rfl, rfl⟩ | ⟨rfl, rfl⟩ | ⟨rfl, rfl⟩ | ⟨rfl, rfl⟩ | ⟨rfl, rfl⟩ <;>
    rcases mime_to_ext_cases hb with ⟨rfl, rfl⟩ | ⟨rfl, rfl⟩ | ⟨rfl, rfl⟩ | ⟨rfl, rfl⟩ | ⟨rfl, rfl⟩ <;>
    simp_all

theorem dataEntries_mem {cellDir : Path} {i : Nat} {l : List (String × String)}
    {e : Path × FileData} (he : e ∈ dataEntries cellDir i l) :
    ∃ mt payload, (mt, payload) ∈ l ∧
      e.1 = cellDir ++ ["output" ++ natRepr i ++ (mime_to_ext mt).getD ""] := by
  induction l with
  | nil => exact absurd he (List.not_mem_nil e)
  | cons p rest ih =>
    obtain ⟨mt, payload⟩ := p
    rcases List.mem_cons.1 he with h | h
    · exact ⟨mt, payload, List.mem_cons_self _ _, by rw [h]⟩
    · obtain ⟨mt2, p2, hmem, hp⟩ := ih h
      exact ⟨mt2, p2, List.mem_cons_of_mem _ hmem, hp⟩

theorem outputEntries_names {cellDir : Path} {k : Nat} {o : Output}
    (hwf : wfOutput o) :
    ∀ e ∈ outputEntries cellDir k o, ∃ nm, e.1 = cellDir ++ [nm] ∧ outIdxName k nm := by
  intro e he
  obtain ⟨htypes, hstream, herror, hexec, hdisp⟩ := hwf
  unfold outputEntries at he
  rcases htypes with ht | ht | ht | ht
  · rw [ht] at he
    simp only [if_pos rfl] at he
    rcases List.mem_singleton.1 he with rfl
    exact ⟨_, rfl, outIdxName_output (dot_head ".txt" (by simp))⟩
  · rw [ht] at he
    simp only [show ((some "error" : Option String) = some "stream") = False from by simp,
      if_false, if_pos rfl] at he
    rcases List.mem_singleton.1 he with rfl
    exact ⟨_, rfl, outIdxName_error (dot_head ".json" (by simp))⟩
  · rw [ht] at he
    simp only [show ((some "execute_result" : Option String) = some "stream") = False from by simp,
      show ((some "execute_result" : Option String) = some "error") = False from by simp,
      if_false] at he
    rcases List.mem_cons.1 he with h | h
    · rcases h with rfl
      exact ⟨_, rfl, outIdxName_output (dot_head "-metadata.json" (by simp))⟩
    · obtain ⟨mt, payload, hmem, hp⟩ := dataEntries_mem h
      have hext : mime_to_ext mt ≠ none := ((hexec ht).1.2.2.2.2.2 (mt, payload) hmem).1
      cases hmt : mime_to_ext mt with
      | none => exact absurd hmt hext
      | some ext =>
        refine ⟨_, by rw [hp], ?_⟩
        rw [hmt] at hp ⊢
        exact outIdxName_output (ext_dot_head hmt)
  · rw [ht] at he
    simp only [show ((some "display_data" : Option String) = some "stream") = False from by simp,
      show ((some "display_data" : Option String) = some "error") = False from by simp,
      if_false] at he
    rcases List.mem_cons.1 he with h | h
    · rcases h with rfl
      exact ⟨_, rfl, outIdxName_output (dot_head "-metadata.json" (by simp))⟩
    · obtain ⟨mt, payload, hmem, hp⟩ := dataEntries_mem h
      have hext : mime_to_ext mt ≠ none := ((hdisp ht).1.2.2.2.2.2 (mt, payload) hmem).1
      cases hmt : mime_to_ext mt with
      | none => exact absurd hmt hext
      | some ext =>
        refine ⟨_, by rw [hp], ?_⟩
        rw [hmt] at hp ⊢
        exact outIdxName_output (ext_dot_head hmt)

/-! ## Reading back the per-output files -/

theorem fsRead_outputEntries_ne {cellDir : Path} {k : Nat} {o : Output} {i : Nat}
    {nm : String} (hwf : wfOutput o) (hi : outIdxName i nm) (hik : i ≠ k) :
    fsRead (outputEntries cellDir k o) (cellDir ++ [nm]) = none := by
  apply fsRead_eq_none
  intro e he
  obtain ⟨nm2, hp, hidx⟩ := outputEntries_names hwf e he
  rw [hp]
  exact path_snoc_ne (outIdxName_ne hidx hi (fun h => hik h.symm))

theorem outputsEntries_names {cellDir : Path} {l : List Output} {k : Nat}
    (hwf : ∀ o ∈ l, wfOutput o) :
    ∀ e ∈ outputsEntries cellDir l k,
      ∃ nm j, k ≤ j ∧ e.1 = cellDir ++ [nm] ∧ outIdxName j nm := by
  induction l generalizing k with
  | nil => intro e he; exact absurd he (List.not_mem_nil e)
  | cons o rest ih =>
    intro e he
    rcases List.mem_append.1 he with h | h
    · obtain ⟨nm, hp, hidx⟩ := outputEntries_names (hwf o (List.mem_cons_self _ _)) e h
      exact ⟨nm, k, le_refl k, hp, hidx⟩
    · obtain ⟨nm, j, hj, hp, hidx⟩ :=
        ih (fun x hx => hwf x (List.mem_cons_of_mem _ hx)) e h
      exact ⟨nm, j, le_trans (Nat.le_succ k) hj, hp, hidx⟩

theorem fsRead_outputsEntries_lt {cellDir : Path} {l : List Output} {k i : Nat}
    {nm : String} (hwf : ∀ o ∈ l, wfOutput o) (hi : outIdxName i nm) (hik : i < k) :
    fsRead (outputsEntries cellDir l k) (cellDir ++ [nm]) = none := by
  apply fsRead_eq_none
  intro e he
  obtain ⟨nm2, j, hj, hp, hidx⟩ := outputsEntries_names hwf e he
  rw [hp]
  exact path_snoc_ne (outIdxName_ne hidx hi (fun h => by omega))

theorem fsRead_dataEntries_none {cellDir : Path} {i : Nat} {l : List (String × String)}
    {ext : String} (hall : ∀ p ∈ l, mime_to_ext p.1 ≠ none)
    (hne : ∀ p ∈ l, ∀ ext2, mime_to_ext p.1 = some ext2 → ext2 ≠ ext)
    (hext : ∃ c s, ext.toList = c :: s ∧ c.isDigit = false) :
    fsRead (dataEntries cellDir i l) (cellDir ++ ["output" ++ natRepr i ++ ext]) = none := by
  apply fsRead_eq_none
  intro e he
  obtain ⟨mt, payload, hmem, hp⟩ := dataEntries_mem he
  rw [hp]
  cases hmt : mime_to_ext mt with
  | none => exact absurd hmt (hall (mt, payload) hmem)
  | some ext2 =>
    simp only [Option.getD_some]
    apply path_snoc_ne
    intro h
    exact hne (mt, payload) hmem ext2 hmt
      (outputName_inj_str (ext_dot_head hmt) hext h).2

theorem fsRead_dataEntries {cellDir : Path} {i : Nat} {l : List (String × String)}
    {mt payload ext : String} (hcanon : canonKV l) (hmem : (mt, payload) ∈ l)
    (hext : mime_to_ext mt = some ext)
    (hall : ∀ p ∈ l, mime_to_ext p.1 ≠ none) :
    fsRead (dataEntries cellDir i l) (cellDir ++ ["output" ++ natRepr i ++ ext])
      = some (if is_binary mt then FileData.bytesF (b64decode payload)
              else FileData.textF payload) := by
  induction l with
  | nil => exact absurd hmem (List.not_mem_nil _)
  | cons p rest ih =>
    obtain ⟨mt1, p1⟩ := p
    rw [show dataEntries cellDir i ((mt1, p1) :: rest)
        = (cellDir ++ ["output" ++ natRepr i ++ (mime_to_ext mt1).getD ""],
           if is_binary mt1 then FileData.bytesF (b64decode p1)
           else FileData.textF p1) :: dataEntries cellDir i rest from rfl]
    rw [fsRead_cons]
    rcases List.mem_cons.1 hmem with h | h
    · obtain ⟨h1, h2⟩ := Prod.mk.inj h
      subst h1; subst h2
      have hrest : fsRead (dataEntries cellDir i rest)
          (cellDir ++ ["output" ++ natRepr i ++ ext]) = none := by
        apply fsRead_dataEntries_none
          (fun q hq => hall q (List.mem_cons_of_mem _ hq))
        · intro q hq ext2 hq2
          apply mimeExt_inj hq2 hext
          intro he
          have hlt := hcanon.1 q hq
          rw [he] at hlt
          exact absurd hlt (lt_irrefl _)
        · exact ext_dot_head hext
      rw [hrest, hext]
      simp
    · have hne1 : mt1 ≠ mt := by
        intro he
        have hlt := hcanon.1 (mt, payload) h
        rw [he] at hlt
        exact absurd hlt (lt_irrefl _)
      rw [ih hcanon.2 h (fun q hq => hall q (List.mem_cons_of_mem _ hq))]

theorem fsRead_outputEntries_md {cellDir : Path} {k : Nat} {o : Output}
    (ht : o.output_type = some "execute_result" ∨ o.output_type = some "display_data")
    (hall : ∀ p ∈ o.data, mime_to_ext p.1 ≠ none) :
    fsRead (outputEntries cellDir k o)
        (cellDir ++ ["output" ++ natRepr k ++ "-metadata.json"])
      = some (FileData.jsonF (sortDoc o.metadata)) := by
  have hd : fsRead (dataEntries cellDir k o.data)
      (cellDir ++ ["output" ++ natRepr k ++ "-metadata.json"]) = none := by
    apply fsRead_dataEntries_none hall
    · intro q hq ext2 hq2 he
      rcases mime_to_ext_cases hq2 with ⟨-, rfl⟩ | ⟨-, rfl⟩ | ⟨-, rfl⟩ | ⟨-, rfl⟩ | ⟨-, rfl⟩ <;>
        exact absurd he (by decide)
    · exact dot_head "-metadata.json" (by simp)
  unfold outputEntries
  rcases ht with ht | ht <;>
  · rw [ht]
    rw [if_neg (by decide), if_neg (by decide), fsRead_cons, hd]
    simp

/-! ## The descriptor of a mimebundle output -/

theorem joinSep_head {k0 : String} {rest : List String} {c : Char} {s : List Char}
    (hk : k0.toList = c :: s) :
    ∃ u, (joinSep ", " (k0 :: rest)).toList = c :: u := by
  cases rest with
  | nil => exact ⟨s, hk⟩
  | cons t r =>
    rw [show joinSep ", " (k0 :: t :: r) = k0 ++ ", " ++ joinSep ", " (t :: r) from rfl,
      toList_append2, hk]
    exact ⟨(s ++ (", " : String).toList) ++ (joinSep ", " (t :: r)).toList, rfl⟩

theorem joinSep_chars {l : List String} {c : Char}
    (h : ∀ s ∈ l, ∀ x ∈ s.toList, x ≠ c) (hc1 : c ≠ ',') (hc2 : c ≠ ' ') :
    ∀ x ∈ (joinSep ", " l).toList, x ≠ c := by
  induction l with
  | nil => intro x hx; exact absurd hx (List.not_mem_nil x)
  | cons k0 rest ih =>
    cases rest with
    | nil => exact h k0 (List.mem_cons_self _ _)
    | cons t r =>
      intro x hx
      rw [show joinSep ", " (k0 :: t :: r) = k0 ++ ", " ++ joinSep ", " (t :: r)
        from rfl, toList_append2] at hx
      rcases List.mem_append.1 hx with hx2 | hx2
      · rcases List.mem_append.1 hx2 with hx3 | hx3
        · exact h k0 (List.mem_cons_self _ _) x hx3
        · rcases List.mem_cons.1 hx3 with rfl | hx4
          · exact fun he => hc1 he.symm
          · rcases List.mem_singleton.1 hx4 with rfl
            exact fun he => hc2 he.symm
      · exact ih (fun q hq => h q (List.mem_cons_of_mem _ hq)) x hx2

theorem table_key_chars {mt ext : String} (h : mime_to_ext mt = some ext) :
    (∀ x ∈ mt.toList, x ≠ ',' ∧ x ≠ ')' ∧ x ≠ Char.ofNat 10) ∧
    (∃ s, mt.toList = 't' :: s ∨ mt.toList = 'i' :: s) := by
  rcases mime_to_ext_cases h with ⟨rfl, -⟩ | ⟨rfl, -⟩ | ⟨rfl, -⟩ | ⟨rfl, -⟩ | ⟨rfl, -⟩
  · exact ⟨by decide, ⟨"ext/plain".toList, Or.inl rfl⟩⟩
  · exact ⟨by decide, ⟨"ext/html".toList, Or.inl rfl⟩⟩
  · exact ⟨by decide, ⟨"ext/latex".toList, Or.inl rfl⟩⟩
  · exact ⟨by decide, ⟨"mage/png".toList, Or.inr rfl⟩⟩
  · exact ⟨by decide, ⟨"mage/jpeg".toList, Or.inr rfl⟩⟩

/-- Facts about the comma-joined sorted mime list of a nonempty wf bundle:
its head character, its character set, and its exact split. -/
theorem ml_facts {l : List (String × String)} (hcanon : canonKV l) (hne : l ≠ [])
    (hall : ∀ p ∈ l, mime_to_ext p.1 ≠ none) :
    (∃ c u, (c = 't' ∨ c = 'i') ∧ (joinSep ", " (l.map Prod.fst)).toList = c :: u) ∧
    (∀ x ∈ (joinSep ", " (l.map Prod.fst)).toList, x ≠ ')') ∧
    (∀ x ∈ (joinSep ", " (l.map Prod.fst)).toList, x ≠ Char.ofNat 10) ∧
    pySplit (joinSep ", " (l.map Prod.fst)) ", " = l.map Prod.fst := by
  have hkeys : ∀ mt ∈ l.map Prod.fst, mime_to_ext mt ≠ none := by
    intro mt hmt
    rcases List.mem_map.1 hmt with ⟨p, hp, rfl⟩
    exact hall p hp
  have hchar : ∀ mt ∈ l.map Prod.fst, ∀ x ∈ mt.toList,
      x ≠ ',' ∧ x ≠ ')' ∧ x ≠ Char.ofNat 10 := by
    intro mt hmt x hx
    cases hmx : mime_to_ext mt with
    | none => exact absurd hmx (hkeys mt hmt)
    | some ext => exact (table_key_chars hmx).1 x hx
  refine ⟨?_, ?_, ?_, ?_⟩
  · cases hl : l with
    | nil => exact absurd hl hne
    | cons p rest =>
      have hp : mime_to_ext p.1 ≠ none := hall p (hl ▸ List.mem_cons_self _ _)
      cases hmx : mime_to_ext p.1 with
      | none => exact absurd hmx hp
      | some ext =>
        obtain ⟨-, s, hs⟩ := table_key_chars hmx
        rcases hs with hs | hs
        · obtain ⟨u, hu⟩ := @joinSep_head _ (rest.map Prod.fst) _ _ hs
          exact ⟨'t', u, Or.inl rfl, hu⟩
        · obtain ⟨u, hu⟩ := @joinSep_head _ (rest.map Prod.fst) _ _ hs
          exact ⟨'i', u, Or.inr rfl, hu⟩
  · exact joinSep_chars (fun q hq x hx => (hchar q hq x hx).2.1) (by decide) (by decide)
  · exact joinSep_chars (fun q hq x hx => (hchar q hq x hx).2.2) (by decide) (by decide)
  · apply pySplit_joinSep
    · intro he
      exact hne (List.map_eq_nil_iff.1 he)
    · intro q hq x hx
      exact (hchar q hq x hx).1

theorem readMimebundle_roundtrip {cellDir : Path} {k : Nat} {fs : FS}
    {l : List (String × String)}
    (hwf : ∀ p ∈ l, mime_to_ext p.1 ≠ none ∧
      (is_binary p.1 = true → b64encode (b64decode p.2) = p.2))
    (hread : ∀ mt payload ext, (mt, payload) ∈ l → mime_to_ext mt = some ext →
        fsRead fs (cellDir ++ ["output" ++ natRepr k ++ ext])
          = some (if is_binary mt then FileData.bytesF (b64decode payload)
                  else FileData.textF payload)) :
    readMimebundle (l.map Prod.fst) cellDir k fs = .ok l := by
  induction l with
  | nil => rfl
  | cons p rest ih =>
    obtain ⟨mt, payload⟩ := p
    have hmx : mime_to_ext mt ≠ none := (hwf (mt, payload) (List.mem_cons_self _ _)).1
    cases hext : mime_to_ext mt with
    | none => exact absurd hext hmx
    | some ext =>
      rw [show ((mt, payload) :: rest).map Prod.fst = mt :: rest.map Prod.fst from rfl]
      rw [readMimebundle, hext]
      simp only []
      rw [hread mt payload ext (List.mem_cons_self _ _) hext]
      have ihr := ih (fun q hq => hwf q (List.mem_cons_of_mem _ hq))
        (fun a b c hm he => hread a b c (List.mem_cons_of_mem _ hm) he)
      have hcanon := (hwf (mt, payload) (List.mem_cons_self _ _)).2
      cases hbin : is_binary mt with
      | true => simp [hbin, ihr, hcanon hbin]
      | false => simp [hbin, ihr]

theorem toList_head_append {a b : String} {c : Char} {u : List Char}
    (h : a.toList = c :: u) : ∃ v, (a ++ b).toList = c :: v :=
  ⟨u ++ b.toList, by rw [toList_append, h]; rfl⟩

theorem ne_fixed_of_head {a : String} {c : Char} {u : List Char}
    (h : a.toList = c :: u) {b : String} {d : Char} {v : List Char}
    (hb : b.toList = d :: v) (hcd : c ≠ d) : a ≠ b := by
  apply str_ne_of_toList_ne
  rw [h, hb]
  exact fun he => hcd (List.cons.inj he).1

/-- Decoding the descriptor of a well-formed output, over any journal whose
reads of this output's files agree with the entries `explode_output` wrote
for it, returns exactly the original output. -/
theorem recombine_output_roundtrip {cellDir : Path} {o : Output} {k : Nat} {fs : FS}
    (hwf : wfOutput o) (hne : richNonempty o)
    (hread : ∀ nm, outIdxName k nm →
        fsRead fs (cellDir ++ [nm]) = fsRead (outputEntries cellDir k o) (cellDir ++ [nm])) :
    recombine_output cellDir k (outputDesc o) fs = .ok o := by
  obtain ⟨htypes, hstream, herror, hexec, hdisp⟩ := hwf
  rcases htypes with ht | ht | ht | ht
  · -- stream
    obtain ⟨hname, htext, he1, he2, he3, he4⟩ := hstream ht
    obtain ⟨ot, onm, otx, oerr, odata, omd, ocnt⟩ := o
    dsimp only at ht hname htext he1 he2 he3 he4 hread ⊢
    subst ht he1 he2 he3 he4
    cases htx : otx with
    | none => exact absurd htx htext
    | some tx =>
    subst htx
    rcases hname with hnm | hnm
    · subst hnm
      have hr := hread ("output" ++ natRepr k ++ ".txt")
        (outIdxName_output (dot_head ".txt" (by simp)))
      have hdesc : outputDesc (Output.mk (some "stream") (some "stdout")
          (some tx) [] [] [] none) = "stdout" := rfl
      rw [hdesc]
      unfold recombine_output
      rw [if_pos (Or.inl rfl), hr]
      have hoe : outputEntries cellDir k (Output.mk (some "stream") (some "stdout")
          (some tx) [] [] [] none)
          = [(cellDir ++ ["output" ++ natRepr k ++ ".txt"], FileData.textF tx)] := rfl
      rw [hoe, fsRead_single, if_pos rfl]
      rfl
    · subst hnm
      have hr := hread ("output" ++ natRepr k ++ ".txt")
        (outIdxName_output (dot_head ".txt" (by simp)))
      have hdesc : outputDesc (Output.mk (some "stream") (some "stderr")
          (some tx) [] [] [] none) = "stderr" := rfl
      rw [hdesc]
      unfold recombine_output
      rw [if_pos (Or.inr rfl), hr]
      have hoe : outputEntries cellDir k (Output.mk (some "stream") (some "stderr")
          (some tx) [] [] [] none)
          = [(cellDir ++ ["output" ++ natRepr k ++ ".txt"], FileData.textF tx)] := rfl
      rw [hoe, fsRead_single, if_pos rfl]
      rfl
  · -- error
    obtain ⟨he0, he1, hcanonE, he2, he3, he4⟩ := herror ht
    obtain ⟨ot, onm, otx, oerr, odata, omd, ocnt⟩ := o
    dsimp only at ht he0 he1 hcanonE he2 he3 he4 hread ⊢
    subst ht he0 he1 he2 he3 he4
    have hr := hread ("error" ++ natRepr k ++ ".json")
      (outIdxName_error (dot_head ".json" (by simp)))
    have hdesc : outputDesc (Output.mk (some "error") none none oerr [] [] none)
        = "error" := rfl
    rw [hdesc]
    unfold recombine_output
    rw [if_neg (by decide), if_pos rfl, hr]
    have hoe : outputEntries cellDir k (Output.mk (some "error") none none oerr [] [] none)
        = [(cellDir ++ ["error" ++ natRepr k ++ ".json"],
            FileData.jsonF (sortDoc oerr))] := rfl
    rw [hoe, fsRead_single, if_pos rfl]
    simp only []
    rw [show new_error (sortDoc oerr) = new_error oerr from by
      unfold new_error
      rw [sortDoc_of_canon hcanonE]]
    rfl
  · -- execute_result
    obtain ⟨hrich, hcnt⟩ := hexec ht
    obtain ⟨hn0, hn1, hn2, hmdcanon, hdcanon, hall⟩ := hrich
    obtain ⟨ot, onm, otx, oerr, odata, omd, ocnt⟩ := o
    dsimp only at ht hn0 hn1 hn2 hmdcanon hdcanon hall hcnt hne hread ⊢
    subst ht hn0 hn1 hn2
    cases hcn : ocnt with
    | none => exact absurd hcn hcnt
    | some n =>
    subst hcn
    have hdne : odata ≠ [] := hne (Or.inl rfl)
    have hall2 : ∀ p ∈ odata, mime_to_ext p.1 ≠ none := fun p hp => (hall p hp).1
    obtain ⟨⟨c, u, hcti, hhead⟩, hnoparen, hnonl, hsplit⟩ :=
      ml_facts hdcanon hdne hall2
    have hsort : sortStr (odata.map Prod.fst) = odata.map Prod.fst :=
      sortStr_keys_of_canon hdcanon
    have hoe : outputEntries cellDir k (Output.mk (some "execute_result") none none
        [] odata omd (some n))
        = (cellDir ++ ["output" ++ natRepr k ++ "-metadata.json"],
           FileData.jsonF (sortDoc omd)) :: dataEntries cellDir k odata := rfl
    have hdesc : outputDesc (Output.mk (some "execute_result") none none
        [] odata omd (some n))
        = joinSep ", " (sortStr (odata.map Prod.fst)) ++ " (" ++ natRepr n ++ ")" := rfl
    rw [hdesc, hsort]
    obtain ⟨v1, hv1⟩ := toList_head_append (b := " (") hhead
    obtain ⟨v2, hv2⟩ := toList_head_append (b := natRepr n) hv1
    obtain ⟨v3, hv3⟩ := toList_head_append (b := ")") hv2
    have hcs : c ≠ 's' ∧ c ≠ 'e' := by
      rcases hcti with rfl | rfl <;> exact ⟨by decide, by decide⟩
    unfold recombine_output
    rw [if_neg (by
      rintro (h | h)
      · exact ne_fixed_of_head hv3 (show ("stdout" : String).toList
          = 's' :: "tdout".toList from rfl) hcs.1 h
      · exact ne_fixed_of_head hv3 (show ("stderr" : String).toList
          = 's' :: "tderr".toList from rfl) hcs.1 h)]
    rw [if_neg (ne_fixed_of_head hv3 (show ("error" : String).toList
        = 'e' :: "rror".toList from rfl) hcs.2)]
    rw [execSuffix_encode]
    dsimp only
    rw [show String.mk ((joinSep ", " (odata.map Prod.fst) ++ " ("
          ++ natRepr n ++ ")").toList.take
          ((joinSep ", " (odata.map Prod.fst) ++ " (" ++ natRepr n ++ ")").toList.length
            - ((natDigits n).length + 2 + 1)))
        = joinSep ", " (odata.map Prod.fst) from by
      rw [execSuffix_strip]
      rfl]
    rw [hsplit]
    rw [readMimebundle_roundtrip hall (fun mt payload ext hm he => by
      rw [hread ("output" ++ natRepr k ++ ext) (outIdxName_output (ext_dot_head he))]
      rw [hoe, fsRead_cons, fsRead_dataEntries hdcanon hm he hall2])]
    rw [ebind_ok]
    have hmd := hread ("output" ++ natRepr k ++ "-metadata.json")
      (outIdxName_output (dot_head "-metadata.json" (by simp)))
    rw [hmd, fsRead_outputEntries_md (Or.inl rfl) hall2]
    rw [sortDoc_of_canon hmdcanon]
    rfl
  · -- display_data
    obtain ⟨hrich, hcnt⟩ := hdisp ht
    obtain ⟨hn0, hn1, hn2, hmdcanon, hdcanon, hall⟩ := hrich
    obtain ⟨ot, onm, otx, oerr, odata, omd, ocnt⟩ := o
    dsimp only at ht hn0 hn1 hn2 hmdcanon hdcanon hall hcnt hne hread ⊢
    subst ht hn0 hn1 hn2 hcnt
    have hdne : odata ≠ [] := hne (Or.inr rfl)
    have hall2 : ∀ p ∈ odata, mime_to_ext p.1 ≠ none := fun p hp => (hall p hp).1
    obtain ⟨⟨c, u, hcti, hhead⟩, hnoparen, hnonl, hsplit⟩ :=
      ml_facts hdcanon hdne hall2
    have hsort : sortStr (odata.map Prod.fst) = odata.map Prod.fst :=
      sortStr_keys_of_canon hdcanon
    have hoe : outputEntries cellDir k (Output.mk (some "display_data") none none
        [] odata omd none)
        = (cellDir ++ ["output" ++ natRepr k ++ "-metadata.json"],
           FileData.jsonF (sortDoc omd)) :: dataEntries cellDir k odata := rfl
    have hdesc : outputDesc (Output.mk (some "display_data") none none
        [] odata omd none)
        = joinSep ", " (sortStr (odata.map Prod.fst)) := rfl
    rw [hdesc, hsort]
    have hcs : c ≠ 's' ∧ c ≠ 'e' := by
      rcases hcti with rfl | rfl <;> exact ⟨by decide, by decide⟩
    unfold recombine_output
    rw [if_neg (by
      rintro (h | h)
      · exact ne_fixed_of_head hhead (show ("stdout" : String).toList
          = 's' :: "tdout".toList from rfl) hcs.1 h
      · exact ne_fixed_of_head hhead (show ("stderr" : String).toList
          = 's' :: "tderr".toList from rfl) hcs.1 h)]
    rw [if_neg (ne_fixed_of_head hhead (show ("error" : String).toList
        = 'e' :: "rror".toList from rfl) hcs.2)]
    rw [execSuffix_none_of_no_rparen hnoparen]
    dsimp only
    rw [hsplit]
    rw [readMimebundle_roundtrip hall (fun mt payload ext hm he => by
      rw [hread ("output" ++ natRepr k ++ ext) (outIdxName_output (ext_dot_head he))]
      rw [hoe, fsRead_cons, fsRead_dataEntries hdcanon hm he hall2])]
    rw [ebind_ok]
    have hmd := hread ("output" ++ natRepr k ++ "-metadata.json")
      (outIdxName_output (dot_head "-metadata.json" (by simp)))
    rw [hmd, fsRead_outputEntries_md (Or.inr rfl) hall2]
    rw [sortDoc_of_canon hmdcanon]
    rfl

/-- Decoding a whole descriptor sequence over a journal that sandwiches the
outputs' entries between reads-irrelevant segments returns the original
output list. -/
theorem recombineOutputs_roundtrip {cellDir : Path} {l : List Output} {k : Nat}
    {fsPre fsPost : FS}
    (hwf : ∀ o ∈ l, wfOutput o) (hne : ∀ o ∈ l, richNonempty o)
    (hpre : ∀ nm j, outIdxName j nm → k ≤ j → fsRead fsPre (cellDir ++ [nm]) = none)
    (hpost : ∀ nm j, outIdxName j nm → fsRead fsPost (cellDir ++ [nm]) = none) :
    recombineOutputs cellDir (fsPre ++ (outputsEntries cellDir l k ++ fsPost))
      (l.map outputDesc) k = .ok l := by
  induction l generalizing k fsPre with
  | nil => rfl
  | cons o rest ih =>
    have hwfo := hwf o (List.mem_cons_self _ _)
    have hwfrest : ∀ x ∈ rest, wfOutput x := fun x hx => hwf x (List.mem_cons_of_mem _ hx)
    rw [List.map_cons, recombineOutputs]
    have hstep : recombine_output cellDir k (outputDesc o)
        (fsPre ++ (outputsEntries cellDir (o :: rest) k ++ fsPost)) = .ok o := by
      apply recombine_output_roundtrip hwfo (hne o (List.mem_cons_self _ _))
      intro nm hnm
      rw [show outputsEntries cellDir (o :: rest) k
          = outputEntries cellDir k o ++ outputsEntries cellDir rest (k + 1) from rfl]
      rw [fsRead_append, fsRead_append, hpost nm k hnm]
      rw [fsRead_append, fsRead_outputsEntries_lt hwfrest hnm (Nat.lt_succ_self k)]
      rw [hpre nm k hnm (le_refl k)]
      cases fsRead (outputEntries cellDir k o) (cellDir ++ [nm]) <;> rfl
    rw [hstep, ebind_ok]
    have hpre2 : ∀ nm j, outIdxName j nm → k + 1 ≤ j →
        fsRead (fsPre ++ outputEntries cellDir k o) (cellDir ++ [nm]) = none := by
      intro nm j hnm hj
      rw [fsRead_append, fsRead_outputEntries_ne hwfo hnm (by omega)]
      exact hpre nm j hnm (by omega)
    have ihr := ih hwfrest (fun x hx => hne x (List.mem_cons_of_mem _ hx)) hpre2
    rw [show fsPre ++ (outputsEntries cellDir (o :: rest) k ++ fsPost)
        = (fsPre ++ outputEntries cellDir k o)
          ++ (outputsEntries cellDir rest (k + 1) ++ fsPost) from by
      rw [show outputsEntries cellDir (o :: rest) k
          = outputEntries cellDir k o ++ outputsEntries cellDir rest (k + 1) from rfl]
      simp [List.append_assoc]]
    rw [ihr]
    rfl

/-! ## Locating a cell's files in the journal -/

theorem path_assoc (dir : Path) (cid nm : String) :
    dir ++ [cid, nm] = (dir ++ [cid]) ++ [nm] :=
  (List.append_assoc dir [cid] [nm]).symm

theorem sourceEntry_some {cellDir : Path} {e : Path × FileData} {n : String}
    (h : sourceEntry cellDir e = some n) :
    e.1 = cellDir ++ [n] ∧ startsList n "source." = true := by
  unfold sourceEntry at h
  by_cases ht : e.1.take cellDir.length = cellDir
  · rw [if_pos ht] at h
    cases hd : e.1.drop cellDir.length with
    | nil =>
      rw [hd] at h
      simp only [] at h
      exact Option.noConfusion h
    | cons a t =>
      cases t with
      | nil =>
        rw [hd] at h
        simp only [] at h
        by_cases hs : startsList a "source." = true
        · rw [if_pos hs] at h
          have ha : a = n := Option.some.inj h
          subst ha
          refine ⟨?_, hs⟩
          rw [← List.take_append_drop cellDir.length e.1, ht, hd]
        · rw [if_neg hs] at h
          exact Option.noConfusion h
      | cons b u =>
        rw [hd] at h
        simp only [] at h
        exact Option.noConfusion h
  · rw [if_neg ht] at h
    exact Option.noConfusion h

theorem sourceEntry_child (cellDir : Path) (nm : String) (v : FileData) :
    sourceEntry cellDir (cellDir ++ [nm], v)
      = if startsList nm "source." then some nm else none := by
  unfold sourceEntry
  rw [show (cellDir ++ [nm], v).1 = cellDir ++ [nm] from rfl, List.take_left,
    if_pos rfl, List.drop_left]

theorem globSource_of_disjoint {fs : FS} {dir : Path} {cid : String}
    (h : ∀ e ∈ fs, ∀ nm, e.1 ≠ dir ++ [cid, nm]) :
    globSource fs (dir ++ [cid]) = [] := by
  unfold globSource
  rw [List.filterMap_eq_nil]
  intro e he
  cases hse : sourceEntry (dir ++ [cid]) e with
  | none => rfl
  | some n =>
    obtain ⟨hp, -⟩ := sourceEntry_some hse
    exact absurd (by rw [path_assoc]; exact hp) (h e he n)

theorem fsRead_of_disjoint {fs : FS} {dir : Path} {cid : String} (nm : String)
    (h : ∀ e ∈ fs, ∀ nm2, e.1 ≠ dir ++ [cid, nm2]) :
    fsRead fs ((dir ++ [cid]) ++ [nm]) = none := by
  apply fsRead_eq_none
  intro e he
  rw [← path_assoc]
  exact h e he nm

theorem srcNameOf_head (langExt : Option String) (c : Cell) :
    ∃ u, (srcNameOf langExt c).toList = 's' :: u := by
  unfold srcNameOf
  by_cases h1 : c.cell_type = "markdown"
  · rw [if_pos h1]; exact ⟨"ource.md".toList, rfl⟩
  · rw [if_neg h1]
    by_cases h2 : c.cell_type = "raw"
    · rw [if_pos h2]; exact ⟨"ource.txt".toList, rfl⟩
    · rw [if_neg h2]
      exact ⟨"ource".toList ++ (langExt.getD "").toList, by rw [toList_append]; rfl⟩

theorem startsList_source_false_of_outIdx {i : Nat} {nm : String}
    (h : outIdxName i nm) : startsList nm "source." = false := by
  obtain ⟨p, c, s, hp, hc, ha⟩ := h
  unfold startsList
  rw [ha]
  rcases hp with rfl | rfl
  · exact isPrefixOf_cons_ne (by decide) _ _
  · exact isPrefixOf_cons_ne (by decide) _ _

theorem outIdxName_ne_srcName {i : Nat} {nm : String} {langExt : Option String}
    {c : Cell} (h : outIdxName i nm) : nm ≠ srcNameOf langExt c := by
  obtain ⟨u, hu⟩ := srcNameOf_head langExt c
  exact outIdxName_ne_src h (by rw [hu]; rfl)

/-- `glob('source.*')` on one cell's files finds exactly the source file. -/
theorem globSource_cellFiles {langExt : Option String} {dir : Path} {cid : String}
    {c : Cell} (hsrc : startsList (srcNameOf langExt c) "source." = true)
    (houts : ∀ o ∈ c.outputs.getD [], wfOutput o) :
    globSource (cellFiles langExt dir cid c) (dir ++ [cid]) = [srcNameOf langExt c] := by
  unfold cellFiles globSource
  rw [List.filterMap_append, List.filterMap_append]
  have hsrcE : List.filterMap (sourceEntry (dir ++ [cid]))
      [(dir ++ [cid, srcNameOf langExt c], FileData.textF c.source)]
      = [srcNameOf langExt c] := by
    rw [show (dir ++ [cid, srcNameOf langExt c], FileData.textF c.source)
        = ((dir ++ [cid]) ++ [srcNameOf langExt c], FileData.textF c.source) from by
      rw [path_assoc]]
    simp only [List.filterMap_cons, sourceEntry_child, hsrc, if_true,
      List.filterMap_nil]
  have hmetaE : List.filterMap (sourceEntry (dir ++ [cid]))
      (if c.metadata = [] then ([] : FS)
       else [(dir ++ [cid, "metadata.json"], FileData.jsonF (sortDoc c.metadata))])
      = [] := by
    by_cases hm : c.metadata = []
    · rw [if_pos hm]; rfl
    · rw [if_neg hm]
      rw [show (dir ++ [cid, "metadata.json"], FileData.jsonF (sortDoc c.metadata))
          = ((dir ++ [cid]) ++ ["metadata.json"], FileData.jsonF (sortDoc c.metadata))
        from by rw [path_assoc]]
      simp only [List.filterMap_cons, sourceEntry_child, List.filterMap_nil]
      rw [if_neg (by decide)]
  have houtE : List.filterMap (sourceEntry (dir ++ [cid]))
      (match c.outputs with
       | none => ([] : FS)
       | some [] => ([] : FS)
       | some (o :: os) =>
           outputsEntries (dir ++ [cid]) (o :: os) 1 ++
           [(dir ++ [cid, "outputs_sequence"],
             FileData.textF (linesOut ((o :: os).map outputDesc)))]) = [] := by
    cases ho : c.outputs with
    | none => rfl
    | some outs =>
      cases outs with
      | nil => rfl
      | cons o os =>
        rw [List.filterMap_append, List.filterMap_eq_nil.2, List.nil_append]
        · rw [show (dir ++ [cid, "outputs_sequence"],
              FileData.textF (linesOut ((o :: os).map outputDesc)))
              = ((dir ++ [cid]) ++ ["outputs_sequence"],
                 FileData.textF (linesOut ((o :: os).map outputDesc))) from by
            rw [path_assoc]]
          simp only [List.filterMap_cons, sourceEntry_child, List.filterMap_nil]
          rw [if_neg (by decide)]
        · intro e he
          obtain ⟨nm, j, hj, hp, hidx⟩ := outputsEntries_names
            (by rw [ho] at houts; simpa using houts) e he
          rw [show e = (e.1, e.2) from rfl, hp, sourceEntry_child,
            startsList_source_false_of_outIdx hidx]
          simp
  rw [hsrcE, hmetaE, houtE, List.append_nil, List.append_nil]

theorem fsRead_single_ne {q : Path} {v : FileData} {p : Path} (h : q ≠ p) :
    fsRead [(q, v)] p = none := by
  rw [fsRead_single, if_neg h]

/-- Read of the source file among one cell's files. -/
theorem fsRead_cellFiles_src {langExt : Option String} {dir : Path} {cid : String}
    {c : Cell} (houts : ∀ o ∈ c.outputs.getD [], wfOutput o) :
    fsRead (cellFiles langExt dir cid c) ((dir ++ [cid]) ++ [srcNameOf langExt c])
      = some (FileData.textF c.source) := by
  obtain ⟨u, hu⟩ := srcNameOf_head langExt c
  unfold cellFiles
  have hout : fsRead (match c.outputs with
      | none => ([] : FS)
      | some [] => ([] : FS)
      | some (o :: os) =>
          outputsEntries (dir ++ [cid]) (o :: os) 1 ++
          [(dir ++ [cid, "outputs_sequence"],
            FileData.textF (linesOut ((o :: os).map outputDesc)))])
      ((dir ++ [cid]) ++ [srcNameOf langExt c]) = none := by
    cases ho : c.outputs with
    | none => rfl
    | some outs =>
      cases outs with
      | nil => rfl
      | cons o os =>
        rw [fsRead_append]
        rw [fsRead_single_ne (by
          rw [path_assoc]
          apply path_snoc_ne
          exact ne_fixed_of_head (show ("outputs_sequence" : String).toList
            = 'o' :: "utputs_sequence".toList from rfl) hu (by decide))]
        apply fsRead_eq_none
        intro e he
        obtain ⟨nm, j, hj, hp, hidx⟩ := outputsEntries_names
          (by rw [ho] at houts; simpa using houts) e he
        rw [hp]
        exact path_snoc_ne (outIdxName_ne_srcName hidx)
  have hmeta : fsRead (if c.metadata = [] then ([] : FS)
      else [(dir ++ [cid, "metadata.json"], FileData.jsonF (sortDoc c.metadata))])
      ((dir ++ [cid]) ++ [srcNameOf langExt c]) = none := by
    by_cases hm : c.metadata = []
    · rw [if_pos hm]; rfl
    · rw [if_neg hm]
      apply fsRead_single_ne
      rw [path_assoc]
      apply path_snoc_ne
      exact ne_fixed_of_head (show ("metadata.json" : String).toList
        = 'm' :: "etadata.json".toList from rfl) hu (by decide)
  rw [fsRead_append, hout]
  simp only []
  rw [fsRead_append, hmeta]
  simp only []
  rw [fsRead_single, if_pos (path_assoc dir cid (srcNameOf langExt c))]

/-- Read of the cell metadata file among one cell's files. -/
theorem fsRead_cellFiles_meta {langExt : Option String} {dir : Path} {cid : String}
    {c : Cell} (houts : ∀ o ∈ c.outputs.getD [], wfOutput o) :
    fsRead (cellFiles langExt dir cid c) ((dir ++ [cid]) ++ ["metadata.json"])
      = (if c.metadata = [] then none
         else some (FileData.jsonF (sortDoc c.metadata))) := by
  obtain ⟨u, hu⟩ := srcNameOf_head langExt c
  unfold cellFiles
  have hout : fsRead (match c.outputs with
      | none => ([] : FS)
      | some [] => ([] : FS)
      | some (o :: os) =>
          outputsEntries (dir ++ [cid]) (o :: os) 1 ++
          [(dir ++ [cid, "outputs_sequence"],
            FileData.textF (linesOut ((o :: os).map outputDesc)))])
      ((dir ++ [cid]) ++ ["metadata.json"]) = none := by
    cases ho : c.outputs with
    | none => rfl
    | some outs =>
      cases outs with
      | nil => rfl
      | cons o os =>
        rw [fsRead_append]
        rw [fsRead_single_ne (by
          rw [path_assoc]
          apply path_snoc_ne
          decide)]
        apply fsRead_eq_none
        intro e he
        obtain ⟨nm, j, hj, hp, hidx⟩ := outputsEntries_names
          (by rw [ho] at houts; simpa using houts) e he
        rw [hp]
        exact path_snoc_ne (outIdxName_ne_meta hidx)
  rw [fsRead_append, hout]
  simp only []
  rw [fsRead_append]
  by_cases hm : c.metadata = []
  · rw [if_pos hm, if_pos hm]
    simp only [fsRead_nil]
    rw [fsRead_single_ne (by
      rw [path_assoc]
      apply path_snoc_ne
      exact ne_fixed_of_head hu (show ("metadata.json" : String).toList
        = 'm' :: "etadata.json".toList from rfl) (by
          rcases srcNameOf_head langExt c with ⟨u2, hu2⟩
          decide))]
  · rw [if_neg hm, if_neg hm]
    rw [fsRead_single, if_pos (path_assoc dir cid "metadata.json")]

/-- Read of the `outputs_sequence` file among one cell's files. -/
theorem fsRead_cellFiles_seq {langExt : Option String} {dir : Path} {cid : String}
    {c : Cell} (houts : ∀ o ∈ c.outputs.getD [], wfOutput o) :
    fsRead (cellFiles langExt dir cid c) ((dir ++ [cid]) ++ ["outputs_sequence"])
      = (match c.outputs with
         | none => none
         | some [] => none
         | some (o :: os) =>
             some (FileData.textF (linesOut ((o :: os).map outputDesc)))) := by
  obtain ⟨u, hu⟩ := srcNameOf_head langExt c
  unfold cellFiles
  have hsrcmeta : fsRead ([(dir ++ [cid, srcNameOf langExt c], FileData.textF c.source)]
      ++ (if c.metadata = [] then ([] : FS)
          else [(dir ++ [cid, "metadata.json"], FileData.jsonF (sortDoc c.metadata))]))
      ((dir ++ [cid]) ++ ["outputs_sequence"]) = none := by
    rw [fsRead_append]
    have h1 : fsRead (if c.metadata = [] then ([] : FS)
        else [(dir ++ [cid, "metadata.json"], FileData.jsonF (sortDoc c.metadata))])
        ((dir ++ [cid]) ++ ["outputs_sequence"]) = none := by
      by_cases hm : c.metadata = []
      · rw [if_pos hm]; rfl
      · rw [if_neg hm]
        apply fsRead_single_ne
        rw [path_assoc]
        apply path_snoc_ne
        decide
    rw [h1]
    apply fsRead_single_ne
    rw [path_assoc]
    apply path_snoc_ne
    exact ne_fixed_of_head hu (show ("outputs_sequence" : String).toList
      = 'o' :: "utputs_sequence".toList from rfl) (by decide)
  rw [fsRead_append, fsRead_append]
  cases ho : c.outputs with
  | none =>
    simp only [fsRead_nil]
    rw [show (match fsRead (if c.metadata = [] then ([] : FS)
        else [(dir ++ [cid, "metadata.json"], FileData.jsonF (sortDoc c.metadata))])
        ((dir ++ [cid]) ++ ["outputs_sequence"]) with
      | some v => some v
      | none => fsRead [(dir ++ [cid, srcNameOf langExt c], FileData.textF c.source)]
          ((dir ++ [cid]) ++ ["outputs_sequence"])) = none from by
      have h2 := hsrcmeta
      rw [fsRead_append] at h2
      exact h2]
  | some outs =>
    cases outs with
    | nil =>
      simp only [fsRead_nil]
      have h2 := hsrcmeta
      rw [fsRead_append] at h2
      rw [show (match fsRead (if c.metadata = [] then ([] : FS)
          else [(dir ++ [cid, "metadata.json"], FileData.jsonF (sortDoc c.metadata))])
          ((dir ++ [cid]) ++ ["outputs_sequence"]) with
        | some v => some v
        | none => fsRead [(dir ++ [cid, srcNameOf langExt c], FileData.textF c.source)]
            ((dir ++ [cid]) ++ ["outputs_sequence"])) = none from h2]
    | cons o os =>
      rw [fsRead_append]
      rw [fsRead_single, if_pos (path_assoc dir cid "outputs_sequence")]

/-! ## Rebuilding one cell from its files -/

theorem globSource_append (a b : FS) (cd : Path) :
    globSource (a ++ b) cd = globSource a cd ++ globSource b cd :=
  List.filterMap_append a b (sourceEntry cd)

theorem fsRead_sandwich {fsPre fsPost : FS} {dir : Path} {cid : String}
    (CF : FS) (nm : String)
    (hpre : ∀ e ∈ fsPre, ∀ nm2, e.1 ≠ dir ++ [cid, nm2])
    (hpost : ∀ e ∈ fsPost, ∀ nm2, e.1 ≠ dir ++ [cid, nm2]) :
    fsRead (fsPre ++ (CF ++ fsPost)) ((dir ++ [cid]) ++ [nm])
      = fsRead CF ((dir ++ [cid]) ++ [nm]) := by
  rw [fsRead_append, fsRead_append, fsRead_of_disjoint nm hpost]
  simp only []
  cases fsRead CF ((dir ++ [cid]) ++ [nm]) with
  | some v => rfl
  | none =>
    simp only []
    exact fsRead_of_disjoint nm hpre

theorem isDigit_ne_newline {c : Char} (h : c.isDigit = true) : c ≠ Char.ofNat 10 := by
  intro he
  subst he
  exact absurd h (by decide)

/-- The descriptor line of a well-formed output (with a nonempty mimebundle
when rich) contains no newline, so the `outputs_sequence` lines split back. -/
theorem outputDesc_no_newline {o : Output} (hwf : wfOutput o) (hne : richNonempty o) :
    ∀ ch ∈ (outputDesc o).toList, ch ≠ Char.ofNat 10 := by
  obtain ⟨htype, hs, herr, hxr, hdd⟩ := hwf
  unfold outputDesc
  by_cases h1 : o.output_type = some "stream"
  · rw [if_pos h1]
    rcases (hs h1).1 with hn | hn <;> rw [hn] <;> decide
  · rw [if_neg h1]
    by_cases h2 : o.output_type = some "error"
    · rw [if_pos h2]
      decide
    · rw [if_neg h2]
      have hrich : wfRichFields o ∧ o.data ≠ [] := by
        rcases htype with ht | ht | ht | ht
        · exact absurd ht h1
        · exact absurd ht h2
        · exact ⟨(hxr ht).1, hne (Or.inl ht)⟩
        · exact ⟨(hdd ht).1, hne (Or.inr ht)⟩
      have hcanon := hrich.1.2.2.2.2.1
      have hall : ∀ p ∈ o.data, mime_to_ext p.1 ≠ none :=
        fun p hp => (hrich.1.2.2.2.2.2 p hp).1
      have hml := (ml_facts hcanon hrich.2 hall).2.2.1
      rw [sortStr_keys_of_canon hcanon]
      by_cases h3 : o.output_type = some "execute_result"
      · rw [if_pos h3]
        intro ch hch
        rw [toList_append, toList_append, toList_append] at hch
        rcases List.mem_append.1 hch with hch | hch
        · rcases List.mem_append.1 hch with hch | hch
          · rcases List.mem_append.1 hch with hch | hch
            · exact hml ch hch
            · rw [show (" (" : String).toList = [' ', '('] from rfl] at hch
              simp only [List.mem_cons, List.not_mem_nil, or_false] at hch
              rcases hch with rfl | rfl <;> decide
          · rw [show (natRepr (o.execution_count.getD 0)).toList
                = natDigits (o.execution_count.getD 0) from rfl] at hch
            exact isDigit_ne_newline (natDigits_all_digits _ ch hch)
        · rw [show (")" : String).toList = [')'] from rfl] at hch
          simp only [List.mem_singleton] at hch
          subst hch
          decide
      · rw [if_neg h3]
        exact hml

theorem wfExt_toList {e : String} (h : wfExt e) :
    ∃ t, e.toList = '.' :: t ∧ t ≠ [] ∧ (∀ c ∈ t, c ≠ '.' ∧ c ≠ '\n') ∧
      e ≠ ".md" ∧ e ≠ ".txt" := by
  obtain ⟨hhd, htl, hch, hmd, htxt⟩ := h
  cases he : e.toList with
  | nil =>
    rw [he] at hhd
    exact absurd hhd (by decide)
  | cons a t =>
    rw [he] at hhd
    have ha : a = '.' := by simpa using hhd
    subst ha
    refine ⟨t, rfl, ?_, ?_, hmd, htxt⟩
    · rw [he] at htl
      simpa using htl
    · intro x hx
      exact hch x (by rw [he]; exact hx)

theorem srcNameOf_starts {langExt : Option String} {c : Cell}
    (htype : c.cell_type = "markdown" ∨ c.cell_type = "raw" ∨ c.cell_type = "code")
    (hext : c.cell_type = "code" → ∃ e2, langExt = some e2 ∧ wfExt e2) :
    startsList (srcNameOf langExt c) "source." = true := by
  unfold srcNameOf
  rcases htype with h1 | h1 | h1
  · rw [if_pos h1]
    decide
  · rw [h1, if_neg (by decide), if_pos rfl]
    decide
  · obtain ⟨e2, hle, hwe⟩ := hext h1
    rw [h1, if_neg (by decide), if_neg (by decide), hle]
    show startsList ("source" ++ e2) "source." = true
    obtain ⟨t, het, -, -, -, -⟩ := wfExt_toList hwe
    rw [string_append_eq_mk, het]
    exact startsList_mk_source t

theorem pathSuffix_source_of_wfExt {e : String} (h : wfExt e) :
    pathSuffix ("source" ++ e) = e := by
  obtain ⟨t, het, htne, hch, -, -⟩ := wfExt_toList h
  rw [string_append_eq_mk, het]
  show pathSuffix (String.mk ('s' :: 'o' :: 'u' :: 'r' :: 'c' :: 'e' :: '.' :: t)) = e
  rw [pathSuffix_source_ext htne (fun x hx => (hch x hx).1)]
  rw [← het, mk_toList]

/-- The cell `recombine` reconstructs for a stored cell `c` under identifier
`cid`: the original cell with the reserved key re-injected into its (popped)
metadata. -/
def recCell (cid : String) (c : Cell) : Cell :=
  { c with
    metadata :=
      setKV (eraseKV c.metadata "nbexplode_cell_id") "nbexplode_cell_id"
        (JVal.str cid) }

/-- Decoding the outputs of one code cell against the full journal sandwich
around that cell's files. -/
theorem recombineOutputs_over_cellFiles {langExt : Option String} {dir : Path}
    {cid csrc : String} {m2 : JDoc} {o : Output} {os : List Output}
    {fsPre fsPost : FS}
    (houts : ∀ x ∈ o :: os, wfOutput x) (hne2 : ∀ x ∈ o :: os, richNonempty x)
    (hpre : ∀ e ∈ fsPre, ∀ nm, e.1 ≠ dir ++ [cid, nm])
    (hpost : ∀ e ∈ fsPost, ∀ nm, e.1 ≠ dir ++ [cid, nm]) :
    recombineOutputs (dir ++ [cid])
      (fsPre ++ (cellFiles langExt dir cid (Cell.mk "code" csrc m2 (some (o :: os))) ++ fsPost))
      ((o :: os).map outputDesc) 1 = .ok (o :: os) := by
  have hcf : cellFiles langExt dir cid (Cell.mk "code" csrc m2 (some (o :: os)))
      = [(dir ++ [cid, srcNameOf langExt (Cell.mk "code" csrc m2 (some (o :: os)))],
          FileData.textF csrc)] ++
        (if m2 = [] then ([] : FS)
         else [(dir ++ [cid, "metadata.json"], FileData.jsonF (sortDoc m2))]) ++
        (outputsEntries (dir ++ [cid]) (o :: os) 1 ++
         [(dir ++ [cid, "outputs_sequence"],
           FileData.textF (linesOut ((o :: os).map outputDesc)))]) := rfl
  have hre : fsPre ++ (cellFiles langExt dir cid
        (Cell.mk "code" csrc m2 (some (o :: os))) ++ fsPost)
      = (fsPre ++
          ([(dir ++ [cid, srcNameOf langExt (Cell.mk "code" csrc m2 (some (o :: os)))],
             FileData.textF csrc)] ++
           (if m2 = [] then ([] : FS)
            else [(dir ++ [cid, "metadata.json"], FileData.jsonF (sortDoc m2))]))) ++
        (outputsEntries (dir ++ [cid]) (o :: os) 1 ++
         ([(dir ++ [cid, "outputs_sequence"],
            FileData.textF (linesOut ((o :: os).map outputDesc)))] ++ fsPost)) := by
    rw [hcf]
    simp only [List.append_assoc]
  rw [hre]
  apply recombineOutputs_roundtrip houts hne2
  · intro nm j hj hge
    rw [fsRead_append, fsRead_append]
    have hmeta : fsRead (if m2 = [] then ([] : FS)
        else [(dir ++ [cid, "metadata.json"], FileData.jsonF (sortDoc m2))])
        ((dir ++ [cid]) ++ [nm]) = none := by
      by_cases hm : m2 = []
      · rw [if_pos hm]
        rfl
      · rw [if_neg hm]
        exact fsRead_single_ne (by
          rw [path_assoc]
          exact path_snoc_ne (outIdxName_ne_meta hj).symm)
    rw [hmeta]
    simp only []
    rw [fsRead_single_ne (by
      rw [path_assoc]
      exact path_snoc_ne (outIdxName_ne_srcName hj).symm)]
    simp only []
    exact fsRead_of_disjoint nm hpre
  · intro nm j hj
    rw [fsRead_append, fsRead_of_disjoint nm hpost]
    simp only []
    exact fsRead_single_ne (by
      rw [path_assoc]
      exact path_snoc_ne (outIdxName_ne_seq hj).symm)

/-- `recombine`'s loop body rebuilds a well-formed stored cell exactly,
re-injecting the directory name as the reserved identifier key. -/
theorem recombineCell_roundtrip {langExt : Option String} {dir : Path} {cid : String}
    {c : Cell} {fsPre fsPost : FS}
    (hwfc : wfCell c)
    (hne : ∀ o ∈ c.outputs.getD [], richNonempty o)
    (hext : c.cell_type = "code" → ∃ e2, langExt = some e2 ∧ wfExt e2)
    (hpre : ∀ e ∈ fsPre, ∀ nm, e.1 ≠ dir ++ [cid, nm])
    (hpost : ∀ e ∈ fsPost, ∀ nm, e.1 ≠ dir ++ [cid, nm]) :
    recombineCell dir cid (fsPre ++ (cellFiles langExt dir cid (popCell c) ++ fsPost))
      = .ok (recCell cid c) := by
  obtain ⟨hcanon, hid, htype, hmr, hcode, houts⟩ := hwfc
  obtain ⟨ct, csrc, cmeta, couts⟩ := c
  have hcanon2 : canonDoc cmeta := hcanon
  have htype2 : ct = "markdown" ∨ ct = "raw" ∨ ct = "code" := htype
  have hmr2 : (ct = "markdown" ∨ ct = "raw") → couts = none := hmr
  have hcode2 : ct = "code" → couts ≠ none := hcode
  have houts2 : ∀ o ∈ couts.getD [], wfOutput o := houts
  have hne2 : ∀ o ∈ couts.getD [], richNonempty o := hne
  have hext2 : ct = "code" → ∃ e2, langExt = some e2 ∧ wfExt e2 := hext
  clear hcanon htype hmr hcode houts hne hext hid
  have hpop : popCell (Cell.mk ct csrc cmeta couts)
      = Cell.mk ct csrc (eraseKV cmeta "nbexplode_cell_id") couts := rfl
  have hrec : recCell cid (Cell.mk ct csrc cmeta couts)
      = Cell.mk ct csrc
          (setKV (eraseKV cmeta "nbexplode_cell_id") "nbexplode_cell_id"
            (JVal.str cid)) couts := rfl
  rw [hpop, hrec]
  have houts3 : ∀ o ∈ (Cell.mk ct csrc (eraseKV cmeta "nbexplode_cell_id")
      couts).outputs.getD [], wfOutput o := houts2
  have hsrc : startsList
      (srcNameOf langExt (Cell.mk ct csrc (eraseKV cmeta "nbexplode_cell_id") couts))
      "source." = true :=
    srcNameOf_starts htype2 hext2
  have hglob : globSource
      (fsPre ++ (cellFiles langExt dir cid
        (Cell.mk ct csrc (eraseKV cmeta "nbexplode_cell_id") couts) ++ fsPost))
      (dir ++ [cid])
      = [srcNameOf langExt (Cell.mk ct csrc (eraseKV cmeta "nbexplode_cell_id") couts)] := by
    rw [globSource_append, globSource_append,
      globSource_of_disjoint hpre, globSource_of_disjoint hpost,
      globSource_cellFiles hsrc houts3, List.nil_append, List.append_nil]
  have hread_src : fsRead
      (fsPre ++ (cellFiles langExt dir cid
        (Cell.mk ct csrc (eraseKV cmeta "nbexplode_cell_id") couts) ++ fsPost))
      ((dir ++ [cid]) ++
        [srcNameOf langExt (Cell.mk ct csrc (eraseKV cmeta "nbexplode_cell_id") couts)])
      = some (FileData.textF csrc) := by
    rw [fsRead_sandwich _ _ hpre hpost]
    exact fsRead_cellFiles_src houts3
  have hread_meta : fsRead
      (fsPre ++ (cellFiles langExt dir cid
        (Cell.mk ct csrc (eraseKV cmeta "nbexplode_cell_id") couts) ++ fsPost))
      ((dir ++ [cid]) ++ ["metadata.json"])
      = (if eraseKV cmeta "nbexplode_cell_id" = [] then none
         else some (FileData.jsonF (sortDoc (eraseKV cmeta "nbexplode_cell_id")))) := by
    rw [fsRead_sandwich _ _ hpre hpost]
    exact fsRead_cellFiles_meta houts3
  have hsort : sortDoc (eraseKV cmeta "nbexplode_cell_id")
      = eraseKV cmeta "nbexplode_cell_id" :=
    sortDoc_of_canon (canonDoc_eraseKV hcanon2)
  unfold recombineCell
  simp only []
  rw [hglob]
  simp only []
  rw [hread_src]
  simp only []
  rcases htype2 with h1 | h1 | h1
  · -- markdown cell
    subst h1
    have hcouts : couts = none := hmr2 (Or.inl rfl)
    subst hcouts
    have hseq : fsRead
        (fsPre ++ (cellFiles langExt dir cid
          (Cell.mk "markdown" csrc (eraseKV cmeta "nbexplode_cell_id") none) ++ fsPost))
        ((dir ++ [cid]) ++ ["outputs_sequence"]) = none := by
      rw [fsRead_sandwich _ _ hpre hpost]
      exact fsRead_cellFiles_seq houts3
    have hsn : srcNameOf langExt
        (Cell.mk "markdown" csrc (eraseKV cmeta "nbexplode_cell_id") none)
        = "source.md" := rfl
    rw [hsn]
    rw [if_pos (show pathSuffix "source.md" = ".md" by decide)]
    rw [ebind_ok]
    rw [hread_meta]
    by_cases hm : eraseKV cmeta "nbexplode_cell_id" = []
    · rw [if_pos hm]
      simp only []
      rw [hseq]
      simp only []
      rw [hm]
      rfl
    · rw [if_neg hm]
      simp only []
      rw [hseq]
      simp only []
      rw [hsort]
      rfl
  · -- raw cell
    subst h1
    have hcouts : couts = none := hmr2 (Or.inr rfl)
    subst hcouts
    have hseq : fsRead
        (fsPre ++ (cellFiles langExt dir cid
          (Cell.mk "raw" csrc (eraseKV cmeta "nbexplode_cell_id") none) ++ fsPost))
        ((dir ++ [cid]) ++ ["outputs_sequence"]) = none := by
      rw [fsRead_sandwich _ _ hpre hpost]
      exact fsRead_cellFiles_seq houts3
    have hsn : srcNameOf langExt
        (Cell.mk "raw" csrc (eraseKV cmeta "nbexplode_cell_id") none)
        = "source.txt" := rfl
    rw [hsn]
    rw [if_neg (show ¬ pathSuffix "source.txt" = ".md" by decide)]
    rw [if_pos (show pathSuffix "source.txt" = ".txt" by decide)]
    rw [ebind_ok]
    rw [hread_meta]
    by_cases hm : eraseKV cmeta "nbexplode_cell_id" = []
    · rw [if_pos hm]
      simp only []
      rw [hseq]
      simp only []
      rw [hm]
      rfl
    · rw [if_neg hm]
      simp only []
      rw [hseq]
      simp only []
      rw [hsort]
      rfl
  · -- code cell
    subst h1
    obtain ⟨e2, hle, hwe⟩ := hext2 rfl
    subst hle
    have hsn : srcNameOf (some e2)
        (Cell.mk "code" csrc (eraseKV cmeta "nbexplode_cell_id") couts)
        = "source" ++ e2 := rfl
    rw [hsn]
    have hps : pathSuffix ("source" ++ e2) = e2 := pathSuffix_source_of_wfExt hwe
    obtain ⟨-, -, -, -, hmd2, htxt2⟩ := wfExt_toList hwe
    rw [hps, if_neg hmd2, if_neg htxt2]
    rw [ebind_ok]
    rw [hread_meta]
    cases couts with
    | none => exact absurd rfl (hcode2 rfl)
    | some l =>
      cases l with
      | nil =>
        have hseq : fsRead
            (fsPre ++ (cellFiles (some e2) dir cid
              (Cell.mk "code" csrc (eraseKV cmeta "nbexplode_cell_id") (some [])) ++ fsPost))
            ((dir ++ [cid]) ++ ["outputs_sequence"]) = none := by
          rw [fsRead_sandwich _ _ hpre hpost]
          exact fsRead_cellFiles_seq houts3
        by_cases hm : eraseKV cmeta "nbexplode_cell_id" = []
        · rw [if_pos hm]
          simp only []
          rw [hseq]
          simp only []
          rw [hm]
          rfl
        · rw [if_neg hm]
          simp only []
          rw [hseq]
          simp only []
          rw [hsort]
          rfl
      | cons o os =>
        have hseq : fsRead
            (fsPre ++ (cellFiles (some e2) dir cid
              (Cell.mk "code" csrc (eraseKV cmeta "nbexplode_cell_id")
                (some (o :: os))) ++ fsPost))
            ((dir ++ [cid]) ++ ["outputs_sequence"])
            = some (FileData.textF (linesOut ((o :: os).map outputDesc))) := by
          rw [fsRead_sandwich _ _ hpre hpost]
          exact fsRead_cellFiles_seq houts3
        have hlines : pySplitlines (linesOut ((o :: os).map outputDesc))
            = (o :: os).map outputDesc := by
          apply pySplitlines_linesOut
          intro s2 hs2
          rcases List.mem_map.1 hs2 with ⟨o2, ho2, rfl⟩
          exact outputDesc_no_newline (houts2 o2 ho2) (hne2 o2 ho2)
        by_cases hm : eraseKV cmeta "nbexplode_cell_id" = []
        · rw [if_pos hm]
          simp only []
          rw [hseq]
          simp only []
          rw [hlines]
          rw [recombineOutputs_over_cellFiles houts2 hne2 hpre hpost]
          rw [hm]
          rfl
        · rw [if_neg hm]
          simp only []
          rw [hseq]
          simp only []
          rw [hlines]
          rw [recombineOutputs_over_cellFiles houts2 hne2 hpre hpost]
          rw [hsort]
          rfl

/-! ## Rebuilding all cells -/

theorem path_pair_ne {dir : Path} {a b x y : String} (h : a ≠ x) :
    dir ++ [a, b] ≠ dir ++ [x, y] := by
  intro he
  have h2 := List.append_cancel_left he
  exact h (List.cons.inj h2).1

theorem path_two_ne_one {dir : Path} {a b x : String} : dir ++ [a, b] ≠ dir ++ [x] := by
  intro he
  have h2 := List.append_cancel_left he
  exact absurd (List.cons.inj h2).2 (by simp)

/-- Every file of one cell lives directly in that cell's directory. -/
theorem cellFiles_paths {langExt : Option String} {dir : Path} {cid : String}
    {c : Cell} (houts : ∀ o ∈ c.outputs.getD [], wfOutput o) :
    ∀ e ∈ cellFiles langExt dir cid c, ∃ nm, e.1 = dir ++ [cid, nm] := by
  intro e he
  unfold cellFiles at he
  rcases List.mem_append.1 he with he | he
  · rcases List.mem_append.1 he with he | he
    · simp only [List.mem_singleton] at he
      subst he
      exact ⟨srcNameOf langExt c, rfl⟩
    · by_cases hm : c.metadata = []
      · rw [if_pos hm] at he
        exact absurd he (List.not_mem_nil e)
      · rw [if_neg hm] at he
        simp only [List.mem_singleton] at he
        subst he
        exact ⟨"metadata.json", rfl⟩
  · cases ho : c.outputs with
    | none =>
      rw [ho] at he
      exact absurd he (List.not_mem_nil e)
    | some l =>
      cases l with
      | nil =>
        rw [ho] at he
        exact absurd he (List.not_mem_nil e)
      | cons o os =>
        rw [ho] at he
        rcases List.mem_append.1 he with he | he
        · obtain ⟨nm, j, hj, hp, hidx⟩ := outputsEntries_names
            (by rw [ho] at houts; simpa using houts) e he
          exact ⟨nm, by rw [hp, path_assoc]⟩
        · simp only [List.mem_singleton] at he
          subst he
          exact ⟨"outputs_sequence", rfl⟩

/-- Every file of the cell tree lives in the directory of one of the ids. -/
theorem cellsFiles_paths {langExt : Option String} {dir : Path}
    {cells : List Cell} {ids : List String}
    (houts : ∀ c ∈ cells, ∀ o ∈ c.outputs.getD [], wfOutput o) :
    ∀ e ∈ cellsFiles langExt dir cells ids,
      ∃ cid nm, cid ∈ ids ∧ e.1 = dir ++ [cid, nm] := by
  induction cells generalizing ids with
  | nil =>
    intro e he
    exact absurd he (List.not_mem_nil e)
  | cons c rest ih =>
    intro e he
    cases ids with
    | nil => exact absurd he (List.not_mem_nil e)
    | cons cid ids2 =>
      rw [show cellsFiles langExt dir (c :: rest) (cid :: ids2)
          = cellFiles langExt dir cid (popCell c) ++ cellsFiles langExt dir rest ids2
        from rfl] at he
      rcases List.mem_append.1 he with he | he
      · obtain ⟨nm, hp⟩ := cellFiles_paths (c := popCell c)
          (houts c (List.mem_cons_self _ _)) e he
        exact ⟨cid, nm, List.mem_cons_self _ _, hp⟩
      · obtain ⟨cid2, nm, hc, hp⟩ :=
          ih (fun x hx => houts x (List.mem_cons_of_mem _ hx)) e he
        exact ⟨cid2, nm, List.mem_cons_of_mem _ hc, hp⟩

/-- `recombine`'s loop over `cells_sequence` rebuilds the whole (well-formed)
cell list written by `explode`'s loop. -/
theorem recombineCells_roundtrip {langExt : Option String} {dir : Path}
    {cells : List Cell} {ids : List String} {fsPre fsPost : FS}
    (hwf : ∀ c ∈ cells, wfCell c)
    (hne : ∀ c ∈ cells, ∀ o ∈ c.outputs.getD [], richNonempty o)
    (hext : ∀ c ∈ cells, c.cell_type = "code" → ∃ e2, langExt = some e2 ∧ wfExt e2)
    (hlen : ids.length = cells.length)
    (hnd : ids.Nodup)
    (hpre : ∀ e ∈ fsPre, ∀ cid ∈ ids, ∀ nm, e.1 ≠ dir ++ [cid, nm])
    (hpost : ∀ e ∈ fsPost, ∀ cid ∈ ids, ∀ nm, e.1 ≠ dir ++ [cid, nm]) :
    recombineCells dir (fsPre ++ (cellsFiles langExt dir cells ids ++ fsPost)) ids
      = .ok (List.zipWith recCell ids cells) := by
  induction cells generalizing ids fsPre with
  | nil =>
    cases ids with
    | nil => rfl
    | cons cid ids2 => exact absurd hlen (by simp)
  | cons c rest ih =>
    cases ids with
    | nil => exact absurd hlen (by simp)
    | cons cid ids2 =>
      have hndc := List.nodup_cons.1 hnd
      have houts_all : ∀ x ∈ c :: rest, ∀ o ∈ x.outputs.getD [], wfOutput o :=
        fun x hx => (hwf x hx).2.2.2.2.2
      rw [show cellsFiles langExt dir (c :: rest) (cid :: ids2)
          = cellFiles langExt dir cid (popCell c) ++ cellsFiles langExt dir rest ids2
        from rfl]
      rw [recombineCells]
      have hstep : recombineCell dir cid
          (fsPre ++ ((cellFiles langExt dir cid (popCell c)
            ++ cellsFiles langExt dir rest ids2) ++ fsPost))
          = .ok (recCell cid c) := by
        rw [show fsPre ++ ((cellFiles langExt dir cid (popCell c)
              ++ cellsFiles langExt dir rest ids2) ++ fsPost)
            = fsPre ++ (cellFiles langExt dir cid (popCell c)
              ++ (cellsFiles langExt dir rest ids2 ++ fsPost)) from by
          simp [List.append_assoc]]
        apply recombineCell_roundtrip (hwf c (List.mem_cons_self _ _))
          (hne c (List.mem_cons_self _ _)) (hext c (List.mem_cons_self _ _))
        · intro e he nm
          exact hpre e he cid (List.mem_cons_self _ _) nm
        · intro e he nm
          rcases List.mem_append.1 he with he | he
          · obtain ⟨cid2, nm2, hc2, hp2⟩ := cellsFiles_paths
              (fun x hx => houts_all x (List.mem_cons_of_mem _ hx)) e he
            rw [hp2]
            exact path_pair_ne (fun hh => hndc.1 (hh ▸ hc2))
          · exact hpost e he cid (List.mem_cons_self _ _) nm
      rw [hstep, ebind_ok]
      have hpre2 : ∀ e ∈ fsPre ++ cellFiles langExt dir cid (popCell c),
          ∀ cid2 ∈ ids2, ∀ nm, e.1 ≠ dir ++ [cid2, nm] := by
        intro e he cid2 hc2 nm
        rcases List.mem_append.1 he with he | he
        · exact hpre e he cid2 (List.mem_cons_of_mem _ hc2) nm
        · obtain ⟨nm2, hp2⟩ := cellFiles_paths (c := popCell c)
            (houts_all c (List.mem_cons_self _ _)) e he
          rw [hp2]
          exact path_pair_ne (fun hh => hndc.1 (hh ▸ hc2))
      have hpost2 : ∀ e ∈ fsPost, ∀ cid2 ∈ ids2, ∀ nm, e.1 ≠ dir ++ [cid2, nm] :=
        fun e he cid2 hc2 nm => hpost e he cid2 (List.mem_cons_of_mem _ hc2) nm
      have ihr := ih (fun x hx => hwf x (List.mem_cons_of_mem _ hx))
        (fun x hx => hne x (List.mem_cons_of_mem _ hx))
        (fun x hx => hext x (List.mem_cons_of_mem _ hx))
        (by simpa using hlen) hndc.2 hpre2 hpost2
      rw [show fsPre ++ ((cellFiles langExt dir cid (popCell c)
            ++ cellsFiles langExt dir rest ids2) ++ fsPost)
          = (fsPre ++ cellFiles langExt dir cid (popCell c))
            ++ (cellsFiles langExt dir rest ids2 ++ fsPost) from by
        simp [List.append_assoc]]
      rw [ihr]
      rfl

/-! ## Rebuilding the whole notebook -/

/-- The notebook `recombine` rebuilds from an exploded tree of `nb`: the same
cells in order, each with its assigned identifier injected under the reserved
key. -/
def recNotebook (nb : Notebook) (gen : Nat → String) : Notebook :=
  Notebook.mk nb.metadata
    (List.zipWith recCell (assignIds gen nb.cells 0) nb.cells)

theorem assignIds_length (gen : Nat → String) :
    ∀ (cells : List Cell) (k : Nat), (assignIds gen cells k).length = cells.length := by
  intro cells
  induction cells with
  | nil => intro k; rfl
  | cons c rest ih =>
    intro k
    rw [assignIds]
    cases lookupKV c.metadata "nbexplode_cell_id" with
    | none => simp [ih]
    | some v =>
      cases v with
      | str s2 => simp [ih]
      | doc d2 => simp [ih]

/-- `recombine` on the tree `explode` wrote returns the notebook with every
reserved identifier key (re)injected. -/
theorem recombine_explodedFS {nb : Notebook} {dir : Path} {gen : Nat → String}
    (hwf : wfNotebook nb) (hids : wfIds nb gen)
    (hne : ∀ c ∈ nb.cells, ∀ o ∈ c.outputs.getD [], richNonempty o) :
    recombine dir (explodedFS nb dir gen) = .ok (recNotebook nb gen) := by
  obtain ⟨hmcanon, hcells, hextnb⟩ := hwf
  obtain ⟨hnd, hidwf⟩ := hids
  have houts_all : ∀ c ∈ nb.cells, ∀ o ∈ c.outputs.getD [], wfOutput o :=
    fun c hc => (hcells c hc).2.2.2.2.2
  have hextc : ∀ c ∈ nb.cells, c.cell_type = "code" →
      ∃ e2, langExtOf nb.metadata = some e2 ∧ wfExt e2 := by
    intro c hc hcode
    have hok := hextnb ⟨c, hc, hcode⟩
    cases hl : langExtOf nb.metadata with
    | none =>
      rw [hl] at hok
      exact absurd hok id
    | some e =>
      rw [hl] at hok
      exact ⟨e, rfl, hok⟩
  have hmetaRead : fsRead (explodedFS nb dir gen) (dir ++ ["metadata.json"])
      = some (FileData.jsonF (sortDoc nb.metadata)) := by
    unfold explodedFS
    rw [fsRead_append, fsRead_single_ne (path_snoc_ne (by decide))]
    simp only []
    rw [fsRead_append]
    rw [fsRead_eq_none (fun e he => by
      obtain ⟨cid, nm, hc, hp⟩ := cellsFiles_paths houts_all e he
      rw [hp]
      exact path_two_ne_one)]
    simp only []
    rw [fsRead_single, if_pos rfl]
  have hseqRead : fsRead (explodedFS nb dir gen) (dir ++ ["cells_sequence"])
      = some (FileData.textF (linesOut (assignIds gen nb.cells 0))) := by
    unfold explodedFS
    rw [fsRead_append, fsRead_single, if_pos rfl]
  have hlines : pySplitlines (linesOut (assignIds gen nb.cells 0))
      = assignIds gen nb.cells 0 :=
    pySplitlines_linesOut (fun s2 hs2 ch hch => (hidwf s2 hs2).2 ch hch)
  have hcellsR : recombineCells dir (explodedFS nb dir gen) (assignIds gen nb.cells 0)
      = .ok (List.zipWith recCell (assignIds gen nb.cells 0) nb.cells) := by
    rw [show explodedFS nb dir gen
        = [(dir ++ ["metadata.json"], FileData.jsonF (sortDoc nb.metadata))]
          ++ (cellsFiles (langExtOf nb.metadata) dir nb.cells (assignIds gen nb.cells 0)
            ++ [(dir ++ ["cells_sequence"],
                 FileData.textF (linesOut (assignIds gen nb.cells 0)))]) from by
      unfold explodedFS
      simp [List.append_assoc]]
    apply recombineCells_roundtrip hcells hne hextc (assignIds_length gen nb.cells 0) hnd
    · intro e he cid hc nm
      simp only [List.mem_singleton] at he
      subst he
      exact fun hh => path_two_ne_one hh.symm
    · intro e he cid hc nm
      simp only [List.mem_singleton] at he
      subst he
      exact fun hh => path_two_ne_one hh.symm
  unfold recombine
  rw [hmetaRead]
  simp only []
  rw [ebind_ok]
  rw [hseqRead]
  simp only []
  rw [hlines]
  rw [ebind_ok]
  rw [hcellsR]
  rw [emap_ok]
  rw [sortDoc_of_canon hmcanon]
  rfl

/-! ## Which branches can produce which exceptions -/

theorem ebind_eq_error {α β : Type} {x : Except String α}
    {f : α → Except String β} {s : String} (h : ebind x f = .error s) :
    x = .error s ∨ ∃ a, x = .ok a ∧ f a = .error s := by
  cases x with
  | ok a => exact Or.inr ⟨a, rfl, h⟩
  | error e => exact Or.inl (by rw [Except.error.inj h])

theorem ebind_eq_ok {α β : Type} {x : Except String α}
    {f : α → Except String β} {b : β} (h : ebind x f = .ok b) :
    ∃ a, x = .ok a ∧ f a = .ok b := by
  cases x with
  | ok a => exact ⟨a, rfl, h⟩
  | error e => exact Except.noConfusion h

theorem emap_eq_ok {α β : Type} {f : α → β} {x : Except String α} {b : β}
    (h : emap f x = .ok b) : ∃ a, x = .ok a ∧ b = f a := by
  cases x with
  | ok a => exact ⟨a, rfl, (Except.ok.inj h).symm⟩
  | error e => exact Except.noConfusion h

theorem emap_ne_error {α β : Type} {f : α → β} {x : Except String α} {s : String}
    (h : x ≠ .error s) : emap f x ≠ .error s := by
  cases x with
  | ok a => exact fun he => Except.noConfusion he
  | error e => exact fun he => h (congrArg Except.error (Except.error.inj he))

theorem setKV_ne_nil {α : Type} (d : List (String × α)) (k : String) (v : α) :
    setKV d k v ≠ [] := by
  cases d with
  | nil => exact fun he => List.noConfusion he
  | cons q rest =>
    obtain ⟨k1, v1⟩ := q
    rw [setKV]
    by_cases hk : k1 = k
    · rw [if_pos hk]
      exact fun he => List.noConfusion he
    · rw [if_neg hk]
      exact fun he => List.noConfusion he

theorem readMimebundle_ne_idx :
    ∀ (ms : List String) (cellDir : Path) (i : Nat) (fs : FS),
    readMimebundle ms cellDir i fs ≠ .error "IndexError: list index out of range" := by
  intro ms
  induction ms with
  | nil =>
    intro cellDir i fs he
    exact Except.noConfusion he
  | cons mt rest ih =>
    intro cellDir i fs
    rw [readMimebundle]
    cases hmt : mime_to_ext mt with
    | none =>
      simp only []
      intro he
      exact ne_fixed_of_head
        (show ("KeyError: " ++ mt).toList = 'K' :: ("eyError: ".toList ++ mt.toList)
          from by rw [toList_append]; rfl)
        (show ("IndexError: list index out of range" : String).toList
          = 'I' :: "ndexError: list index out of range".toList from rfl)
        (by decide) (Except.error.inj he)
    | some ext =>
      simp only []
      cases hr : fsRead fs (cellDir ++ ["output" ++ natRepr i ++ ext]) with
      | none =>
        intro he
        exact absurd (Except.error.inj he) (by decide)
      | some v =>
        cases v with
        | bytesF bs =>
          simp only []
          by_cases hb : is_binary mt = true
          · rw [if_pos hb]
            exact emap_ne_error (ih cellDir i fs)
          · rw [if_neg hb]
            intro he
            exact absurd (Except.error.inj he) (by decide)
        | textF t =>
          simp only []
          by_cases hb : is_binary mt = true
          · rw [if_pos hb]
            intro he
            exact absurd (Except.error.inj he) (by decide)
          · rw [if_neg hb]
            exact emap_ne_error (ih cellDir i fs)
        | jsonF d =>
          intro he
          exact absurd (Except.error.inj he) (by decide)

theorem recombine_output_ne_idx (cellDir : Path) (i : Nat) (info : String) (fs : FS) :
    recombine_output cellDir i info fs
      ≠ .error "IndexError: list index out of range" := by
  unfold recombine_output
  by_cases h1 : info = "stdout" ∨ info = "stderr"
  · rw [if_pos h1]
    cases hr : fsRead fs (cellDir ++ ["output" ++ natRepr i ++ ".txt"]) with
    | none =>
      intro he
      exact absurd (Except.error.inj he) (by decide)
    | some v =>
      cases v with
      | textF t => exact fun he => Except.noConfusion he
      | bytesF bs => exact fun he => absurd (Except.error.inj he) (by decide)
      | jsonF d => exact fun he => absurd (Except.error.inj he) (by decide)
  · rw [if_neg h1]
    by_cases h2 : info = "error"
    · rw [if_pos h2]
      cases hr : fsRead fs (cellDir ++ ["error" ++ natRepr i ++ ".json"]) with
      | none =>
        intro he
        exact absurd (Except.error.inj he) (by decide)
      | some v =>
        cases v with
        | jsonF d => exact fun he => Except.noConfusion he
        | bytesF bs => exact fun he => absurd (Except.error.inj he) (by decide)
        | textF t => exact fun he => absurd (Except.error.inj he) (by decide)
    · rw [if_neg h2]
      simp only []
      intro he
      rcases ebind_eq_error he with h3 | ⟨a, ha, h3⟩
      · exact readMimebundle_ne_idx _ _ _ _ h3
      · revert h3
        cases hr : fsRead fs (cellDir ++ ["output" ++ natRepr i ++ "-metadata.json"]) with
        | none => exact fun h3 => Except.noConfusion h3
        | some v =>
          cases v with
          | jsonF m => exact fun h3 => Except.noConfusion h3
          | textF t => exact fun h3 => absurd (Except.error.inj h3) (by decide)
          | bytesF bs => exact fun h3 => absurd (Except.error.inj h3) (by decide)

theorem recombineOutputs_ne_idx (cellDir : Path) (fs : FS) :
    ∀ (infos : List String) (i : Nat),
    recombineOutputs cellDir fs infos i
      ≠ .error "IndexError: list index out of range" := by
  intro infos
  induction infos with
  | nil =>
    intro i he
    exact Except.noConfusion he
  | cons info rest ih =>
    intro i he
    rw [recombineOutputs] at he
    rcases ebind_eq_error he with h3 | ⟨a, ha, h3⟩
    · exact recombine_output_ne_idx _ _ _ _ h3
    · exact emap_ne_error (ih (i + 1)) h3

/-- The mimebundle-writing loop fails as soon as any entry's mime-type is
outside the table. -/
theorem writeDataFiles_err {cellDir : Path} {i : Nat} :
    ∀ {l : List (String × String)}, (∃ p ∈ l, mime_to_ext p.1 = none) →
    isError (explode_output.writeDataFiles l cellDir i) := by
  intro l
  induction l with
  | nil =>
    rintro ⟨p, hp, -⟩
    exact absurd hp (List.not_mem_nil p)
  | cons q rest ih =>
    rintro ⟨p, hp, hmt⟩
    obtain ⟨mt, payload⟩ := q
    rw [explode_output.writeDataFiles]
    rcases List.mem_cons.1 hp with rfl | hp2
    · rw [show mime_to_ext mt = none from hmt]
      exact trivial
    · cases hmt2 : mime_to_ext mt with
      | none => exact trivial
      | some ext =>
        simp only []
        exact isError_emap _ _ (ih ⟨p, hp2, hmt⟩)

/-- The mimebundle-reading loop fails as soon as any listed mime-type is
outside the table. -/
theorem readMimebundle_err {mt : String} (hmt : mime_to_ext mt = none) :
    ∀ (ms : List String) (cellDir : Path) (i : Nat) (fs : FS), mt ∈ ms →
    isError (readMimebundle ms cellDir i fs) := by
  intro ms
  induction ms with
  | nil =>
    intro cellDir i fs hm
    exact absurd hm (List.not_mem_nil mt)
  | cons m0 rest ih =>
    intro cellDir i fs hm
    rw [readMimebundle]
    rcases List.mem_cons.1 hm with rfl | hm2
    · rw [hmt]
      exact trivial
    · cases hm0 : mime_to_ext m0 with
      | none => exact trivial
      | some ext =>
        simp only []
        cases hr : fsRead fs (cellDir ++ ["output" ++ natRepr i ++ ext]) with
        | none => exact trivial
        | some v =>
          cases v with
          | bytesF bs =>
            simp only []
            by_cases hb : is_binary m0 = true
            · rw [if_pos hb]
              exact isError_emap _ _ (ih cellDir i fs hm2)
            · rw [if_neg hb]
              exact trivial
          | textF t =>
            simp only []
            by_cases hb : is_binary m0 = true
            · rw [if_pos hb]
              exact trivial
            · rw [if_neg hb]
              exact isError_emap _ _ (ih cellDir i fs hm2)
          | jsonF d => exact trivial

/-- A descriptor outside `stdout`/`stderr`/`error` never decodes to a stream:
the constructor used is `execute_result` or `display_data`. -/
theorem recombine_output_not_stream {cellDir : Path} {i : Nat} {info : String}
    {fs : FS} {o : Output}
    (h1 : ¬ (info = "stdout" ∨ info = "stderr")) (h2 : info ≠ "error")
    (h : recombine_output cellDir i info fs = .ok o) :
    o.output_type = some "execute_result" ∨ o.output_type = some "display_data" := by
  unfold recombine_output at h
  rw [if_neg h1, if_neg h2] at h
  simp only [] at h
  rcases ebind_eq_ok h with ⟨bundle, hb, h3⟩
  revert h3
  cases hes : execSuffix info with
  | some p =>
    obtain ⟨n, mlen⟩ := p
    simp only []
    cases hr : fsRead fs (cellDir ++ ["output" ++ natRepr i ++ "-metadata.json"]) with
    | none =>
      intro h3
      rw [← Except.ok.inj h3]
      exact Or.inl rfl
    | some v =>
      cases v with
      | jsonF m =>
        intro h3
        rw [← Except.ok.inj h3]
        exact Or.inl rfl
      | textF t => exact fun h3 => Except.noConfusion h3
      | bytesF bs => exact fun h3 => Except.noConfusion h3
  | none =>
    simp only []
    cases hr : fsRead fs (cellDir ++ ["output" ++ natRepr i ++ "-metadata.json"]) with
    | none =>
      intro h3
      rw [← Except.ok.inj h3]
      exact Or.inr rfl
    | some v =>
      cases v with
      | jsonF m =>
        intro h3
        rw [← Except.ok.inj h3]
        exact Or.inr rfl
      | textF t => exact fun h3 => Except.noConfusion h3
      | bytesF bs => exact fun h3 => Except.noConfusion h3

theorem explodedFS_cellsSequence {nb : Notebook} {dir : Path} {gen : Nat → String} :
    fsRead (explodedFS nb dir gen) (dir ++ ["cells_sequence"])
      = some (FileData.textF (linesOut (assignIds gen nb.cells 0))) := by
  unfold explodedFS
  rw [fsRead_append, fsRead_single, if_pos rfl]

/-- Re-exploding the cells `recombine` produced reuses every identifier: each
carries its identifier under the reserved key. -/
theorem assignIds_recCells (gen2 : Nat → String) :
    ∀ (ids : List String) (cells : List Cell) (k : Nat),
    ids.length = cells.length →
    assignIds gen2 (List.zipWith recCell ids cells) k = ids := by
  intro ids
  induction ids with
  | nil =>
    intro cells k h
    rfl
  | cons cid rest ih =>
    intro cells k h
    cases cells with
    | nil => exact absurd h (by simp)
    | cons c cs =>
      rw [List.zipWith_cons_cons, assignIds]
      rw [show lookupKV (recCell cid c).metadata "nbexplode_cell_id"
          = some (JVal.str cid) from lookupKV_setKV_self _ _ _]
      simp only []
      rw [ih cs k (by simpa using h)]

theorem ebind_congr_emapFst {α β γ : Type} (E : Except String α)
    (f g : α → Except String (β × γ))
    (h : ∀ a, emap Prod.fst (f a) = emap Prod.fst (g a)) :
    emap Prod.fst (ebind E f) = emap Prod.fst (ebind E g) := by
  cases E with
  | ok a => exact h a
  | error e => rfl

/-! ## The claims -/

/-- A deterministic stand-in for `uuid4`: fresh identifiers for the claims'
concrete instances. -/
def idGen (k : Nat) : String := "cell" ++ natRepr k

/-- A second generator, distinct from `idGen`, for re-explosion instances. -/
def idGen2 (k : Nat) : String := "fresh" ++ natRepr k

/-- C1 instance: a two-cell notebook (markdown + code with a stream and an
execute_result output). -/
def c1nb : Notebook :=
  ⟨[("language_info", JVal.doc [("file_extension", ".py")])],
   [Cell.mk "markdown" "# t" [] none,
    Cell.mk "code" "print(1)" [("collapsed", JVal.str "false")]
      (some [new_stream "stdout" "1",
             Output.mk (some "execute_result") none none [] [("text/plain", "1")] []
               (some 1)])]⟩

/-- C1 counterexample input: a §3-shaped notebook whose only output is a
`display_data` with an empty mimebundle. -/
def c1badNb : Notebook :=
  ⟨[("language_info", JVal.doc [("file_extension", ".py")])],
   [Cell.mk "code" "x" [] (some [Output.mk (some "display_data") none none [] [] [] none])]⟩

/-- C1: for every well-formed notebook (§3 shapes: canonical documents, the
three cell types with their output shapes, resolvable code extension, unique
newline-free identifiers) whose mimebundle outputs are in addition nonempty,
`recombine(explode(N))` returns exactly `N` with the reserved cell-identifier
key injected into each cell's metadata (`recNotebook`); documents are compared
in the canonical key-sorted representation, absorbing "up to key ordering". -/
theorem C1_roundtrip_upto_injection {nb : Notebook} {dir : Path} {gen : Nat → String}
    (hwf : wfNotebook nb) (hids : wfIds nb gen)
    (hne : ∀ c ∈ nb.cells, ∀ o ∈ c.outputs.getD [], richNonempty o) :
    ebind (explode nb dir gen []) (fun r => recombine dir r.1)
      = .ok (recNotebook nb gen) := by
  rw [explode_spec (wfCellSucc_of_wfNotebook hwf) dir []]
  rw [ebind_ok]
  show recombine dir ([] ++ explodedFS nb dir gen) = .ok (recNotebook nb gen)
  rw [List.nil_append]
  exact recombine_explodedFS hwf hids hne

/-- C1 witness: the round trip on the concrete notebook `c1nb`. -/
theorem C1_roundtrip_witness :
    wfNotebook c1nb ∧ wfIds c1nb idGen ∧
    (∀ c ∈ c1nb.cells, ∀ o ∈ c.outputs.getD [], richNonempty o) ∧
    ebind (explode c1nb ["n"] idGen []) (fun r => recombine ["n"] r.1)
      = .ok (recNotebook c1nb idGen) :=
  ⟨by decide, by decide, by decide,
   C1_roundtrip_upto_injection (by decide) (by decide) (by decide)⟩

/-- C1 counterexample: `c1badNb` is inside the §3 shapes (well-formed, with
well-formed unique identifiers), yet the round trip raises `KeyError` instead
of returning the notebook: an empty mimebundle's descriptor is the empty
string, which `recombine_output` splits into the single mime-type `""`,
missing from the table. -/
theorem C1_empty_mimebundle_counterexample :
    wfNotebook c1badNb ∧ wfIds c1badNb idGen ∧
    ebind (explode c1badNb ["n"] idGen []) (fun r => recombine ["n"] r.1)
      = .error "KeyError: " :=
  ⟨by decide, by decide, by decide⟩

/-- C2: locating a cell's source file raises `IndexError` (aborting the
recombine) exactly when the cell directory has zero `source.*` matches; in
particular it does NOT fail when there is more than one match. -/
theorem C2_source_missing_iff (dir : Path) (cid : String) (fs : FS) :
    recombineCell dir cid fs = .error "IndexError: list index out of range"
      ↔ globSource fs (dir ++ [cid]) = [] := by
  constructor
  · intro h
    unfold recombineCell at h
    simp only [] at h
    revert h
    cases hg : globSource fs (dir ++ [cid]) with
    | nil => intro h; rfl
    | cons srcName rest =>
      intro h
      exfalso
      rcases ebind_eq_error h with h3 | ⟨cell0, hc0, h3⟩
      · revert h3
        cases hr : fsRead fs ((dir ++ [cid]) ++ [srcName]) with
        | none => exact fun h3 => absurd (Except.error.inj h3) (by decide)
        | some v =>
          cases v with
          | textF src =>
            simp only []
            by_cases hmd : pathSuffix srcName = ".md"
            · rw [if_pos hmd]
              exact fun h3 => Except.noConfusion h3
            · rw [if_neg hmd]
              by_cases htx : pathSuffix srcName = ".txt"
              · rw [if_pos htx]
                exact fun h3 => Except.noConfusion h3
              · rw [if_neg htx]
                exact fun h3 => Except.noConfusion h3
          | bytesF bs => exact fun h3 => absurd (Except.error.inj h3) (by decide)
          | jsonF d => exact fun h3 => absurd (Except.error.inj h3) (by decide)
      · rcases ebind_eq_error h3 with h4 | ⟨cell1, hc1, h4⟩
        · revert h4
          cases hr : fsRead fs ((dir ++ [cid]) ++ ["metadata.json"]) with
          | none => exact fun h4 => Except.noConfusion h4
          | some v =>
            cases v with
            | jsonF m => exact fun h4 => Except.noConfusion h4
            | textF t => exact fun h4 => absurd (Except.error.inj h4) (by decide)
            | bytesF bs => exact fun h4 => absurd (Except.error.inj h4) (by decide)
        · revert h4
          cases hr : fsRead fs ((dir ++ [cid]) ++ ["outputs_sequence"]) with
          | none => exact fun h4 => Except.noConfusion h4
          | some v =>
            cases v with
            | textF seqTxt =>
              exact fun h4 => emap_ne_error (recombineOutputs_ne_idx _ _ _ _) h4
            | bytesF bs => exact fun h4 => absurd (Except.error.inj h4) (by decide)
            | jsonF d => exact fun h4 => absurd (Except.error.inj h4) (by decide)
  · intro h
    unfold recombineCell
    simp only []
    rw [h]

/-- C2 counterexample input: a cell directory holding both `source.md` and
`source.txt`. -/
def c2fs : FS := [(["n", "c", "source.md"], FileData.textF "a"),
                  (["n", "c", "source.txt"], FileData.textF "b")]

/-- C2 counterexample: with two `source.*` files the glob has two matches, yet
`recombine` does not fail: it silently uses the first match. -/
theorem C2_two_sources_counterexample :
    (globSource c2fs (["n"] ++ ["c"])).length = 2 ∧
    recombineCell ["n"] "c" c2fs
      = .ok (Cell.mk "markdown" "a" [("nbexplode_cell_id", JVal.str "c")] none) :=
  ⟨by decide, by decide⟩

/-- C3 instance: a notebook whose cell metadata holds the reserved key and
whose output holds `output_type`, both of which `explode` pops in place. -/
def c3nb : Notebook :=
  ⟨[("language_info", JVal.doc [("file_extension", ".py")])],
   [Cell.mk "code" "y" [("nbexplode_cell_id", JVal.str "abc")]
     (some [new_stream "stdout" "hi"])]⟩

/-- C3: `explode` writes exactly the tree `explodedFS` (appended to the
journal), but its notebook argument is NOT left unchanged: the call returns
the mutated object `mutNotebook nb`, in which every nonempty output list has
`output_type` popped and every cell's reserved identifier key is popped. -/
theorem C3_explode_returns_tree_and_mutates {nb : Notebook} {dir : Path}
    {gen : Nat → String} {fs : FS}
    (h : ∀ c ∈ nb.cells, wfCellSucc (langExtOf nb.metadata) c) :
    explode nb dir gen fs = .ok (fs ++ explodedFS nb dir gen, mutNotebook nb) :=
  explode_spec h dir fs

/-- C3 witness: the tree-and-mutation equation on the concrete notebook
`c3nb`. -/
theorem C3_explode_witness :
    (∀ c ∈ c3nb.cells, wfCellSucc (langExtOf c3nb.metadata) c) ∧
    explode c3nb ["n"] idGen []
      = .ok ([] ++ explodedFS c3nb ["n"] idGen, mutNotebook c3nb) :=
  ⟨by decide, C3_explode_returns_tree_and_mutates (by decide)⟩

/-- C3 counterexample: on `c3nb` the notebook object `explode` hands back
differs from the argument — the in-memory notebook is mutated, not left
unchanged. -/
theorem C3_inplace_mutation_counterexample :
    mutNotebook c3nb ≠ c3nb ∧
    emap Prod.snd (explode c3nb ["n"] idGen []) = .ok (mutNotebook c3nb) :=
  ⟨by decide, by decide⟩

/-- C4: for any mime-type outside the fixed five-entry table, `explode` fails
hard on a mimebundle output containing it (no silent drop), and `recombine`'s
mimebundle reader fails hard on a descriptor listing it. -/
theorem C4_unknown_mime_hard_failure {mt : String} (hmt : mime_to_ext mt = none) :
    (∀ (o : Output) (cellDir : Path) (i : Nat),
      (o.output_type = some "execute_result" ∨ o.output_type = some "display_data") →
      (∃ p ∈ o.data, p.1 = mt) →
      isError (explode_output o cellDir i)) ∧
    (∀ (ms : List String) (cellDir : Path) (i : Nat) (fs : FS),
      mt ∈ ms → isError (readMimebundle ms cellDir i fs)) := by
  constructor
  · intro o cellDir i htype hex
    have hex2 : ∃ p ∈ o.data, mime_to_ext p.1 = none := by
      obtain ⟨p, hp, he⟩ := hex
      exact ⟨p, hp, by rw [he]; exact hmt⟩
    unfold explode_output
    rcases htype with ht | ht <;> rw [ht] <;> simp only []
    · rw [if_neg (by decide), if_neg (by decide), if_pos (Or.inl trivial)]
      exact isError_ebind _ _ (writeDataFiles_err hex2)
    · rw [if_neg (by decide), if_neg (by decide), if_pos (Or.inr trivial)]
      exact isError_ebind _ _ (writeDataFiles_err hex2)
  · intro ms cellDir i fs hm
    exact readMimebundle_err hmt ms cellDir i fs hm

/-- C4 instance: a `display_data` output carrying a mime-type outside the
table. -/
def c4out : Output :=
  Output.mk (some "display_data") none none [] [("application/x-unknown", "zz")] [] none

/-- C4 witness: both directions of the hard failure at the concrete mime-type
`application/x-unknown`. -/
theorem C4_unknown_mime_witness :
    mime_to_ext "application/x-unknown" = none ∧
    isError (explode_output c4out ["n"] 1) ∧
    isError (readMimebundle ["application/x-unknown"] ["n"] 1 []) :=
  ⟨by decide,
   (@C4_unknown_mime_hard_failure "application/x-unknown" (by decide)).1
     c4out ["n"] 1 (Or.inr rfl) (by decide),
   (@C4_unknown_mime_hard_failure "application/x-unknown" (by decide)).2
     ["application/x-unknown"] ["n"] 1 [] (by decide)⟩

/-- C5: the identifier policy and its stability.  For a well-formed notebook:
`explode` names the cell directories `assignIds` (a stored string under the
reserved key is reused, otherwise the generator mints the next fresh name),
records exactly these in `cells_sequence`; recombining and exploding again —
under ANY second generator — assigns exactly the same identifiers, because
every recombined cell carries its identifier under the reserved key. -/
theorem C5_identifier_stability {nb : Notebook} {dir : Path} {gen gen2 : Nat → String}
    (hwf : wfNotebook nb) (hids : wfIds nb gen)
    (hne : ∀ c ∈ nb.cells, ∀ o ∈ c.outputs.getD [], richNonempty o) :
    explode nb dir gen [] = .ok (explodedFS nb dir gen, mutNotebook nb) ∧
    cellIdsOf (explodedFS nb dir gen) dir = assignIds gen nb.cells 0 ∧
    recombine dir (explodedFS nb dir gen) = .ok (recNotebook nb gen) ∧
    assignIds gen2 (recNotebook nb gen).cells 0 = assignIds gen nb.cells 0 := by
  refine ⟨?_, ?_, recombine_explodedFS hwf hids hne, ?_⟩
  · have h := @explode_spec nb gen (wfCellSucc_of_wfNotebook hwf) dir []
    rwa [List.nil_append] at h
  · unfold cellIdsOf
    rw [explodedFS_cellsSequence]
    simp only []
    exact pySplitlines_linesOut (fun s2 hs2 ch hch => (hids.2 s2 hs2).2 ch hch)
  · exact assignIds_recCells gen2 _ _ 0 (assignIds_length gen nb.cells 0)

/-- C5 instance: one cell with a stored identifier (reused), one without
(freshly minted). -/
def c5nb : Notebook :=
  ⟨[("language_info", JVal.doc [("file_extension", ".py")])],
   [Cell.mk "code" "a" [("nbexplode_cell_id", JVal.str "keepme")] (some []),
    Cell.mk "markdown" "b" [] none]⟩

/-- C5 witness: on `c5nb` the assigned names are the stored `keepme` plus the
fresh `cell0`, and a re-explosion under the different generator `idGen2`
reuses them both. -/
theorem C5_identifier_witness :
    assignIds idGen c5nb.cells 0 = ["keepme", "cell0"] ∧
    (explode c5nb ["n"] idGen [] = .ok (explodedFS c5nb ["n"] idGen, mutNotebook c5nb) ∧
     cellIdsOf (explodedFS c5nb ["n"] idGen) ["n"] = assignIds idGen c5nb.cells 0 ∧
     recombine ["n"] (explodedFS c5nb ["n"] idGen) = .ok (recNotebook c5nb idGen) ∧
     assignIds idGen2 (recNotebook c5nb idGen).cells 0 = assignIds idGen c5nb.cells 0) :=
  ⟨by decide, C5_identifier_stability (by decide) (by decide) (by decide)⟩

/-- C6: the encoded descriptor of an `execute_result` ends in the counter
suffix ` (N)`, and decoding that descriptor against the output's own files
strips the suffix and restores the output, execution counter included. -/
theorem C6_execution_count_roundtrip {cellDir : Path} {k : Nat} {o : Output}
    (hwf : wfOutput o) (hexec : o.output_type = some "execute_result")
    (hne : o.data ≠ []) :
    outputDesc o = joinSep ", " (sortStr (o.data.map Prod.fst)) ++ " ("
      ++ natRepr (o.execution_count.getD 0) ++ ")" ∧
    recombine_output cellDir k (outputDesc o) (outputEntries cellDir k o) = .ok o := by
  constructor
  · unfold outputDesc
    rw [hexec, if_neg (by decide), if_neg (by decide), if_pos rfl]
  · exact recombine_output_roundtrip hwf (fun _ => hne) (fun nm _ => rfl)

/-- C6 instance: an `execute_result` with counter 7 and a text/plain datum. -/
def c6out : Output :=
  Output.mk (some "execute_result") none none [] [("text/plain", "42")] [] (some 7)

/-- C6 witness: the descriptor of `c6out` is `text/plain (7)` and decodes back
to `c6out`. -/
theorem C6_execution_count_witness :
    outputDesc c6out = "text/plain (7)" ∧
    (outputDesc c6out = joinSep ", " (sortStr (c6out.data.map Prod.fst)) ++ " ("
       ++ natRepr (c6out.execution_count.getD 0) ++ ")" ∧
     recombine_output ["n"] 1 (outputDesc c6out) (outputEntries ["n"] 1 c6out)
       = .ok c6out) :=
  ⟨by decide, C6_execution_count_roundtrip (by decide) rfl (by decide)⟩

/-- C6 counterexample input: a cell directory with the one file that the
descriptor references. -/
def c6fs : FS := [(["n", "output1.txt"], FileData.textF "x")]

/-- C6 counterexample: the descriptor `text/plain,(7)` does NOT carry the
claimed ` (N)` suffix (the character before `(7)` is a comma, not a space),
yet decode classifies it as an `execute_result` with counter 7 — the regex
requires only `(N)` at the end and strips one extra character on the blind
assumption it was a space. -/
theorem C6_comma_suffix_counterexample :
    "text/plain,(7)".toList.reverse.take 5 = [')', '7', '(', ',', 'n'] ∧
    recombine_output ["n"] 1 "text/plain,(7)" c6fs
      = .ok { new_execute_result 7 with data := [("text/plain", "x")] } :=
  ⟨by decide, by decide⟩

/-- C7: a (well-formed) cell with zero outputs gets no `outputs_sequence`
file, and recombining its directory yields `recCell`, whose outputs attribute
is the empty list for a code cell but ABSENT for a markdown or raw cell. -/
theorem C7_zero_outputs {langExt : Option String} {dir : Path} {cid : String}
    {c : Cell} (hwfc : wfCell c)
    (hext : c.cell_type = "code" → ∃ e2, langExt = some e2 ∧ wfExt e2)
    (h0 : c.outputs = none ∨ c.outputs = some []) :
    fsRead (cellFiles langExt dir cid (popCell c)) ((dir ++ [cid]) ++ ["outputs_sequence"])
      = none ∧
    recombineCell dir cid (cellFiles langExt dir cid (popCell c)) = .ok (recCell cid c) ∧
    (recCell cid c).outputs = (if c.cell_type = "code" then some [] else none) := by
  have hne : ∀ o ∈ c.outputs.getD [], richNonempty o := by
    intro o ho
    rcases h0 with h0 | h0 <;> rw [h0] at ho <;> exact absurd ho (List.not_mem_nil o)
  refine ⟨?_, ?_, ?_⟩
  · have hs := @fsRead_cellFiles_seq langExt dir cid (popCell c) hwfc.2.2.2.2.2
    rw [hs]
    rcases h0 with h0 | h0 <;>
      rw [show (popCell c).outputs = c.outputs from rfl, h0]
  · have hrt := @recombineCell_roundtrip langExt dir cid c [] [] hwfc hne hext
      (fun e he => absurd he (List.not_mem_nil e))
      (fun e he => absurd he (List.not_mem_nil e))
    rwa [show ([] : FS) ++ (cellFiles langExt dir cid (popCell c) ++ ([] : FS))
        = cellFiles langExt dir cid (popCell c) from by simp] at hrt
  · show c.outputs = _
    by_cases hcd : c.cell_type = "code"
    · rw [if_pos hcd]
      rcases h0 with h0 | h0
      · exact absurd h0 (hwfc.2.2.2.2.1 hcd)
      · exact h0
    · rw [if_neg hcd]
      rcases h0 with h0 | h0
      · exact h0
      · rcases hwfc.2.2.1 with ht | ht | ht
        · have h2 := hwfc.2.2.2.1 (Or.inl ht)
          rw [h0] at h2
          exact Option.noConfusion h2
        · have h2 := hwfc.2.2.2.1 (Or.inr ht)
          rw [h0] at h2
          exact Option.noConfusion h2
        · exact absurd ht hcd

/-- C7 instance: a code cell with an empty output list. -/
def c7cell : Cell := Cell.mk "code" "pass" [] (some [])

/-- C7 witness: the code cell `c7cell` writes no `outputs_sequence` and
recombines to a cell with the empty output list. -/
theorem C7_zero_outputs_witness :
    wfCell c7cell ∧
    (fsRead (cellFiles (some ".py") ["n"] "c" (popCell c7cell))
       ((["n"] ++ ["c"]) ++ ["outputs_sequence"]) = none ∧
     recombineCell ["n"] "c" (cellFiles (some ".py") ["n"] "c" (popCell c7cell))
       = .ok (recCell "c" c7cell) ∧
     (recCell "c" c7cell).outputs
       = (if c7cell.cell_type = "code" then some [] else none)) :=
  ⟨by decide,
   C7_zero_outputs (by decide) (fun _ => ⟨".py", rfl, by decide⟩) (Or.inr rfl)⟩

/-- C7 counterexample input: a markdown cell directory lacking
`outputs_sequence`. -/
def c7fs : FS := [(["n", "c", "source.md"], FileData.textF "hi")]

/-- C7 counterexample: recombining a markdown cell directory that lacks
`outputs_sequence` yields a cell with NO outputs attribute at all, not a cell
with zero outputs. -/
theorem C7_markdown_counterexample :
    fsRead c7fs ["n", "c", "outputs_sequence"] = none ∧
    recombineCell ["n"] "c" c7fs
      = .ok (Cell.mk "markdown" "hi" [("nbexplode_cell_id", JVal.str "c")] none) ∧
    (Cell.mk "markdown" "hi" [("nbexplode_cell_id", JVal.str "c")] none).outputs
      ≠ some [] :=
  ⟨by decide, by decide, by decide⟩

/-- C8: every cell a `recombine` loop body returns carries the reserved key
set to the directory name, and hence has nonempty metadata — whether or not
the directory held a `metadata.json`. -/
theorem C8_reserved_key_always_present {dir : Path} {cid : String} {fs : FS}
    {c2 : Cell} (h : recombineCell dir cid fs = .ok c2) :
    lookupKV c2.metadata "nbexplode_cell_id" = some (JVal.str cid) ∧
    c2.metadata ≠ [] := by
  unfold recombineCell at h
  simp only [] at h
  revert h
  cases hg : globSource fs (dir ++ [cid]) with
  | nil =>
    intro h
    exact Except.noConfusion h
  | cons srcName rest =>
    intro h
    rcases ebind_eq_ok h with ⟨cell0, h0, h1⟩
    rcases ebind_eq_ok h1 with ⟨cell1, h2, h3⟩
    revert h3
    cases hr : fsRead fs ((dir ++ [cid]) ++ ["outputs_sequence"]) with
    | none =>
      intro h3
      rw [← Except.ok.inj h3]
      exact ⟨lookupKV_setKV_self _ _ _, setKV_ne_nil _ _ _⟩
    | some v =>
      cases v with
      | textF seqTxt =>
        intro h3
        rcases emap_eq_ok h3 with ⟨outs, ho, hc2⟩
        rw [hc2]
        exact ⟨lookupKV_setKV_self _ _ _, setKV_ne_nil _ _ _⟩
      | bytesF bs => exact fun h3 => Except.noConfusion h3
      | jsonF d => exact fun h3 => Except.noConfusion h3

/-- C8 instance: a cell directory with a source file and no `metadata.json`. -/
def c8fs : FS := [(["n", "c", "source.md"], FileData.textF "hi")]

/-- C8 witness: the cell recombined from `c8fs` (whose directory has no
`metadata.json`) carries the reserved key and nonempty metadata. -/
theorem C8_reserved_key_witness :
    lookupKV (Cell.mk "markdown" "hi" [("nbexplode_cell_id", JVal.str "c")] none).metadata
      "nbexplode_cell_id" = some (JVal.str "c") ∧
    (Cell.mk "markdown" "hi" [("nbexplode_cell_id", JVal.str "c")] none).metadata ≠ [] :=
  C8_reserved_key_always_present
    (show recombineCell ["n"] "c" c8fs
        = .ok (Cell.mk "markdown" "hi" [("nbexplode_cell_id", JVal.str "c")] none)
      from by decide)

/-- C9: a stream output's descriptor is its `name` copied verbatim, with no
validation on encode; decoding that descriptor against the written file
returns the stream back if and only if the name is the literal `stdout` or
`stderr`. -/
theorem C9_stream_roundtrip_iff (nm tx : String) (cellDir : Path) (k : Nat) :
    explode_output (new_stream nm tx) cellDir k
      = .ok ([(cellDir ++ ["output" ++ natRepr k ++ ".txt"], FileData.textF tx)],
             popOutput (new_stream nm tx), nm) ∧
    ((recombine_output cellDir k nm
        [(cellDir ++ ["output" ++ natRepr k ++ ".txt"], FileData.textF tx)]
        = .ok (new_stream nm tx)) ↔ (nm = "stdout" ∨ nm = "stderr")) := by
  constructor
  · rfl
  · constructor
    · intro h
      by_cases h1 : nm = "stdout" ∨ nm = "stderr"
      · exact h1
      · exfalso
        by_cases h2 : nm = "error"
        · subst h2
          unfold recombine_output at h
          rw [if_neg h1, if_pos rfl] at h
          have ho : ("output" ++ natRepr k ++ ".txt").toList
              = 'o' :: (("utput".toList ++ (natRepr k).toList) ++ ".txt".toList) := by
            rw [toList_append2]
            rfl
          have he : ("error" ++ natRepr k ++ ".json").toList
              = 'e' :: (("rror".toList ++ (natRepr k).toList) ++ ".json".toList) := by
            rw [toList_append2]
            rfl
          rw [fsRead_single_ne (path_snoc_ne (ne_fixed_of_head ho he (by decide)))] at h
          exact Except.noConfusion h
        · have hs : (new_stream nm tx).output_type = some "stream" := rfl
          rcases recombine_output_not_stream h1 h2 h with ht | ht <;>
            (rw [hs] at ht; exact absurd ht (by decide))
    · intro h1
      unfold recombine_output
      rw [if_pos h1]
      rw [fsRead_single, if_pos rfl]

/-- C10: a code cell whose outputs attribute is the empty list explodes
exactly like one with no outputs attribute: the same files are written (no
`outputs_sequence`, no per-output files), for the whole cell body and for the
mirror tree alike. -/
theorem C10_empty_outputs_like_absent (langExt : Option String) (dir : Path)
    (cid : String) (ct src : String) (meta : JDoc) :
    emap Prod.fst (explodeCell langExt dir cid (Cell.mk ct src meta (some [])))
      = emap Prod.fst (explodeCell langExt dir cid (Cell.mk ct src meta none)) ∧
    cellFiles langExt dir cid (Cell.mk ct src meta (some []))
      = cellFiles langExt dir cid (Cell.mk ct src meta none) := by
  constructor
  · unfold explodeCell
    exact ebind_congr_emapFst _ _ _ (fun srcName => rfl)
  · rfl

end Nbexplode
